import Mathlib

/-!
Verification of the JSON parser/serializer (`src/parse.rs`, `src/value.rs`,
`src/unicode.rs`).  The development shallowly embeds the source: the input
text is a `List Char` (Rust `Chars` iterator over unicode scalar values),
`f64` is modelled exactly as IEEE-754 binary64 data with correctly rounded
decimal conversion, `HashMap` is modelled as an association list whose
`insert` replaces in place or appends, and every parser returns an explicit
three-way result (value plus remaining input, failure, or panic) so that
panic-freedom is a provable statement.
-/

set_option maxRecDepth 80000
set_option exponentiation.threshold 10000

namespace JsonRust

/-! ### src/unicode.rs -/

/-- `is_lead_surrogate`: code unit in `[0xD800, 0xDC00)`. -/
def is_lead_surrogate (cu : Nat) : Bool := decide (0xD800 ≤ cu ∧ cu < 0xDC00)

/-- `is_trail_surrogate`: code unit in `[0xDC00, 0xE000)`. -/
def is_trail_surrogate (cu : Nat) : Bool := decide (0xDC00 ≤ cu ∧ cu < 0xE000)

/-- `compose_surrogates`: `((ls - 0xD800) << 10 | (ts - 0xDC00)) + 0x10000`;
the caller guarantees a valid lead/trail pair, for which `Char.ofNat`
models the source's `char::from_u32(..).unwrap()` faithfully. -/
def compose_surrogates (ls ts : Nat) : Char :=
  Char.ofNat ((((ls - 0xD800) <<< 10) ||| (ts - 0xDC00)) + 0x10000)

/-! ### IEEE-754 binary64 model

Rust `f64` values, represented canonically: a finite value is
`(-1)^neg * m * 2^e` with `m < 2^53`, `-1074 ≤ e ≤ 971`, and either
`2^52 ≤ m` (normal) or `e = -1074` (subnormal, including signed zero). -/

inductive F64 where
  | finite (neg : Bool) (m : Nat) (e : Int)
  | infinite (neg : Bool)
  | nan
deriving DecidableEq, Repr

/-- Canonical-representation invariant of the `F64` model; every Rust `f64`
bit pattern denotes exactly one such representation. -/
def F64.wf : F64 → Prop
  | .finite _ m e => m < 2 ^ 53 ∧ -1074 ≤ e ∧ e ≤ 971 ∧ (2 ^ 52 ≤ m ∨ e = -1074)
  | _ => True

/-- `f64::is_finite`. -/
def F64.isFinite : F64 → Bool
  | .finite _ _ _ => true
  | _ => false

/-- Fuel-driven binary logarithm for small arguments. -/
def log2fine : Nat → Nat → Nat → Nat
  | 0, _, acc => acc
  | f + 1, n, acc => if n ≤ 1 then acc else log2fine f (n / 2) (acc + 1)

/-- Binary logarithm, 64 bits per recursion layer (keeps the reduction
depth small enough for kernel evaluation on very large literals). -/
def log2chunk : Nat → Nat → Nat → Nat
  | 0, _, acc => acc
  | f + 1, n, acc =>
    if n < 2 ^ 64 then log2fine 64 n acc else log2chunk f (n / 2 ^ 64) (acc + 64)

/-- `nlog2 n = ⌊log₂ n⌋` for `n ≥ 1`. -/
def nlog2 (n : Nat) : Nat := log2chunk n n 0

/-- Round `num / den` to the nearest integer, ties to even (`den ≠ 0`). -/
def rndNat (num den : Nat) : Nat :=
  let q := num / den
  let r := num % den
  if den < 2 * r then q + 1
  else if 2 * r < den then q
  else if q % 2 = 0 then q else q + 1

/-- Decide `2 ^ k ≤ num / den` over the rationals. -/
def pow2Le (num den : Nat) (k : Int) : Bool :=
  if 0 ≤ k then decide (den * 2 ^ k.toNat ≤ num) else decide (den ≤ num * 2 ^ (-k).toNat)

/-- `⌊log₂ (num / den)⌋` for positive `num`, `den`. -/
def ilog2 (num den : Nat) : Int :=
  let a : Int := (nlog2 num : Int) - (nlog2 den : Int)
  if pow2Le num den (a + 1) then a + 1
  else if pow2Le num den a then a
  else a - 1

/-- The fraction `(num / den) / 2 ^ e`. -/
def scaleDown (num den : Nat) (e : Int) : Nat × Nat :=
  if 0 ≤ e then (num, den * 2 ^ e.toNat) else (num * 2 ^ (-e).toNat, den)

/-- Modelled from the spec: conversion of the exact rational `num / den`
(`den ≠ 0`) with sign `neg` to double precision, rounding to nearest with
ties to even, overflowing to infinity — the "standard floating-point
literal" semantics (Rust std's correctly rounded `f64` conversion) that
`parse_number` delegates to and that is not part of `src/`. -/
def mkF64 (neg : Bool) (num den : Nat) : F64 :=
  if num = 0 then .finite neg 0 (-1074)
  else
    let e0 : Int := max (-1074) (ilog2 num den - 52)
    let p := scaleDown num den e0
    let m1 := rndNat p.1 p.2
    let m2 := if m1 = 2 ^ 53 then 2 ^ 52 else m1
    let e2 : Int := if m1 = 2 ^ 53 then e0 + 1 else e0
    if 971 < e2 then .infinite neg else .finite neg m2 e2

/-- The double denoted by the decimal `(-1)^neg * d * 10 ^ e10`. -/
def decToF64 (neg : Bool) (d : Nat) (e10 : Int) : F64 :=
  if 0 ≤ e10 then mkF64 neg (d * 10 ^ e10.toNat) 1 else mkF64 neg d (10 ^ (-e10).toNat)

/-- Value of a decimal digit string (most significant first). -/
def digitsVal (cs : List Char) : Nat := cs.foldl (fun a c => a * 10 + (c.toNat - 48)) 0

/-- Modelled from the spec: Rust std's `f64::from_str` (the target of the
`num_str.parse().unwrap()` in `parse_number`, not part of `src/`),
restricted to the shapes `parse_number` can consume:
`-? digits (. digits*)? ([eE] [+-]? digits)?`, correctly rounded. -/
def strToF64 (cs : List Char) : Option F64 :=
  let neg : Bool := decide (cs.head? = some '-')
  let cs1 := if cs.head? = some '-' then cs.tail else cs
  let intd := cs1.takeWhile Char.isDigit
  let cs2 := cs1.dropWhile Char.isDigit
  if intd.isEmpty then none else
  let fracTail := if cs2.head? = some '.' then cs2.tail else []
  let frac := fracTail.takeWhile Char.isDigit
  let cs3 := if cs2.head? = some '.' then fracTail.dropWhile Char.isDigit else cs2
  let mant := digitsVal (intd ++ frac)
  if cs3.isEmpty then some (decToF64 neg mant (-(frac.length : Int)))
  else if cs3.head? = some 'e' ∨ cs3.head? = some 'E' then
    let etail := cs3.tail
    let eneg : Bool := decide (etail.head? = some '-')
    let etail2 := if etail.head? = some '-' ∨ etail.head? = some '+' then etail.tail else etail
    let ed := etail2.takeWhile Char.isDigit
    if ed.isEmpty ∨ ¬ (etail2.dropWhile Char.isDigit).isEmpty then none
    else
      let ex : Int := if eneg then -(digitsVal ed : Int) else (digitsVal ed : Int)
      some (decToF64 neg mant (ex - (frac.length : Int)))
  else none

/-! ### src/value.rs : the data model -/

inductive Value where
  | null
  | bool (b : Bool)
  | number (n : F64)
  | string (s : List Char)
  | object (o : List (List Char × Value))
  | array (a : List Value)

/-- Model of `HashMap::insert`: if the key is present replace its value in
place, otherwise append the new entry (iteration order of the Rust map is
unspecified; this picks a concrete one). -/
def insertKV (out : List (List Char × Value)) (k : List Char) (v : Value) :
    List (List Char × Value) :=
  if out.any (fun p => decide (p.1 = k)) then
    out.map (fun p => if p.1 = k then (k, v) else p)
  else out ++ [(k, v)]

/-! ### src/value.rs : the serializer -/

/-- The decimal digit `d` as a character. -/
def digitChar (d : Nat) : Char := Char.ofNat (48 + d)

def natCharsAux : Nat → Nat → List Char → List Char
  | 0, _, acc => acc
  | f + 1, n, acc => if n = 0 then acc else natCharsAux f (n / 10) (digitChar (n % 10) :: acc)

/-- Decimal digit string of `n` (no sign, no leading zeros except for `0`). -/
def natChars (n : Nat) : List Char := if n = 0 then ['0'] else natCharsAux n n []

/-- Lowercase hexadecimal digit. -/
def hexChar (d : Nat) : Char :=
  if d < 10 then Char.ofNat (48 + d) else Char.ofNat (87 + d)

/-- `write!("{:04x}", n)` for `n < 0x10000`: four zero-padded lowercase hex digits. -/
def toHex4 (n : Nat) : List Char :=
  [hexChar (n / 4096 % 16), hexChar (n / 256 % 16), hexChar (n / 16 % 16), hexChar (n % 16)]

/-- One character of `Value::append_str`'s escaping match. -/
def escChar (c : Char) : List Char :=
  if c = '\x08' then ['\\', 'b']
  else if c = '\x0c' then ['\\', 'f']
  else if c = '\n' then ['\\', 'n']
  else if c = '\r' then ['\\', 'r']
  else if c = '\t' then ['\\', 't']
  else if c = '"' then ['\\', '"']
  else if c = '\\' then ['\\', '\\']
  else if c.toNat ≤ 0x19 then '\\' :: 'u' :: toHex4 c.toNat
  else [c]

/-- `Value::append_str`: quoted, escaped rendering of a string. -/
def append_str (s : List Char) : List Char :=
  '"' :: s.foldr (fun c acc => escChar c ++ acc) ['"']

/-- Decimal digit count for small arguments, via fuel. -/
def digitsFine : Nat → Nat → Nat → Nat
  | 0, _, acc => acc
  | f + 1, n, acc => if n < 10 then acc else digitsFine f (n / 10) (acc + 1)

/-- Decimal digit count, 32 digits per recursion layer. -/
def digitsChunk : Nat → Nat → Nat → Nat
  | 0, _, acc => acc
  | f + 1, n, acc =>
    if n < 10 ^ 32 then digitsFine 32 n acc else digitsChunk f (n / 10 ^ 32) (acc + 32)

/-- Number of decimal digits of `n` (`= 1` for `n = 0`). -/
def numDigits (n : Nat) : Nat := digitsChunk n n 1

/-- Decide `10 ^ k ≤ num / den` over the rationals. -/
def pow10Le (num den : Nat) (k : Int) : Bool :=
  if 0 ≤ k then decide (den * 10 ^ k.toNat ≤ num) else decide (den ≤ num * 10 ^ (-k).toNat)

/-- `⌊log₁₀ (num / den)⌋` for positive `num`, `den`. -/
def ilog10 (num den : Nat) : Int :=
  let a : Int := (numDigits num : Int) - (numDigits den : Int)
  if pow10Le num den (a + 1) then a + 1
  else if pow10Le num den a then a
  else a - 1

/-- The positive rational `m * 2 ^ e` as a (numerator, denominator) pair. -/
def ratOf (m : Nat) (e : Int) : Nat × Nat :=
  if 0 ≤ e then (m * 2 ^ e.toNat, 1) else (m, 2 ^ (-e).toNat)

/-- Try to represent the positive finite double `(neg, m, e)` with `p`
significant decimal digits: round its value to the two nearest `p`-digit
decimals (closest first, ties to even) and return the first that parses
back to the same double, as (digits value, decimal exponent). -/
def tryPrec (neg : Bool) (m : Nat) (e : Int) (p : Nat) : Option (Nat × Int) :=
  let nd := ratOf m e
  let k := ilog10 nd.1 nd.2
  let s : Int := k - (p : Int) + 1
  let cnd := if 0 ≤ s then (nd.1, nd.2 * 10 ^ s.toNat) else (nd.1 * 10 ^ (-s).toNat, nd.2)
  let d0 := cnd.1 / cnd.2
  let r := cnd.1 % cnd.2
  let downFirst : Bool := decide (2 * r < cnd.2 ∨ (2 * r = cnd.2 ∧ d0 % 2 = 0))
  let c1 := if downFirst then d0 else d0 + 1
  let c2 := if downFirst then d0 + 1 else d0
  if decToF64 neg c1 s = .finite neg m e then some (c1, s)
  else if decToF64 neg c2 s = .finite neg m e then some (c2, s)
  else none

/-- Drop trailing decimal zeros of `d`, bumping the exponent. -/
def stripZerosAux : Nat → Nat → Int → Nat × Int
  | 0, d, s => (d, s)
  | f + 1, d, s => if d % 10 = 0 ∧ d ≠ 0 then stripZerosAux f (d / 10) (s + 1) else (d, s)

def stripZeros (d : Nat) (s : Int) : Nat × Int := stripZerosAux d d s

/-- The exact decimal expansion of `m * 2 ^ e` (every finite double is a
finite decimal), used as fallback when no short representation was found. -/
def exactDec (m : Nat) (e : Int) : Nat × Int :=
  if 0 ≤ e then stripZeros (m * 2 ^ e.toNat) 0 else stripZeros (m * 5 ^ (-e).toNat) e

/-- Modelled from the spec: layout of the decimal `(-1)^neg * d * 10 ^ s`
following the conventions of typical JSON encoders (JavaScript's
`Number#toString` thresholds): plain notation for magnitudes in
`[1e-6, 1e21)` and for zero-fraction integers below `1e21`, scientific
notation (`1e-123`, `1.5e+25`) otherwise. -/
def fmtDec (neg : Bool) (d : Nat) (s : Int) : List Char :=
  let ds := natChars d
  let p := ds.length
  let k : Int := (p : Int) + s - 1
  let sign : List Char := if neg then ['-'] else []
  if 0 ≤ s ∧ k < 21 then
    sign ++ ds ++ List.replicate s.toNat '0'
  else if 0 ≤ k ∧ k < 21 then
    sign ++ ds.take (k.toNat + 1) ++ '.' :: ds.drop (k.toNat + 1)
  else if -7 < k ∧ k < 0 then
    sign ++ '0' :: '.' :: (List.replicate (-(k + 1)).toNat '0' ++ ds)
  else
    sign ++ ds.take 1 ++ (if 1 < p then '.' :: ds.drop 1 else []) ++
      'e' :: (if k < 0 then ['-'] else ['+']) ++ natChars k.natAbs

/-- Modelled from the spec: the shortest-round-trip decimal formatter for
finite doubles (the external `ryu` crate's `format_finite`, which is not
part of `src/`, described by the spec as "minimal digits such that
re-parsing yields the same value" with JSON-encoder layout conventions).
Searches precisions 1..17 for the first whose nearest decimal re-parses to
the argument, falling back to the exact decimal expansion. -/
def fmt_finite : F64 → List Char
  | .finite neg m e =>
    if m = 0 then (if neg then ['-', '0'] else ['0'])
    else
      let ds := match (List.range 17).findSome? (fun i => tryPrec neg m e (i + 1)) with
        | some r => r
        | none => exactDec m e
      fmtDec neg ds.1 ds.2
  | _ => []

mutual

/-- `Value::append` (also `Display::fmt` / `to_string`): compact JSON text. -/
def Value.append : Value → List Char
  | .null => ['n', 'u', 'l', 'l']
  | .bool b => if b then ['t', 'r', 'u', 'e'] else ['f', 'a', 'l', 's', 'e']
  | .number n => if n.isFinite then fmt_finite n else ['n', 'u', 'l', 'l']
  | .string s => append_str s
  | .object o => '{' :: (appendEntries o ++ ['}'])
  | .array a => '[' :: (appendElems a ++ [']'])

/-- The object body: first entry, then comma-separated tail. -/
def appendEntries : List (List Char × Value) → List Char
  | [] => []
  | (k, v) :: rest => append_str k ++ ':' :: (Value.append v ++ appendEntriesTail rest)

def appendEntriesTail : List (List Char × Value) → List Char
  | [] => []
  | (k, v) :: rest =>
    ',' :: (append_str k ++ ':' :: (Value.append v ++ appendEntriesTail rest))

/-- The array body: first element, then comma-separated tail. -/
def appendElems : List Value → List Char
  | [] => []
  | v :: rest => Value.append v ++ appendElemsTail rest

def appendElemsTail : List Value → List Char
  | [] => []
  | v :: rest => ',' :: (Value.append v ++ appendElemsTail rest)

end

/-! ### src/parse.rs -/

/-- Parser outcome: success with remaining input, clean failure (`None` in
the source), or a Rust panic (`unwrap`/`assert!` failure). -/
inductive PRes (α : Type) where
  | ok (val : α) (rest : List Char)
  | fail
  | panic
deriving DecidableEq, Repr

/-- Map over the produced value. -/
def PRes.mapv {α β : Type} (f : α → β) : PRes α → PRes β
  | .ok a r => .ok (f a) r
  | .fail => .fail
  | .panic => .panic

/-- Top-level outcome (no remaining input): `Some`, `None`, or panic. -/
inductive TRes (α : Type) where
  | ok (val : α)
  | fail
  | panic
deriving DecidableEq, Repr

/-- `is_ws`: exactly space, tab, newline, carriage return. -/
def is_ws (c : Char) : Bool := c = ' ' || c = '\t' || c = '\n' || c = '\r'

/-- Hex digit value, as in `char::to_digit(16)`. -/
def hexDigitVal (c : Char) : Option Nat :=
  if '0' ≤ c ∧ c ≤ '9' then some (c.toNat - 48)
  else if 'a' ≤ c ∧ c ≤ 'f' then some (c.toNat - 87)
  else if 'A' ≤ c ∧ c ≤ 'F' then some (c.toNat - 55)
  else none

/-- Model of Rust std's `u16::from_str_radix(s, 16)` for an unsigned type:
an optional leading `+`, then one or more hex digits, no other characters;
errors on overflow past `u16::MAX`. -/
def u16_from_str_radix16 (cs : List Char) : Option Nat :=
  let digits := if cs.head? = some '+' then cs.tail else cs
  if digits.isEmpty then none
  else
    match digits.foldl
        (fun acc c =>
          match acc, hexDigitVal c with
          | some a, some d => some (a * 16 + d)
          | _, _ => none)
        (some 0) with
    | some v => if v < 65536 then some v else none
    | none => none

/-- `parse_four_hex`: take four characters and read them in base 16. -/
def parse_four_hex : List Char → Option (Nat × List Char)
  | c1 :: c2 :: c3 :: c4 :: rest =>
    match u16_from_str_radix16 [c1, c2, c3, c4] with
    | some n => some (n, rest)
    | none => none
  | _ => none

/-- `char::from_u32`: `none` exactly on surrogates and values above 0x10FFFF. -/
def charFromU32 (n : Nat) : Option Char :=
  if n.isValidChar then some (Char.ofNat n) else none

def replacementChar : Char := Char.ofNat 0xFFFD

/-- `flush_pending!`: a pending lead surrogate becomes one replacement character. -/
def flushP : Option Nat → List Char
  | some _ => [replacementChar]
  | none => []

/-- The decode loop of `parse_string`, after the opening quote: returns the
decoded contents and the input after the closing quote.  `pending` is the
held lead surrogate awaiting a trail. -/
def string_loop : List Char → Option Nat → PRes (List Char)
  | [], _ => .fail
  | c :: cs, pending =>
    if c = '"' then .ok (flushP pending) cs
    else if c = '\\' then
      match cs with
      | [] => .fail
      | e :: cs2 =>
        if e = '"' then (string_loop cs2 none).mapv (fun o => flushP pending ++ '"' :: o)
        else if e = '\\' then (string_loop cs2 none).mapv (fun o => flushP pending ++ '\\' :: o)
        else if e = '/' then (string_loop cs2 none).mapv (fun o => flushP pending ++ '/' :: o)
        else if e = 'b' then (string_loop cs2 none).mapv (fun o => flushP pending ++ '\x08' :: o)
        else if e = 'f' then (string_loop cs2 none).mapv (fun o => flushP pending ++ '\x0c' :: o)
        else if e = 'n' then (string_loop cs2 none).mapv (fun o => flushP pending ++ '\n' :: o)
        else if e = 'r' then (string_loop cs2 none).mapv (fun o => flushP pending ++ '\r' :: o)
        else if e = 't' then (string_loop cs2 none).mapv (fun o => flushP pending ++ '\t' :: o)
        else if e = 'u' then
          match cs2 with
          | c1 :: c2 :: c3 :: c4 :: cs3 =>
            match u16_from_str_radix16 [c1, c2, c3, c4] with
            | none => .fail
            | some cu =>
              match charFromU32 cu with
              | some ch => (string_loop cs3 none).mapv (fun o => flushP pending ++ ch :: o)
              | none =>
                if is_lead_surrogate cu then
                  (string_loop cs3 (some cu)).mapv (fun o => flushP pending ++ o)
                else if is_trail_surrogate cu then
                  match pending with
                  | some lcu =>
                    (string_loop cs3 none).mapv (fun o => compose_surrogates lcu cu :: o)
                  | none =>
                    (string_loop cs3 none).mapv (fun o => replacementChar :: o)
                else .panic
          | _ => .fail
        else .fail
    else if c.toNat ≤ 0x19 then .fail
    else (string_loop cs none).mapv (fun o => flushP pending ++ c :: o)

/-- `parse_string`: opening quote, then the decode loop. -/
def parse_string : List Char → PRes (List Char)
  | c :: cs => if c = '"' then string_loop cs none else .fail
  | [] => .fail

/-- The second half of `parse_number` (after the integer part): the
speculative fraction and exponent suffixes, then the conversion of the
consumed substring via the std float conversion (`unwrap` = panic on
failure).  Split out of `parse_number` only to give the proofs a name for
this continuation. -/
def parse_number_tail (input cs2 : List Char) : PRes F64 :=
  let cs3 :=
    if cs2.head? = some '.' then
      match cs2.tail.head? with
      | some f1 => if f1.isDigit then cs2.tail.dropWhile Char.isDigit else cs2
      | none => cs2
    else cs2
  let cs4 :=
    if cs3.head? = some 'e' ∨ cs3.head? = some 'E' then
      let echars := cs3.tail
      let echars2 :=
        if echars.head? = some '+' ∨ echars.head? = some '-' then echars.tail else echars
      match echars2.head? with
      | some d => if d.isDigit then echars2.dropWhile Char.isDigit else cs3
      | none => cs3
    else cs3
  match strToF64 (input.take (input.length - cs4.length)) with
  | some v => .ok v cs4
  | none => .panic

/-- `parse_number`: optional `-`; integer part `0` or nonzero digit then
digits; then the speculative suffixes of `parse_number_tail` (committed
only if at least one digit follows the dot, respectively the `e`/`E` and
optional sign). -/
def parse_number (input : List Char) : PRes F64 :=
  match input.head? with
  | none => .fail
  | some c0 =>
    let cs1 := if c0 = '-' then input.tail else input
    match cs1.head? with
    | none => .fail
    | some c1 =>
      let ics : Option (List Char) :=
        if c1 = '0' then some cs1.tail
        else if c1.isDigit then some (cs1.dropWhile Char.isDigit)
        else none
      match ics with
      | none => .fail
      | some cs2 => parse_number_tail input cs2

/-- `parse_keyword`'s character-by-character match. -/
def matchChars : List Char → List Char → Option (List Char)
  | cs, [] => some cs
  | c :: cs, k :: ks => if c = k then matchChars cs ks else none
  | [], _ :: _ => none

/-- `parse_keyword`: exact literal match, producing the given value. -/
def parse_keyword (input kw : List Char) (expected : Value) : PRes Value :=
  match matchChars input kw with
  | some rest => .ok expected rest
  | none => .fail

mutual

/-- `parse_value`: dispatch on the next character.  The fuel only bounds
the mutual recursion depth; `fuelFor` below always provides enough. -/
def parse_value : Nat → List Char → PRes Value
  | 0, _ => .fail
  | fuel + 1, cs =>
    match cs with
    | [] => .fail
    | c :: _ =>
      if c = '{' then (parse_object fuel cs).mapv Value.object
      else if c = '[' then (parse_array fuel cs).mapv Value.array
      else if c = '"' then (parse_string cs).mapv Value.string
      else if c = '-' ∨ c.isDigit then (parse_number cs).mapv Value.number
      else if c = 'f' then parse_keyword cs ['f', 'a', 'l', 's', 'e'] (.bool false)
      else if c = 'n' then parse_keyword cs ['n', 'u', 'l', 'l'] .null
      else if c = 't' then parse_keyword cs ['t', 'r', 'u', 'e'] (.bool true)
      else .fail

/-- `parse_object`: `{`, whitespace, empty-or-entries, `}`. -/
def parse_object : Nat → List Char → PRes (List (List Char × Value))
  | 0, _ => .fail
  | fuel + 1, cs =>
    match cs with
    | [] => .fail
    | b :: cs1 =>
      if b = '{' then
        match cs1.dropWhile is_ws with
        | [] => .fail
        | c :: cs2t =>
          if c = '}' then .ok [] cs2t
          else
            match consume_object_entry fuel (c :: cs2t) [] with
            | .ok out cs3 => parse_object_loop fuel (cs3.dropWhile is_ws) out
            | .fail => .fail
            | .panic => .panic
      else .fail

/-- The entry loop of `parse_object`: `}` closes, `,` precedes another entry. -/
def parse_object_loop : Nat → List Char → List (List Char × Value) →
    PRes (List (List Char × Value))
  | 0, _, _ => .fail
  | fuel + 1, cs, out =>
    match cs with
    | [] => .fail
    | c :: rest =>
      if c = '}' then .ok out rest
      else if c = ',' then
        match consume_object_entry fuel (rest.dropWhile is_ws) out with
        | .ok out2 cs3 => parse_object_loop fuel (cs3.dropWhile is_ws) out2
        | .fail => .fail
        | .panic => .panic
      else .fail

/-- `consume_object_entry`: quoted key, `:`, value; inserts into the map. -/
def consume_object_entry : Nat → List Char → List (List Char × Value) →
    PRes (List (List Char × Value))
  | 0, _, _ => .fail
  | fuel + 1, cs, out =>
    match parse_string cs with
    | .ok key cs1 =>
      match cs1.dropWhile is_ws with
      | [] => .fail
      | c :: cs2 =>
        if c = ':' then
          match parse_value fuel (cs2.dropWhile is_ws) with
          | .ok v cs3 => .ok (insertKV out key v) cs3
          | .fail => .fail
          | .panic => .panic
        else .fail
    | .fail => .fail
    | .panic => .panic

/-- `parse_array`: `[`, whitespace, empty-or-elements, `]`. -/
def parse_array : Nat → List Char → PRes (List Value)
  | 0, _ => .fail
  | fuel + 1, cs =>
    match cs with
    | [] => .fail
    | b :: cs1 =>
      if b = '[' then
        match cs1.dropWhile is_ws with
        | [] => .fail
        | c :: cs2t =>
          if c = ']' then .ok [] cs2t
          else
            match parse_value fuel (c :: cs2t) with
            | .ok v cs3 => parse_array_loop fuel (cs3.dropWhile is_ws) [v]
            | .fail => .fail
            | .panic => .panic
      else .fail

/-- The element loop of `parse_array`. -/
def parse_array_loop : Nat → List Char → List Value → PRes (List Value)
  | 0, _, _ => .fail
  | fuel + 1, cs, out =>
    match cs with
    | [] => .fail
    | c :: rest =>
      if c = ']' then .ok out rest
      else if c = ',' then
        match parse_value fuel (rest.dropWhile is_ws) with
        | .ok v cs3 => parse_array_loop fuel (cs3.dropWhile is_ws) (out ++ [v])
        | .fail => .fail
        | .panic => .panic
      else .fail

end

/-- Fuel that always suffices (each mutual call either consumes input or is
one of boundedly many consecutive non-consuming dispatches). -/
def fuelFor (s : List Char) : Nat := 3 * s.length + 5

/-- `parse`: skip whitespace, one value, skip whitespace, require the end. -/
def parse (s : List Char) : TRes Value :=
  match parse_value (fuelFor s) (s.dropWhile is_ws) with
  | .ok v rest => if (rest.dropWhile is_ws).isEmpty then .ok v else .fail
  | .fail => .fail
  | .panic => .panic

/-! ### Infrastructure lemmas -/

@[simp]
theorem PRes.mapv_ok {α β : Type} (f : α → β) (a : α) (r : List Char) :
    (PRes.ok a r).mapv f = .ok (f a) r := rfl

@[simp]
theorem PRes.mapv_fail {α β : Type} (f : α → β) : (PRes.fail : PRes α).mapv f = .fail := rfl

@[simp]
theorem PRes.mapv_panic {α β : Type} (f : α → β) : (PRes.panic : PRes α).mapv f = .panic := rfl

@[simp]
theorem PRes.mapv_mapv {α β γ : Type} (f : α → β) (g : β → γ) (r : PRes α) :
    (r.mapv f).mapv g = r.mapv (fun a => g (f a)) := by
  cases r <;> rfl

theorem Char.toNat_ofNat_valid {n : Nat} (h : n.isValidChar) :
    (Char.ofNat n).toNat = n := by
  simp [Char.ofNat, h, Char.ofNatAux, Char.toNat, UInt32.toNat, UInt32.ofNatCore]

/-- Association-list lookup, keyed on string equality (models `HashMap` get). -/
def lookupKV (o : List (List Char × Value)) (k : List Char) : Option Value :=
  match o with
  | [] => none
  | p :: rest => if p.1 = k then some p.2 else lookupKV rest k

/-! ### Claim C10: numeric overflow at the public interface -/

/-- C10: the syntactically valid number literal `1e999` exceeds the double
range; `parse` accepts it as positive infinity rather than failing, and
rendering that result produces the literal text `null`, so parse-then-render
maps a valid JSON number text to `null`. -/
theorem C10_overflow_parses_to_infinity_then_renders_null :
    parse "1e999".toList = .ok (.number (.infinite false)) ∧
    Value.append (.number (.infinite false)) = "null".toList :=
  ⟨rfl, rfl⟩

/-! ### Claim C8: rendering is total; non-finite numbers render as null -/

theorem natCharsAux_length_le (f : Nat) :
    ∀ n acc, acc.length ≤ (natCharsAux f n acc).length := by
  induction f with
  | zero => intro n acc; simp [natCharsAux]
  | succ f ih =>
    intro n acc
    rw [natCharsAux]
    by_cases h : n = 0
    · simp [h]
    · simp only [h, if_false]
      exact le_trans (by simp) (ih (n / 10) (digitChar (n % 10) :: acc))

theorem natChars_ne_nil (n : Nat) : natChars n ≠ [] := by
  rw [natChars]
  by_cases h : n = 0
  · simp [h]
  · rw [if_neg h]
    rcases n with _ | m
    · exact absurd rfl h
    · rw [natCharsAux, if_neg h]
      intro hnil
      have hl := natCharsAux_length_le m ((m + 1) / 10) [digitChar ((m + 1) % 10)]
      rw [hnil] at hl
      simp at hl

theorem fmtDec_ne_nil (neg : Bool) (d : Nat) (s : Int) : fmtDec neg d s ≠ [] := by
  rw [fmtDec]
  split
  · simp [natChars_ne_nil]
  · split
    · simp
    · split <;> simp

theorem fmt_finite_ne_nil (neg : Bool) (m : Nat) (e : Int) :
    fmt_finite (.finite neg m e) ≠ [] := by
  rw [fmt_finite]
  by_cases h : m = 0
  · cases neg <;> simp [h]
  · simp only [h, if_false]
    exact fmtDec_ne_nil _ _ _

/-- C8: rendering is total over all `Value`s — it is a function in the model,
and it always produces at least one character — and every non-finite
`Number` (NaN or either infinity) renders as the literal text `null`,
including below the top level. -/
theorem C8_render_total_nonfinite_to_null :
    (∀ b, Value.append (.number (.infinite b)) = "null".toList) ∧
    Value.append (.number .nan) = "null".toList ∧
    Value.append (.array [.number .nan, .number (.infinite true)]) = "[null,null]".toList ∧
    Value.append (.object [(['k'], .number (.infinite false))]) = "\x7b\"k\":null\x7d".toList ∧
    (∀ v : Value, Value.append v ≠ []) := by
  refine ⟨fun b => by cases b <;> rfl, rfl, rfl, rfl, fun v => ?_⟩
  cases v with
  | null => simp [Value.append]
  | bool b => cases b <;> simp [Value.append]
  | number n =>
    cases n with
    | finite neg m e => simpa [Value.append, F64.isFinite] using fmt_finite_ne_nil neg m e
    | infinite b => simp [Value.append, F64.isFinite]
    | nan => simp [Value.append, F64.isFinite]
  | string s => simp [Value.append, append_str]
  | object o => simp [Value.append]
  | array a => simp [Value.append]

/-! ### Claim C7: duplicate object keys, last write wins -/

theorem lookupKV_append_self (out : List (List Char × Value)) (k : List Char) (v : Value)
    (h : out.any (fun p => decide (p.1 = k)) = false) :
    lookupKV (out ++ [(k, v)]) k = some v := by
  induction out with
  | nil => simp [lookupKV]
  | cons p rest ih =>
    simp only [List.any_cons, Bool.or_eq_false_iff, decide_eq_false_iff_not] at h
    simp only [List.cons_append, lookupKV, if_neg h.1]
    exact ih h.2

theorem lookupKV_map_self (out : List (List Char × Value)) (k : List Char) (v : Value)
    (h : out.any (fun p => decide (p.1 = k)) = true) :
    lookupKV (out.map (fun p => if p.1 = k then (k, v) else p)) k = some v := by
  induction out with
  | nil => simp at h
  | cons p rest ih =>
    by_cases hp : p.1 = k
    · simp [lookupKV, hp]
    · simp only [List.any_cons, Bool.or_eq_true_iff, decide_eq_true_eq] at h
      rcases h with h | h
      · exact absurd h hp
      · simp only [List.map_cons, if_neg hp, lookupKV, if_neg hp]
        exact ih h

/-- C7: parsing an object literal with two entries of the same key keeps only
the later value: the concrete input yields exactly one entry mapping to `2`;
in general the model's `HashMap::insert` makes the key map to the newly
inserted value, never growing the map by more than the one entry. -/
theorem C7_duplicate_keys_last_write_wins :
    parse "\x7b\"a\":1,\"a\":2\x7d".toList =
      .ok (.object [(['a'], .number (.finite false 4503599627370496 (-51)))]) ∧
    (∀ out k v, lookupKV (insertKV out k v) k = some v) ∧
    (∀ out k v, (insertKV out k v).length ≤ out.length + 1) := by
  refine ⟨rfl, fun out k v => ?_, fun out k v => ?_⟩
  · rw [insertKV]
    by_cases h : out.any (fun p => decide (p.1 = k)) = true
    · rw [if_pos h]; exact lookupKV_map_self out k v h
    · rw [if_neg h]
      exact lookupKV_append_self out k v (Bool.eq_false_iff.mpr h)
  · rw [insertKV]
    split <;> simp

/-! ### Claim C2: surrogate decoding in string literals -/

/-- Detects whether the input begins with a `\uXXXX` escape whose code unit
is a trail surrogate (the only continuation that completes a pending lead). -/
def trailEscHead : List Char → Option (Nat × List Char)
  | '\\' :: 'u' :: c1 :: c2 :: c3 :: c4 :: rest =>
    match u16_from_str_radix16 [c1, c2, c3, c4] with
    | some cu => if is_trail_surrogate cu then some (cu, rest) else none
    | none => none
  | _ => none

theorem charFromU32_of_trail {cu : Nat} (h : is_trail_surrogate cu = true) :
    charFromU32 cu = none := by
  simp only [is_trail_surrogate, decide_eq_true_eq] at h
  have : ¬ cu.isValidChar := by simp only [Nat.isValidChar]; omega
  simp [charFromU32, this]

theorem is_lead_of_trail {cu : Nat} (h : is_trail_surrogate cu = true) :
    is_lead_surrogate cu = false := by
  simp only [is_trail_surrogate, decide_eq_true_eq] at h
  simp only [is_lead_surrogate, decide_eq_false_iff_not]
  omega

@[simp]
theorem string_loop_nil (p : Option Nat) : string_loop [] p = .fail := rfl

/-- One-step unfolding of the decode loop on a nonempty input. -/
theorem string_loop_cons (c : Char) (cs : List Char) (pending : Option Nat) :
    string_loop (c :: cs) pending =
      (if c = '"' then PRes.ok (flushP pending) cs
      else
        if c = '\\' then
          match cs with
          | [] => PRes.fail
          | e :: cs2 =>
            if e = '"' then PRes.mapv (fun o => flushP pending ++ '"' :: o) (string_loop cs2 none)
            else
              if e = '\\' then
                PRes.mapv (fun o => flushP pending ++ '\\' :: o) (string_loop cs2 none)
              else
                if e = '/' then
                  PRes.mapv (fun o => flushP pending ++ '/' :: o) (string_loop cs2 none)
                else
                  if e = 'b' then
                    PRes.mapv (fun o => flushP pending ++ '\x08' :: o) (string_loop cs2 none)
                  else
                    if e = 'f' then
                      PRes.mapv (fun o => flushP pending ++ '\x0c' :: o) (string_loop cs2 none)
                    else
                      if e = 'n' then
                        PRes.mapv (fun o => flushP pending ++ '\n' :: o) (string_loop cs2 none)
                      else
                        if e = 'r' then
                          PRes.mapv (fun o => flushP pending ++ '\r' :: o) (string_loop cs2 none)
                        else
                          if e = 't' then
                            PRes.mapv (fun o => flushP pending ++ '\t' :: o) (string_loop cs2 none)
                          else
                            if e = 'u' then
                              match cs2 with
                              | c1 :: c2 :: c3 :: c4 :: cs3 =>
                                match u16_from_str_radix16 [c1, c2, c3, c4] with
                                | none => PRes.fail
                                | some cu =>
                                  match charFromU32 cu with
                                  | some ch =>
                                    PRes.mapv (fun o => flushP pending ++ ch :: o)
                                      (string_loop cs3 none)
                                  | none =>
                                    if is_lead_surrogate cu = true then
                                      PRes.mapv (fun o => flushP pending ++ o)
                                        (string_loop cs3 (some cu))
                                    else
                                      if is_trail_surrogate cu = true then
                                        match pending with
                                        | some lcu =>
                                          PRes.mapv (fun o => compose_surrogates lcu cu :: o)
                                            (string_loop cs3 none)
                                        | none =>
                                          PRes.mapv (fun o => replacementChar :: o)
                                            (string_loop cs3 none)
                                      else PRes.panic
                              | _ => PRes.fail
                            else PRes.fail
        else if c.toNat ≤ 25 then PRes.fail
        else PRes.mapv (fun o => flushP pending ++ c :: o) (string_loop cs none)) := by
  rw [string_loop.eq_def]

theorem string_loop_quote (cs : List Char) (p : Option Nat) :
    string_loop ('"' :: cs) p = .ok (flushP p) cs := by
  rw [string_loop.eq_def]
  rfl

theorem string_loop_ctrl (c : Char) (cs : List Char) (p : Option Nat)
    (h1 : ¬ c = '"') (h2 : ¬ c = '\\') (h3 : c.toNat ≤ 25) :
    string_loop (c :: cs) p = .fail := by
  rw [string_loop.eq_def]
  simp only [h1, h2, h3, if_false, if_true]

theorem string_loop_other (c : Char) (cs : List Char) (p : Option Nat)
    (h1 : ¬ c = '"') (h2 : ¬ c = '\\') (h3 : ¬ c.toNat ≤ 25) :
    string_loop (c :: cs) p = (string_loop cs none).mapv (fun o => flushP p ++ c :: o) := by
  rw [string_loop.eq_def]
  simp only [h1, h2, h3, if_false]

/-- One-step unfolding of the decode loop at a `\uXXXX` escape. -/
theorem string_loop_u_esc (c1 c2 c3 c4 : Char) (cs3 : List Char) (pending : Option Nat) :
    string_loop ('\\' :: 'u' :: c1 :: c2 :: c3 :: c4 :: cs3) pending =
      (match u16_from_str_radix16 [c1, c2, c3, c4] with
      | none => PRes.fail
      | some cu =>
        match charFromU32 cu with
        | some ch => PRes.mapv (fun o => flushP pending ++ ch :: o) (string_loop cs3 none)
        | none =>
          if is_lead_surrogate cu = true then
            PRes.mapv (fun o => flushP pending ++ o) (string_loop cs3 (some cu))
          else
            if is_trail_surrogate cu = true then
              match pending with
              | some lcu =>
                PRes.mapv (fun o => compose_surrogates lcu cu :: o) (string_loop cs3 none)
              | none => PRes.mapv (fun o => replacementChar :: o) (string_loop cs3 none)
            else PRes.panic) := by
  rw [string_loop.eq_def]
  rfl

theorem trailEscHead_u (c1 c2 c3 c4 : Char) (rest : List Char) :
    trailEscHead ('\\' :: 'u' :: c1 :: c2 :: c3 :: c4 :: rest) =
      (match u16_from_str_radix16 [c1, c2, c3, c4] with
      | some cu => if is_trail_surrogate cu = true then some (cu, rest) else none
      | none => none) := by
  rw [trailEscHead.eq_def]
  rfl

/-- The pending lead surrogate never survives the next step: if the input
continues with a trail-surrogate escape the pair composes, and in every
other case the pending lead is flushed as exactly one replacement character
prepended to whatever decoding the no-pending state produces. -/
theorem string_loop_pending_flush (cs : List Char) (l : Nat) :
    (∀ cu rest, trailEscHead cs = some (cu, rest) →
      string_loop cs (some l) = (string_loop rest none).mapv
        (fun o => compose_surrogates l cu :: o)) ∧
    (trailEscHead cs = none →
      string_loop cs (some l) = (string_loop cs none).mapv
        (fun o => replacementChar :: o)) := by
  constructor
  · intro cu rest h
    rw [trailEscHead.eq_def] at h
    split at h
    · rename_i c1 c2 c3 c4 rest'
      split at h
      · rename_i v hu
        split at h
        · rename_i ht
          cases h
          rw [string_loop_u_esc, hu]
          simp only [charFromU32_of_trail ht]
          simp only [is_lead_of_trail ht, ht]
          rfl
        · exact absurd h (by simp)
      · exact absurd h (by simp)
    · exact absurd h (by simp)
  · intro h
    rcases cs with _ | ⟨c, cs'⟩
    · rfl
    by_cases hq : c = '"'
    · subst hq
      rw [string_loop_quote, string_loop_quote]
      rfl
    by_cases hb : c = '\\'
    case neg =>
      by_cases hctl : c.toNat ≤ 0x19
      · rw [string_loop_ctrl c cs' (some l) hq hb hctl,
          string_loop_ctrl c cs' none hq hb hctl]
        rfl
      · rw [string_loop_other c cs' (some l) hq hb hctl,
          string_loop_other c cs' none hq hb hctl]
        cases string_loop cs' none <;> simp [flushP]
    case pos =>
      subst hb
      rcases cs' with _ | ⟨e, cs2⟩
      · rfl
      by_cases he : e = 'u'
      case neg =>
        rw [string_loop_cons '\\' (e :: cs2) (some l), string_loop_cons '\\' (e :: cs2) none]
        dsimp only
        by_cases h1 : e = '"'
        · subst h1; cases string_loop cs2 none <;> rfl
        by_cases h2 : e = '\\'
        · subst h2; cases string_loop cs2 none <;> rfl
        by_cases h3 : e = '/'
        · subst h3; cases string_loop cs2 none <;> rfl
        by_cases h4 : e = 'b'
        · subst h4; cases string_loop cs2 none <;> rfl
        by_cases h5 : e = 'f'
        · subst h5; cases string_loop cs2 none <;> rfl
        by_cases h6 : e = 'n'
        · subst h6; cases string_loop cs2 none <;> rfl
        by_cases h7 : e = 'r'
        · subst h7; cases string_loop cs2 none <;> rfl
        by_cases h8 : e = 't'
        · subst h8; cases string_loop cs2 none <;> rfl
        simp only [h1, h2, h3, h4, h5, h6, h7, h8, he, if_false]
        rfl
      case pos =>
        subst he
        match cs2 with
        | [] => rfl
        | [c1] => rfl
        | [c1, c2] => rfl
        | [c1, c2, c3] => rfl
        | c1 :: c2 :: c3 :: c4 :: cs3 =>
          rw [trailEscHead_u] at h
          rw [string_loop_u_esc, string_loop_u_esc]
          cases hu : u16_from_str_radix16 [c1, c2, c3, c4] with
          | none => rfl
          | some cu =>
            rw [hu] at h
            have h2 : (if is_trail_surrogate cu = true then some (cu, cs3) else none) =
                (none : Option (Nat × List Char)) := h
            cases hc : charFromU32 cu with
            | some ch =>
              simp only [hc]
              cases string_loop cs3 none <;> simp [flushP]
            | none =>
              simp only [hc]
              by_cases hld : is_lead_surrogate cu = true
              · simp only [hld, if_true]
                cases string_loop cs3 (some cu) <;> simp [flushP]
              · by_cases ht : is_trail_surrogate cu = true
                · rw [if_pos ht] at h2; cases h2
                · simp only [hld, ht, Bool.false_eq_true, if_false]
                  rfl

/-- C2: surrogate decoding in string literals.  The valid pair
`\uD83D\uDE00` decodes to the single scalar U+1F600; an isolated lead
surrogate — before the closing quote, a plain character, or another lead —
contributes exactly one U+FFFD emitted before the next character; an
isolated trail surrogate contributes exactly one U+FFFD; a lead
immediately followed by a trail composes via
`((lead − 0xD800) << 10 | (trail − 0xDC00)) + 0x10000`; and the pending
lead state never survives past the next emitted character or the end of
the string. -/
theorem C2_surrogate_decoding :
    parse "\"\\uD83D\\uDE00\"".toList = .ok (.string [Char.ofNat 0x1F600]) ∧
    parse "\"\\uD800\"".toList = .ok (.string [replacementChar]) ∧
    parse "\"\\uDC00\"".toList = .ok (.string [replacementChar]) ∧
    parse "\"\\uD800A\"".toList = .ok (.string [replacementChar, 'A']) ∧
    parse "\"\\uD800\\uD801\"".toList = .ok (.string [replacementChar, replacementChar]) ∧
    parse "\"\\uDC00\\uDE00\"".toList = .ok (.string [replacementChar, replacementChar]) ∧
    (∀ l t : Nat, is_lead_surrogate l = true → is_trail_surrogate t = true →
      (compose_surrogates l t).toNat = (((l - 0xD800) <<< 10) ||| (t - 0xDC00)) + 0x10000) ∧
    (∀ cs (l : Nat),
      (∀ cu rest, trailEscHead cs = some (cu, rest) →
        string_loop cs (some l) = (string_loop rest none).mapv
          (fun o => compose_surrogates l cu :: o)) ∧
      (trailEscHead cs = none →
        string_loop cs (some l) = (string_loop cs none).mapv
          (fun o => replacementChar :: o))) := by
  refine ⟨rfl, rfl, rfl, rfl, rfl, rfl, ?_, string_loop_pending_flush⟩
  intro l t hl ht
  simp only [is_lead_surrogate, is_trail_surrogate, decide_eq_true_eq] at hl ht
  have ha : l - 0xD800 < 1024 := by omega
  have hb : t - 0xDC00 < 1024 := by omega
  have hsh : (l - 0xD800) <<< 10 < 2 ^ 20 := by
    rw [Nat.shiftLeft_eq]
    calc (l - 0xD800) * 2 ^ 10 < 1024 * 2 ^ 10 := by
          exact (Nat.mul_lt_mul_right (by norm_num)).mpr ha
    _ = 2 ^ 20 := by norm_num
  have hor : ((l - 0xD800) <<< 10 ||| (t - 0xDC00)) < 2 ^ 20 :=
    Nat.or_lt_two_pow hsh (lt_trans hb (by norm_num))
  have hvalid : ((((l - 0xD800) <<< 10) ||| (t - 0xDC00)) + 0x10000).isValidChar := by
    refine Or.inr ⟨by omega, ?_⟩
    have : (2 : Nat) ^ 20 = 0x100000 := by norm_num
    omega
  exact Char.toNat_ofNat_valid hvalid

/-- Witness for C2: the general conjuncts applied at concrete inputs. -/
theorem C2_surrogate_decoding_witness :
    (compose_surrogates 0xD83D 0xDE00).toNat =
      (((0xD83D - 0xD800) <<< 10) ||| (0xDE00 - 0xDC00)) + 0x10000 ∧
    string_loop ['"'] (some 0xD800) =
      (string_loop ['"'] none).mapv (fun o => replacementChar :: o) :=
  ⟨C2_surrogate_decoding.2.2.2.2.2.2.1 0xD83D 0xDE00 (by decide) (by decide),
   (C2_surrogate_decoding.2.2.2.2.2.2.2 ['"'] 0xD800).2 (by decide)⟩

/-! ### Claim C5: control-character boundary at 0x19 -/

/-- C5 counterexample: the claim as stated says the serializer emits every
character above 0x19 literally, but the quote character (0x22) renders as
the two-character escape `\"`, not literally (the backslash, 0x5C, likewise). -/
theorem C5_counterexample_quote_not_literal :
    escChar '"' = ['\\', '"'] ∧ ¬ (escChar '"' = ['"']) ∧
    Value.append (.string ['"']) = ['"', '\\', '"', '"'] :=
  ⟨rfl, by decide, rfl⟩

/-- C5 (amended): raw characters 0x00–0x19 in a string literal make the
parser fail while raw 0x1A–0x1F (and every other scalar) are accepted; the
serializer renders every character in 0x00–0x19 without a two-character
escape as `\u00XX` (four lowercase zero-padded hex digits) and emits every
character above 0x19 **except `"` and `\`** literally. -/
theorem C5_control_char_boundary :
    (∀ (c : Char) (cs : List Char) (p : Option Nat), c.toNat ≤ 0x19 →
      string_loop (c :: cs) p = .fail) ∧
    (∀ (c : Char) (cs : List Char) (p : Option Nat), 0x19 < c.toNat →
      ¬ c = '"' → ¬ c = '\\' →
      string_loop (c :: cs) p = (string_loop cs none).mapv (fun o => flushP p ++ c :: o)) ∧
    parse "\"a\nb\"".toList = .fail ∧
    parse "\"\x1a\"".toList = .ok (.string ['\x1a']) ∧
    (∀ c : Char, c.toNat ≤ 0x19 →
      ¬ c = '\x08' → ¬ c = '\x0c' → ¬ c = '\n' → ¬ c = '\r' → ¬ c = '\t' →
      escChar c = '\\' :: 'u' :: toHex4 c.toNat) ∧
    append_str ['\x01'] = "\"\\u0001\"".toList ∧
    append_str ['\x0b'] = "\"\\u000b\"".toList ∧
    (∀ c : Char, 0x19 < c.toNat → ¬ c = '"' → ¬ c = '\\' → escChar c = [c]) := by
  refine ⟨?_, ?_, rfl, rfl, ?_, rfl, rfl, ?_⟩
  · intro c cs p hc
    have hq : ¬ c = '"' := by intro hh; subst hh; exact absurd hc (by decide)
    have hb : ¬ c = '\\' := by intro hh; subst hh; exact absurd hc (by decide)
    exact string_loop_ctrl c cs p hq hb hc
  · intro c cs p hc hq hb
    exact string_loop_other c cs p hq hb (by omega)
  · intro c hc h1 h2 h3 h4 h5
    have hq : ¬ c = '"' := by intro hh; subst hh; exact absurd hc (by decide)
    have hb : ¬ c = '\\' := by intro hh; subst hh; exact absurd hc (by decide)
    rw [escChar, if_neg h1, if_neg h2, if_neg h3, if_neg h4, if_neg h5, if_neg hq,
      if_neg hb, if_pos hc]
  · intro c hc hq hb
    have h1 : ¬ c = '\x08' := by intro hh; subst hh; exact absurd hc (by decide)
    have h2 : ¬ c = '\x0c' := by intro hh; subst hh; exact absurd hc (by decide)
    have h3 : ¬ c = '\n' := by intro hh; subst hh; exact absurd hc (by decide)
    have h4 : ¬ c = '\r' := by intro hh; subst hh; exact absurd hc (by decide)
    have h5 : ¬ c = '\t' := by intro hh; subst hh; exact absurd hc (by decide)
    rw [escChar, if_neg h1, if_neg h2, if_neg h3, if_neg h4, if_neg h5, if_neg hq,
      if_neg hb, if_neg (by omega)]

/-- Witness for C5: the general conjuncts applied at concrete characters. -/
theorem C5_control_char_boundary_witness :
    string_loop ['\x00'] none = .fail ∧
    string_loop ['\x1f', '"'] none = (string_loop ['"'] none).mapv
      (fun o => flushP none ++ '\x1f' :: o) ∧
    escChar '\x01' = '\\' :: 'u' :: toHex4 '\x01'.toNat ∧
    escChar 'A' = ['A'] :=
  ⟨C5_control_char_boundary.1 '\x00' [] none (by decide),
   C5_control_char_boundary.2.1 '\x1f' ['"'] none (by decide) (by decide) (by decide),
   C5_control_char_boundary.2.2.2.2.1 '\x01' (by decide) (by decide) (by decide) (by decide)
     (by decide) (by decide),
   C5_control_char_boundary.2.2.2.2.2.2.2 'A' (by decide) (by decide) (by decide)⟩

/-! ### Scanning infrastructure for the number grammar -/

theorem takeWhile_append_all {p : Char → Bool} {l1 : List Char} (l2 : List Char)
    (h : l1.all p = true) : (l1 ++ l2).takeWhile p = l1 ++ l2.takeWhile p := by
  induction l1 with
  | nil => simp
  | cons c t ih =>
    simp only [List.all_cons, Bool.and_eq_true] at h
    simp [List.takeWhile_cons, h.1, ih h.2]

theorem dropWhile_append_all {p : Char → Bool} {l1 : List Char} (l2 : List Char)
    (h : l1.all p = true) : (l1 ++ l2).dropWhile p = l2.dropWhile p := by
  induction l1 with
  | nil => simp
  | cons c t ih =>
    simp only [List.all_cons, Bool.and_eq_true] at h
    simp [List.dropWhile_cons, h.1, ih h.2]

theorem takeWhile_head_not {p : Char → Bool} {l : List Char}
    (h : ∀ c, l.head? = some c → p c = false) : l.takeWhile p = [] := by
  cases l with
  | nil => rfl
  | cons c t => simp [List.takeWhile_cons, h c rfl]

theorem dropWhile_head_not {p : Char → Bool} {l : List Char}
    (h : ∀ c, l.head? = some c → p c = false) : l.dropWhile p = l := by
  cases l with
  | nil => rfl
  | cons c t => simp [List.dropWhile_cons, h c rfl]

theorem head_dropWhile_not (p : Char → Bool) (l : List Char) :
    ∀ c, (l.dropWhile p).head? = some c → p c = false := by
  induction l with
  | nil => intro c h; cases h
  | cons x t ih =>
    intro c h
    rw [List.dropWhile_cons] at h
    by_cases hx : p x = true
    · rw [if_pos hx] at h; exact ih c h
    · rw [if_neg hx] at h
      cases h
      exact Bool.eq_false_iff.mpr hx

theorem take_all_of_append (a b : List Char) :
    (a ++ b).take ((a ++ b).length - b.length) = a := by
  have : (a ++ b).length - b.length = a.length := by simp
  rw [this, List.take_left]

theorem isDigit_ne_neg {c : Char} (h : c.isDigit = true) : ¬ c = '-' := by
  intro hh; subst hh; exact absurd h (by decide)

theorem isDigit_ne {c x : Char} (h : c.isDigit = true) (hx : x.isDigit = false) :
    ¬ c = x := by
  intro hh; subst hh; rw [h] at hx; cases hx

theorem takeWhile_all_eq {p : Char → Bool} {l : List Char} (h : l.all p = true) :
    l.takeWhile p = l := by
  have := @takeWhile_append_all p l [] h
  simpa using this

theorem dropWhile_all_eq {p : Char → Bool} {l : List Char} (h : l.all p = true) :
    l.dropWhile p = [] := by
  have := @dropWhile_append_all p l [] h
  simpa using this

theorem all_head {p : Char → Bool} {c : Char} {l : List Char} (hd : l.head? = some c)
    (h : l.all p = true) : p c = true := by
  cases l with
  | nil => cases hd
  | cons x t =>
    cases hd
    simp only [List.all_cons, Bool.and_eq_true] at h
    exact h.1

/-- The scanner on a plain unsigned-or-signed integer literal. -/
theorem strToF64_int (neg : Bool) (intd : List Char)
    (h1 : intd ≠ []) (h2 : intd.all Char.isDigit = true) :
    strToF64 ((if neg then ['-'] else []) ++ intd) =
      some (decToF64 neg (digitsVal intd) 0) := by
  obtain ⟨d, t, rfl⟩ : ∃ d t, intd = d :: t := by
    cases intd with
    | nil => exact absurd rfl h1
    | cons d t => exact ⟨d, t, rfl⟩
  have hd0 : d.isDigit = true := all_head (l := d :: t) rfl h2
  have ht : (d :: t).takeWhile Char.isDigit = d :: t := takeWhile_all_eq h2
  have hw : (d :: t).dropWhile Char.isDigit = [] := dropWhile_all_eq h2
  cases neg <;> simp [strToF64, isDigit_ne_neg hd0, ht, hw]

/-- The scanner on a literal with a fractional part and no exponent. -/
theorem strToF64_frac (neg : Bool) (intd ds : List Char)
    (h1 : intd ≠ []) (h2 : intd.all Char.isDigit = true)
    (h3 : ds ≠ []) (h4 : ds.all Char.isDigit = true) :
    strToF64 ((if neg then ['-'] else []) ++ intd ++ '.' :: ds) =
      some (decToF64 neg (digitsVal (intd ++ ds)) (-(ds.length : Int))) := by
  obtain ⟨d, t, rfl⟩ : ∃ d t, intd = d :: t := by
    cases intd with
    | nil => exact absurd rfl h1
    | cons d t => exact ⟨d, t, rfl⟩
  have hd0 : d.isDigit = true := all_head (l := d :: t) rfl h2
  have ht : ((d :: t) ++ '.' :: ds).takeWhile Char.isDigit = d :: t := by
    rw [takeWhile_append_all _ h2, List.takeWhile_cons]
    simp
  have hw : ((d :: t) ++ '.' :: ds).dropWhile Char.isDigit = '.' :: ds := by
    rw [dropWhile_append_all _ h2, List.dropWhile_cons]
    simp
  have hts : ds.takeWhile Char.isDigit = ds := takeWhile_all_eq h4
  have hws : ds.dropWhile Char.isDigit = [] := dropWhile_all_eq h4
  rw [List.cons_append] at ht hw
  cases neg <;> simp [strToF64, isDigit_ne_neg hd0, ht, hw, hts, hws]

/-- The scanner on a literal with an exponent and no fractional part. -/
theorem strToF64_exp (neg : Bool) (intd sg eds : List Char) (esym : Char)
    (h1 : intd ≠ []) (h2 : intd.all Char.isDigit = true)
    (hsg : sg = [] ∨ sg = ['+'] ∨ sg = ['-'])
    (h3 : eds ≠ []) (h4 : eds.all Char.isDigit = true)
    (hesym : esym = 'e' ∨ esym = 'E') :
    strToF64 ((if neg then ['-'] else []) ++ intd ++ esym :: (sg ++ eds)) =
      some (decToF64 neg (digitsVal intd)
        (if sg = ['-'] then -(digitsVal eds : Int) else (digitsVal eds : Int))) := by
  obtain ⟨d, t, rfl⟩ : ∃ d t, intd = d :: t := by
    cases intd with
    | nil => exact absurd rfl h1
    | cons d t => exact ⟨d, t, rfl⟩
  obtain ⟨ed, edt, rfl⟩ : ∃ ed edt, eds = ed :: edt := by
    cases eds with
    | nil => exact absurd rfl h3
    | cons ed edt => exact ⟨ed, edt, rfl⟩
  have hd0 : d.isDigit = true := all_head (l := d :: t) rfl h2
  have he0 : ed.isDigit = true := all_head (l := ed :: edt) rfl h4
  have hesymd : esym.isDigit = false := by
    rcases hesym with rfl | rfl <;> decide
  have ht : ((d :: t) ++ esym :: (sg ++ ed :: edt)).takeWhile Char.isDigit = d :: t := by
    rw [takeWhile_append_all _ h2, List.takeWhile_cons, hesymd]
    simp
  have hw : ((d :: t) ++ esym :: (sg ++ ed :: edt)).dropWhile Char.isDigit =
      esym :: (sg ++ ed :: edt) := by
    rw [dropWhile_append_all _ h2, List.dropWhile_cons, hesymd]
    simp
  have hte : (ed :: edt).takeWhile Char.isDigit = ed :: edt := takeWhile_all_eq h4
  have hwe : (ed :: edt).dropWhile Char.isDigit = [] := dropWhile_all_eq h4
  have hdot : ¬ esym = '.' := by rcases hesym with rfl | rfl <;> decide
  rw [List.cons_append] at ht hw
  rcases hsg with rfl | rfl | rfl
  · try simp only [List.nil_append, List.cons_append] at ht hw
    cases neg <;>
      rcases hesym with rfl | rfl <;>
        simp [strToF64, isDigit_ne_neg hd0, isDigit_ne_neg he0, ht, hw, hte, hwe,
          isDigit_ne he0 (show ('+').isDigit = false by decide)]
  · try simp only [List.nil_append, List.cons_append] at ht hw
    cases neg <;>
      rcases hesym with rfl | rfl <;>
        simp [strToF64, isDigit_ne_neg hd0, ht, hw, hte, hwe,
          show ¬ ('+' = '-') from by decide, show ¬ (['+'] : List Char) = ['-'] from by decide]
  · try simp only [List.nil_append, List.cons_append] at ht hw
    cases neg <;>
      rcases hesym with rfl | rfl <;>
        simp [strToF64, isDigit_ne_neg hd0, ht, hw, hte, hwe]

/-- The scanner on a literal with both fractional part and exponent. -/
theorem strToF64_frac_exp (neg : Bool) (intd ds sg eds : List Char) (esym : Char)
    (h1 : intd ≠ []) (h2 : intd.all Char.isDigit = true)
    (hf1 : ds ≠ []) (hf2 : ds.all Char.isDigit = true)
    (hsg : sg = [] ∨ sg = ['+'] ∨ sg = ['-'])
    (h3 : eds ≠ []) (h4 : eds.all Char.isDigit = true)
    (hesym : esym = 'e' ∨ esym = 'E') :
    strToF64 ((if neg then ['-'] else []) ++ intd ++ '.' :: ds ++ esym :: (sg ++ eds)) =
      some (decToF64 neg (digitsVal (intd ++ ds))
        ((if sg = ['-'] then -(digitsVal eds : Int) else (digitsVal eds : Int)) -
          (ds.length : Int))) := by
  obtain ⟨d, t, rfl⟩ : ∃ d t, intd = d :: t := by
    cases intd with
    | nil => exact absurd rfl h1
    | cons d t => exact ⟨d, t, rfl⟩
  obtain ⟨ed, edt, rfl⟩ : ∃ ed edt, eds = ed :: edt := by
    cases eds with
    | nil => exact absurd rfl h3
    | cons ed edt => exact ⟨ed, edt, rfl⟩
  have hd0 : d.isDigit = true := all_head (l := d :: t) rfl h2
  have he0 : ed.isDigit = true := all_head (l := ed :: edt) rfl h4
  have hesymd : esym.isDigit = false := by
    rcases hesym with rfl | rfl <;> decide
  have ht : ((d :: t) ++ ('.' :: ds ++ esym :: (sg ++ ed :: edt))).takeWhile Char.isDigit =
      d :: t := by
    rw [takeWhile_append_all _ h2, List.cons_append '.' ds (esym :: (sg ++ ed :: edt)),
      List.takeWhile_cons]
    simp
  have hw : ((d :: t) ++ ('.' :: ds ++ esym :: (sg ++ ed :: edt))).dropWhile Char.isDigit =
      '.' :: ds ++ esym :: (sg ++ ed :: edt) := by
    rw [dropWhile_append_all _ h2, List.cons_append '.' ds (esym :: (sg ++ ed :: edt)),
      List.dropWhile_cons]
    simp
  have hts : (ds ++ esym :: (sg ++ ed :: edt)).takeWhile Char.isDigit = ds := by
    rw [takeWhile_append_all _ hf2, List.takeWhile_cons, hesymd]
    simp
  have hws : (ds ++ esym :: (sg ++ ed :: edt)).dropWhile Char.isDigit =
      esym :: (sg ++ ed :: edt) := by
    rw [dropWhile_append_all _ hf2, List.dropWhile_cons, hesymd]
    simp
  have hte : (ed :: edt).takeWhile Char.isDigit = ed :: edt := takeWhile_all_eq h4
  have hwe : (ed :: edt).dropWhile Char.isDigit = [] := dropWhile_all_eq h4
  rw [List.cons_append] at ht hw
  rcases hsg with rfl | rfl | rfl
  · try simp only [List.nil_append, List.cons_append] at ht hw hts hws
    cases neg <;>
      rcases hesym with rfl | rfl <;>
        simp [strToF64, isDigit_ne_neg hd0, isDigit_ne_neg he0, ht, hw, hts, hws, hte, hwe,
          isDigit_ne he0 (show ('+').isDigit = false by decide)]
  · try simp only [List.nil_append, List.cons_append] at ht hw hts hws
    cases neg <;>
      rcases hesym with rfl | rfl <;>
        simp [strToF64, isDigit_ne_neg hd0, ht, hw, hts, hws, hte, hwe,
          show ¬ ('+' = '-') from by decide, show ¬ (['+'] : List Char) = ['-'] from by decide]
  · try simp only [List.nil_append, List.cons_append] at ht hw hts hws
    cases neg <;>
      rcases hesym with rfl | rfl <;>
        simp [strToF64, isDigit_ne_neg hd0, ht, hw, hts, hws, hte, hwe]

/-- Shape of the integer part accepted by `parse_number`: the single digit
`0`, or a nonzero digit followed by more digits. -/
def intPartShape (intd : List Char) : Prop :=
  intd = ['0'] ∨ (intd ≠ [] ∧ intd.all Char.isDigit = true ∧ ¬ intd.head? = some '0')

/-- Shape of the (possibly absent) fractional part: a dot followed by at
least one digit. -/
def fracPartShape (fr : List Char) : Prop :=
  fr = [] ∨ (∃ ds, fr = '.' :: ds ∧ ds ≠ [] ∧ ds.all Char.isDigit = true)

/-- Shape of the (possibly absent) exponent part: `e`/`E`, an optional
sign, and at least one digit. -/
def expPartShape (ex : List Char) : Prop :=
  ex = [] ∨ (∃ esym sg eds, ex = esym :: (sg ++ eds) ∧ (esym = 'e' ∨ esym = 'E') ∧
    (sg = [] ∨ sg = ['+'] ∨ sg = ['-']) ∧ eds ≠ [] ∧ eds.all Char.isDigit = true)


theorem head?_eq_cons {l : List Char} {c : Char} (h : l.head? = some c) :
    l = c :: l.tail := by
  cases l with
  | nil => cases h
  | cons x t => cases h; rfl

theorem intPartShape_facts {intd : List Char} (h : intPartShape intd) :
    intd ≠ [] ∧ intd.all Char.isDigit = true := by
  rcases h with rfl | ⟨h1, h2, _⟩
  · exact ⟨by simp, by decide⟩
  · exact ⟨h1, h2⟩

/-- The consumed prefix of a shaped number literal converts successfully. -/
theorem strToF64_isSome (sgn intd fr ex : List Char)
    (hsgn : sgn = [] ∨ sgn = ['-']) (hint : intPartShape intd)
    (hfr : fracPartShape fr) (hex : expPartShape ex) :
    ∃ w, strToF64 (sgn ++ intd ++ fr ++ ex) = some w := by
  obtain ⟨hne, hall⟩ := intPartShape_facts hint
  have hsgn' : ∃ neg : Bool, sgn = if neg then ['-'] else [] := by
    rcases hsgn with rfl | rfl
    · exact ⟨false, rfl⟩
    · exact ⟨true, rfl⟩
  obtain ⟨neg, rfl⟩ := hsgn'
  rcases hfr with rfl | ⟨ds, rfl, hds1, hds2⟩
  · rcases hex with rfl | ⟨esym, sg, eds, rfl, hesym, hsg, heds1, heds2⟩
    · rw [List.append_nil, List.append_nil]
      exact ⟨_, strToF64_int neg intd hne hall⟩
    · rw [List.append_nil]
      exact ⟨_, strToF64_exp neg intd sg eds esym hne hall hsg heds1 heds2 hesym⟩
  · rcases hex with rfl | ⟨esym, sg, eds, rfl, hesym, hsg, heds1, heds2⟩
    · rw [List.append_nil]
      exact ⟨_, strToF64_frac neg intd ds hne hall hds1 hds2⟩
    · exact ⟨_, strToF64_frac_exp neg intd ds sg eds esym hne hall hds1 hds2 hsg heds1 heds2 hesym⟩

/-- Specification of `parse_number_tail`: it never panics, and on success
the input splits into the already-consumed sign and integer part, a shaped
fraction, a shaped exponent, and the returned remainder. -/
theorem parse_number_tail_spec (input sgn intd cs2 : List Char)
    (hinput : input = sgn ++ intd ++ cs2)
    (hsgn : sgn = [] ∨ sgn = ['-']) (hint : intPartShape intd) :
    parse_number_tail input cs2 ≠ .panic ∧
    (∀ v rest, parse_number_tail input cs2 = .ok v rest →
      ∃ fr ex, input = sgn ++ intd ++ fr ++ ex ++ rest ∧ fracPartShape fr ∧ expPartShape ex) := by
  obtain ⟨fr, cs3v, hc3, hsplit2, hfr⟩ : ∃ fr cs3v,
      (if cs2.head? = some '.' then
        match cs2.tail.head? with
        | some f1 => if f1.isDigit then cs2.tail.dropWhile Char.isDigit else cs2
        | none => cs2
      else cs2) = cs3v ∧ cs2 = fr ++ cs3v ∧ fracPartShape fr := by
    by_cases hdot : cs2.head? = some '.'
    · cases hf1 : cs2.tail.head? with
      | none => exact ⟨[], cs2, by simp [hdot, hf1], by simp, Or.inl rfl⟩
      | some f1 =>
        have hcst : cs2.tail = f1 :: cs2.tail.tail := head?_eq_cons hf1
        by_cases hf1d : f1.isDigit = true
        · refine ⟨'.' :: cs2.tail.takeWhile Char.isDigit, cs2.tail.dropWhile Char.isDigit,
            by simp [hdot, hf1, hf1d], ?_, ?_⟩
          · conv_lhs => rw [head?_eq_cons hdot]
            rw [List.cons_append, List.takeWhile_append_dropWhile]
          · refine Or.inr ⟨cs2.tail.takeWhile Char.isDigit, rfl, ?_, List.all_takeWhile⟩
            rw [hcst, List.takeWhile_cons, hf1d]
            simp
        · exact ⟨[], cs2, by simp [hdot, hf1, hf1d], by simp, Or.inl rfl⟩
    · exact ⟨[], cs2, by simp [hdot], by simp, Or.inl rfl⟩
  obtain ⟨ex, cs4v, hc4, hsplit3, hex⟩ : ∃ ex cs4v,
      (if cs3v.head? = some 'e' ∨ cs3v.head? = some 'E' then
        match (if cs3v.tail.head? = some '+' ∨ cs3v.tail.head? = some '-' then
            cs3v.tail.tail else cs3v.tail).head? with
        | some d => if d.isDigit then
            (if cs3v.tail.head? = some '+' ∨ cs3v.tail.head? = some '-' then
              cs3v.tail.tail else cs3v.tail).dropWhile Char.isDigit
          else cs3v
        | none => cs3v
      else cs3v) = cs4v ∧ cs3v = ex ++ cs4v ∧ expPartShape ex := by
    by_cases he : cs3v.head? = some 'e' ∨ cs3v.head? = some 'E'
    · obtain ⟨esym, hesym, hesymE⟩ : ∃ esym, cs3v.head? = some esym ∧ (esym = 'e' ∨ esym = 'E') := by
        rcases he with h | h
        · exact ⟨'e', h, Or.inl rfl⟩
        · exact ⟨'E', h, Or.inr rfl⟩
      by_cases hpm : cs3v.tail.head? = some '+' ∨ cs3v.tail.head? = some '-'
      · obtain ⟨sgc, hsgc, hsgcpm⟩ : ∃ c, cs3v.tail.head? = some c ∧ (c = '+' ∨ c = '-') := by
          rcases hpm with h | h
          · exact ⟨'+', h, Or.inl rfl⟩
          · exact ⟨'-', h, Or.inr rfl⟩
        cases hd : cs3v.tail.tail.head? with
        | none =>
          exact ⟨[], cs3v, by rw [if_pos he, if_pos hpm]; simp only [hd], by simp, Or.inl rfl⟩
        | some d =>
          have hdt : cs3v.tail.tail = d :: cs3v.tail.tail.tail := head?_eq_cons hd
          by_cases hdd : d.isDigit = true
          · refine ⟨esym :: ([sgc] ++ cs3v.tail.tail.takeWhile Char.isDigit),
              cs3v.tail.tail.dropWhile Char.isDigit,
              by rw [if_pos he, if_pos hpm]; simp only [hd, hdd, if_true], ?_, ?_⟩
            · conv_lhs => rw [head?_eq_cons hesym]
              conv_lhs => rw [head?_eq_cons hsgc]
              simp [List.takeWhile_append_dropWhile]
            · refine Or.inr ⟨esym, [sgc], cs3v.tail.tail.takeWhile Char.isDigit, rfl,
                hesymE, ?_, ?_, List.all_takeWhile⟩
              · rcases hsgcpm with rfl | rfl
                · exact Or.inr (Or.inl rfl)
                · exact Or.inr (Or.inr rfl)
              · rw [hdt, List.takeWhile_cons, hdd]
                simp
          · refine ⟨[], cs3v, ?_, by simp, Or.inl rfl⟩
            rw [if_pos he, if_pos hpm]
            have hddf : d.isDigit = false := by simpa using hdd
            simp only [hd, hddf, Bool.false_eq_true, if_false]
      · cases hd : cs3v.tail.head? with
        | none =>
          refine ⟨[], cs3v, ?_, by simp, Or.inl rfl⟩
          rw [if_pos he,
            if_neg (show ¬(((none : Option Char) = some '+') ∨
              ((none : Option Char) = some '-')) by simp), hd]
        | some d =>
          have hdt : cs3v.tail = d :: cs3v.tail.tail := head?_eq_cons hd
          have hdpm : ¬(((some d : Option Char) = some '+') ∨
              ((some d : Option Char) = some '-')) := by
            rw [← hd]; exact hpm
          by_cases hdd : d.isDigit = true
          · refine ⟨esym :: ([] ++ cs3v.tail.takeWhile Char.isDigit),
              cs3v.tail.dropWhile Char.isDigit,
              by rw [if_pos he, if_neg hdpm]; simp only [hd, hdd, if_true], ?_, ?_⟩
            · conv_lhs => rw [head?_eq_cons hesym]
              simp only [List.nil_append, List.cons_append]
              rw [List.takeWhile_append_dropWhile]
            · refine Or.inr ⟨esym, [], cs3v.tail.takeWhile Char.isDigit, rfl,
                hesymE, Or.inl rfl, ?_, List.all_takeWhile⟩
              rw [hdt, List.takeWhile_cons, hdd]
              simp
          · refine ⟨[], cs3v, ?_, by simp, Or.inl rfl⟩
            rw [if_pos he, if_neg hdpm]
            have hddf : d.isDigit = false := by simpa using hdd
            simp only [hd, hddf, Bool.false_eq_true, if_false]
    · exact ⟨[], cs3v, by rw [if_neg he], by simp, Or.inl rfl⟩
  have hconsumed : input.take (input.length - cs4v.length) = sgn ++ intd ++ fr ++ ex := by
    have hfull : input = (sgn ++ (intd ++ (fr ++ ex))) ++ cs4v := by
      rw [hinput, hsplit2, hsplit3]
      simp [List.append_assoc]
    rw [hfull, take_all_of_append]
    simp [List.append_assoc]
  obtain ⟨w, hw⟩ := strToF64_isSome sgn intd fr ex hsgn hint hfr hex
  rw [parse_number_tail]
  simp only []
  rw [hc3, hc4, hconsumed]
  have hw' : strToF64 (sgn ++ intd ++ fr ++ ex) = some w := hw
  rw [hw']
  refine ⟨by simp, ?_⟩
  intro v rest hvr
  simp only [] at hvr
  have hvr' : PRes.ok w cs4v = PRes.ok v rest := hvr
  cases hvr'
  refine ⟨fr, ex, ?_, hfr, hex⟩
  rw [hinput, hsplit2, hsplit3]
  simp [List.append_assoc]

/-- The integer-part stage of `parse_number`, specified for an arbitrary
already-consumed sign. -/
theorem parse_number_stage2 (input SGN CS1 : List Char) (hinput : input = SGN ++ CS1)
    (hsgn : SGN = [] ∨ SGN = ['-']) :
    (match CS1.head? with
     | none => PRes.fail
     | some c1 =>
       match (if c1 = '0' then some CS1.tail
              else if c1.isDigit then some (CS1.dropWhile Char.isDigit)
              else none) with
       | none => PRes.fail
       | some cs2 => parse_number_tail input cs2) ≠ .panic ∧
    (∀ v rest,
      (match CS1.head? with
       | none => PRes.fail
       | some c1 =>
         match (if c1 = '0' then some CS1.tail
                else if c1.isDigit then some (CS1.dropWhile Char.isDigit)
                else none) with
         | none => PRes.fail
         | some cs2 => parse_number_tail input cs2) = .ok v rest →
      ∃ sgn intd fr ex, input = sgn ++ intd ++ fr ++ ex ++ rest ∧
        (sgn = [] ∨ sgn = ['-']) ∧ intPartShape intd ∧ fracPartShape fr ∧ expPartShape ex) := by
  cases hh1 : CS1.head? with
  | none => exact ⟨by simp, by simp⟩
  | some c1 =>
    have hcs1 : CS1 = c1 :: CS1.tail := head?_eq_cons hh1
    by_cases h0 : c1 = '0'
    case pos =>
      subst h0
      simp only [if_pos rfl]
      have hspec := parse_number_tail_spec input SGN ['0'] CS1.tail
        (by rw [hinput]; conv_lhs => rw [hcs1]
            simp) hsgn (Or.inl rfl)
      refine ⟨hspec.1, ?_⟩
      intro v rest h
      obtain ⟨fr, ex, hi, hf, he⟩ := hspec.2 v rest h
      exact ⟨SGN, ['0'], fr, ex, hi, hsgn, Or.inl rfl, hf, he⟩
    case neg =>
      by_cases h1 : c1.isDigit = true
      case pos =>
        simp only [h0, if_false, h1, if_true]
        have hshape : intPartShape (CS1.takeWhile Char.isDigit) := by
          refine Or.inr ⟨?_, List.all_takeWhile, ?_⟩
          · rw [hcs1, List.takeWhile_cons, h1]; simp
          · rw [hcs1, List.takeWhile_cons, h1]
            simpa using h0
        have hspec := parse_number_tail_spec input SGN (CS1.takeWhile Char.isDigit)
          (CS1.dropWhile Char.isDigit)
          (by rw [hinput]
              conv_lhs => rw [← List.takeWhile_append_dropWhile (p := Char.isDigit) (l := CS1)]
              simp) hsgn hshape
        refine ⟨hspec.1, ?_⟩
        intro v rest h
        obtain ⟨fr, ex, hi, hf, he⟩ := hspec.2 v rest h
        exact ⟨SGN, CS1.takeWhile Char.isDigit, fr, ex, hi, hsgn, hshape, hf, he⟩
      case neg =>
        simp only [h0, if_false, h1, if_false]
        exact ⟨by simp, by simp⟩

/-- `parse_number` never panics (the `unwrap` on the std float conversion is
unreachable), and on success the input decomposes into optional sign, an
integer part that is `0` or starts with a nonzero digit, an optional
fraction with at least one digit after the dot, an optional exponent with a
sign and at least one digit, and the returned remainder. -/
theorem parse_number_spec (input : List Char) :
    parse_number input ≠ .panic ∧
    (∀ v rest, parse_number input = .ok v rest →
      ∃ sgn intd fr ex, input = sgn ++ intd ++ fr ++ ex ++ rest ∧
        (sgn = [] ∨ sgn = ['-']) ∧ intPartShape intd ∧ fracPartShape fr ∧ expPartShape ex) := by
  rw [parse_number]
  cases hh0 : input.head? with
  | none => exact ⟨by simp, by simp⟩
  | some c0 =>
    by_cases hneg : c0 = '-'
    case pos =>
      subst hneg
      simp only [if_pos rfl]
      exact parse_number_stage2 input ['-'] input.tail
        (by conv_lhs => rw [head?_eq_cons hh0]
            rfl) (Or.inr rfl)
    case neg =>
      simp only [hneg, if_false]
      exact parse_number_stage2 input [] input (by simp) (Or.inl rfl)

/-! ### Claim C6: number grammar -/

/-- C6: the integer part is the single digit `0` or a nonzero digit followed
by digits, with optional leading `-`; `0` parses to `+0.0`, `-0` preserves
the negative zero, `01` is rejected as a whole input (the number parser
stops after `0` and the leftover `1` fails the whole-input check),
`1.5e10` parses to the double 1.5e10 (= 7864320000000000·2⁻¹⁹); fraction
and exponent are consumed only with at least one digit after the dot,
respectively after the `e`/`E` and optional sign. -/
theorem C6_number_grammar :
    parse "0".toList = .ok (.number (.finite false 0 (-1074))) ∧
    parse "-0".toList = .ok (.number (.finite true 0 (-1074))) ∧
    parse "01".toList = .fail ∧
    parse "1.5e10".toList = .ok (.number (.finite false 7864320000000000 (-19))) ∧
    (∀ input v rest, parse_number input = .ok v rest →
      ∃ sgn intd fr ex, input = sgn ++ intd ++ fr ++ ex ++ rest ∧
        (sgn = [] ∨ sgn = ['-']) ∧ intPartShape intd ∧ fracPartShape fr ∧ expPartShape ex) :=
  ⟨rfl, rfl, rfl, rfl, fun input => (parse_number_spec input).2⟩

/-- Witness for C6: the grammar decomposition at a concrete accepted input. -/
theorem C6_number_grammar_witness :
    ∃ sgn intd fr ex, "1.5e10".toList = sgn ++ intd ++ fr ++ ex ++ [] ∧
      (sgn = [] ∨ sgn = ['-']) ∧ intPartShape intd ∧ fracPartShape fr ∧ expPartShape ex :=
  C6_number_grammar.2.2.2.2 "1.5e10".toList
    (.finite false 7864320000000000 (-19)) [] (by rfl)

/-! ### Panic freedom (claim C9) -/

theorem mapv_ne_panic {α β : Type} {r : PRes α} (f : α → β) (h : r ≠ .panic) :
    r.mapv f ≠ .panic := by
  cases r with
  | ok a rest => simp [PRes.mapv]
  | fail => simp [PRes.mapv]
  | panic => exact absurd rfl h

theorem u16_lt {cs : List Char} {v : Nat} (h : u16_from_str_radix16 cs = some v) :
    v < 65536 := by
  simp only [u16_from_str_radix16] at h
  repeat' split at h
  all_goals try cases h
  all_goals assumption

theorem charFromU32_none {n : Nat} (h : charFromU32 n = none) : ¬ n.isValidChar := by
  rw [charFromU32] at h
  split at h
  · cases h
  · assumption

theorem string_loop_no_panic_aux (n : Nat) :
    ∀ cs : List Char, cs.length ≤ n → ∀ pending, string_loop cs pending ≠ .panic := by
  induction n with
  | zero =>
    intro cs hlen pending
    have hnil : cs = [] := List.length_eq_zero.mp (Nat.le_zero.mp hlen)
    subst hnil
    exact fun h => PRes.noConfusion ((string_loop_nil pending).symm.trans h)
  | succ n ih =>
    intro cs hlen pending
    rcases cs with _ | ⟨c, cs'⟩
    · simp
    by_cases hq : c = '"'
    · subst hq; rw [string_loop_quote]; simp
    by_cases hb : c = '\\'
    case neg =>
      by_cases hctl : c.toNat ≤ 0x19
      · rw [string_loop_ctrl c cs' pending hq hb hctl]; simp
      · rw [string_loop_other c cs' pending hq hb hctl]
        exact mapv_ne_panic _ (ih cs' (by simp only [List.length_cons] at hlen; omega) none)
    case pos =>
      subst hb
      have hlen' : cs'.length ≤ n := by simpa using hlen
      rcases cs' with _ | ⟨e, cs2⟩
      · simp [string_loop]
      have hlen2 : cs2.length ≤ n := le_trans (by simp) hlen'
      by_cases he : e = 'u'
      case neg =>
        rw [string_loop_cons]
        dsimp only
        by_cases h1 : e = '"'
        · subst h1; exact mapv_ne_panic _ (ih cs2 hlen2 none)
        by_cases h2 : e = '\\'
        · subst h2
          simp only [h1, if_false, if_pos rfl]
          exact mapv_ne_panic _ (ih cs2 hlen2 none)
        by_cases h3 : e = '/'
        · subst h3; exact mapv_ne_panic _ (ih cs2 hlen2 none)
        by_cases h4 : e = 'b'
        · subst h4; exact mapv_ne_panic _ (ih cs2 hlen2 none)
        by_cases h5 : e = 'f'
        · subst h5; exact mapv_ne_panic _ (ih cs2 hlen2 none)
        by_cases h6 : e = 'n'
        · subst h6; exact mapv_ne_panic _ (ih cs2 hlen2 none)
        by_cases h7 : e = 'r'
        · subst h7; exact mapv_ne_panic _ (ih cs2 hlen2 none)
        by_cases h8 : e = 't'
        · subst h8; exact mapv_ne_panic _ (ih cs2 hlen2 none)
        simp only [h1, h2, h3, h4, h5, h6, h7, h8, he, if_false]
        simp
      case pos =>
        subst he
        match cs2, hlen2 with
        | [], _ => simp [string_loop]
        | [c1], _ => simp [string_loop]
        | [c1, c2], _ => simp [string_loop]
        | [c1, c2, c3], _ => simp [string_loop]
        | c1 :: c2 :: c3 :: c4 :: cs3, hlen2 =>
          have hlen3 : cs3.length ≤ n := by
            simp only [List.length_cons] at hlen2
            omega
          rw [string_loop_u_esc]
          cases hu : u16_from_str_radix16 [c1, c2, c3, c4] with
          | none => simp
          | some cu =>
            dsimp only
            have hcu : cu < 65536 := u16_lt hu
            cases hc : charFromU32 cu with
            | some ch =>
              dsimp only
              exact mapv_ne_panic _ (ih cs3 hlen3 none)
            | none =>
              dsimp only
              by_cases hld : is_lead_surrogate cu = true
              · simp only [hld, if_true]
                exact mapv_ne_panic _ (ih cs3 hlen3 (some cu))
              · have htr : is_trail_surrogate cu = true := by
                  have hinv := charFromU32_none hc
                  simp only [Nat.isValidChar, not_or, not_and, not_lt] at hinv
                  simp only [is_lead_surrogate, decide_eq_true_eq, not_and, not_lt] at hld
                  simp only [is_trail_surrogate, decide_eq_true_eq]
                  omega
                simp only [hld, Bool.false_eq_true, if_false, htr, if_true]
                cases pending with
                | some lcu => exact mapv_ne_panic _ (ih cs3 hlen3 none)
                | none => exact mapv_ne_panic _ (ih cs3 hlen3 none)

theorem string_loop_no_panic (cs : List Char) (pending : Option Nat) :
    string_loop cs pending ≠ .panic :=
  string_loop_no_panic_aux cs.length cs le_rfl pending

theorem parse_string_no_panic (cs : List Char) : parse_string cs ≠ .panic := by
  cases cs with
  | nil => simp [parse_string]
  | cons c t =>
    rw [parse_string]
    by_cases h : c = '"'
    · rw [if_pos h]; exact string_loop_no_panic t none
    · rw [if_neg h]; simp

theorem parse_keyword_no_panic (input kw : List Char) (v : Value) :
    parse_keyword input kw v ≠ .panic := by
  rw [parse_keyword]
  cases matchChars input kw <;> simp

theorem parsers_no_panic (fuel : Nat) :
    (∀ cs, parse_value fuel cs ≠ .panic) ∧
    (∀ cs, parse_object fuel cs ≠ .panic) ∧
    (∀ cs out, parse_object_loop fuel cs out ≠ .panic) ∧
    (∀ cs out, consume_object_entry fuel cs out ≠ .panic) ∧
    (∀ cs, parse_array fuel cs ≠ .panic) ∧
    (∀ cs out, parse_array_loop fuel cs out ≠ .panic) := by
  induction fuel with
  | zero =>
    refine ⟨fun cs => ?_, fun cs => ?_, fun cs out => ?_, fun cs out => ?_, fun cs => ?_,
      fun cs out => ?_⟩
    · exact fun h => PRes.noConfusion ((show PRes.fail = parse_value 0 cs from rfl).trans h)
    · exact fun h => PRes.noConfusion ((show PRes.fail = parse_object 0 cs from rfl).trans h)
    · exact fun h =>
        PRes.noConfusion ((show PRes.fail = parse_object_loop 0 cs out from rfl).trans h)
    · exact fun h =>
        PRes.noConfusion ((show PRes.fail = consume_object_entry 0 cs out from rfl).trans h)
    · exact fun h => PRes.noConfusion ((show PRes.fail = parse_array 0 cs from rfl).trans h)
    · exact fun h =>
        PRes.noConfusion ((show PRes.fail = parse_array_loop 0 cs out from rfl).trans h)
  | succ f ih =>
    obtain ⟨ihv, iho, ihol, ihe, iha, ihal⟩ := ih
    refine ⟨fun cs => ?_, fun cs => ?_, fun cs out => ?_, fun cs out => ?_, fun cs => ?_,
      fun cs out => ?_⟩
    · rw [parse_value.eq_def]
      rcases cs with _ | ⟨c, t⟩
      · simp
      dsimp only
      by_cases h1 : c = '{'
      · rw [if_pos h1]; exact mapv_ne_panic _ (iho _)
      rw [if_neg h1]
      by_cases h2 : c = '['
      · rw [if_pos h2]; exact mapv_ne_panic _ (iha _)
      rw [if_neg h2]
      by_cases h3 : c = '"'
      · rw [if_pos h3]; exact mapv_ne_panic _ (parse_string_no_panic _)
      rw [if_neg h3]
      by_cases h4 : c = '-' ∨ c.isDigit
      · rw [if_pos h4]; exact mapv_ne_panic _ (parse_number_spec _).1
      rw [if_neg h4]
      by_cases h5 : c = 'f'
      · rw [if_pos h5]; exact parse_keyword_no_panic _ _ _
      rw [if_neg h5]
      by_cases h6 : c = 'n'
      · rw [if_pos h6]; exact parse_keyword_no_panic _ _ _
      rw [if_neg h6]
      by_cases h7 : c = 't'
      · rw [if_pos h7]; exact parse_keyword_no_panic _ _ _
      rw [if_neg h7]
      simp
    · rw [parse_object.eq_def]
      rcases cs with _ | ⟨b, cs1⟩
      · simp
      dsimp only
      by_cases hb : b = '{'
      case neg => rw [if_neg hb]; simp
      rw [if_pos hb]
      cases hw : cs1.dropWhile is_ws with
      | nil => simp
      | cons c cs2t =>
        dsimp only
        by_cases hc : c = '}'
        · rw [if_pos hc]; simp
        rw [if_neg hc]
        cases hce : consume_object_entry f (c :: cs2t) [] with
        | ok out cs3 => exact ihol _ _
        | fail => simp
        | panic => exact absurd hce (ihe _ _)
    · rw [parse_object_loop.eq_def]
      rcases cs with _ | ⟨c, rest⟩
      · simp
      dsimp only
      by_cases hc : c = '}'
      · rw [if_pos hc]; simp
      rw [if_neg hc]
      by_cases hc2 : c = ','
      case neg => rw [if_neg hc2]; simp
      rw [if_pos hc2]
      cases hce : consume_object_entry f (rest.dropWhile is_ws) out with
      | ok out2 cs3 => exact ihol _ _
      | fail => simp
      | panic => exact absurd hce (ihe _ _)
    · rw [consume_object_entry.eq_def]
      dsimp only
      cases hps : parse_string cs with
      | ok key cs1 =>
        dsimp only
        cases hw : cs1.dropWhile is_ws with
        | nil => simp
        | cons c cs2 =>
          dsimp only
          by_cases hc : c = ':'
          case neg => rw [if_neg hc]; simp
          rw [if_pos hc]
          cases hpv : parse_value f (cs2.dropWhile is_ws) with
          | ok v cs3 => simp
          | fail => simp
          | panic => exact absurd hpv (ihv _)
      | fail => simp
      | panic => exact absurd hps (parse_string_no_panic _)
    · rw [parse_array.eq_def]
      rcases cs with _ | ⟨b, cs1⟩
      · simp
      dsimp only
      by_cases hb : b = '['
      case neg => rw [if_neg hb]; simp
      rw [if_pos hb]
      cases hw : cs1.dropWhile is_ws with
      | nil => simp
      | cons c cs2t =>
        dsimp only
        by_cases hc : c = ']'
        · rw [if_pos hc]; simp
        rw [if_neg hc]
        cases hpv : parse_value f (c :: cs2t) with
        | ok v cs3 => exact ihal _ _
        | fail => simp
        | panic => exact absurd hpv (ihv _)
    · rw [parse_array_loop.eq_def]
      rcases cs with _ | ⟨c, rest⟩
      · simp
      dsimp only
      by_cases hc : c = ']'
      · rw [if_pos hc]; simp
      rw [if_neg hc]
      by_cases hc2 : c = ','
      case neg => rw [if_neg hc2]; simp
      rw [if_pos hc2]
      cases hpv : parse_value f (rest.dropWhile is_ws) with
      | ok v cs3 => exact ihal _ _
      | fail => simp
      | panic => exact absurd hpv (ihv _)

/-- The top-level `parse` never panics. -/
theorem parse_no_panic (s : List Char) : parse s ≠ .panic := by
  rw [parse]
  cases hpv : parse_value (fuelFor s) (s.dropWhile is_ws) with
  | ok v rest =>
    dsimp only
    split <;> simp
  | fail => simp
  | panic => exact absurd hpv ((parsers_no_panic _).1 _)

/-- C9 counterexample: the input "\u+123" inside a string literal is listed by
the claim as malformed (its four escape characters are not all hex digits),
yet the parser accepts it, because Rust's u16::from_str_radix permits an
optional leading '+' sign: the document "\"\u+123\"" parses to the one-character
string U+0123. -/
theorem C9_counterexample_u_plus_escape :
    parse "\"\\u+123\"".toList = .ok (.string [Char.ofNat 0x123]) := rfl

/-- C9 (amended): parse never panics on any input (in particular the f64
unwrap in parse_number and the trail-surrogate assert in parse_string are
unreachable), and every listed malformed class fails cleanly: missing closing
brace/bracket/quote, trailing commas, unquoted keys, single-quoted strings,
raw control characters in strings, \u escapes with fewer than four characters
remaining, and \u escapes with a non-hex character other than a leading '+'
sign (the '+' exception is the correction recorded by the counterexample). -/
theorem C9_malformed_fail_never_panic :
    (∀ s, parse s ≠ .panic) ∧
    parse "\x7b".toList = .fail ∧
    parse "[1".toList = .fail ∧
    parse "\"abc".toList = .fail ∧
    parse "[1,]".toList = .fail ∧
    parse "\x7b\"a\":1,\x7d".toList = .fail ∧
    parse "\x7ba:1\x7d".toList = .fail ∧
    parse "'a'".toList = .fail ∧
    parse "\"a\nb\"".toList = .fail ∧
    parse "\"\\u12\"".toList = .fail ∧
    parse "\"\\uz123\"".toList = .fail :=
  ⟨parse_no_panic, rfl, rfl, rfl, rfl, rfl, rfl, rfl, rfl, rfl, rfl⟩

/-- Witness for C9: the never-panic component instantiated at a concrete
input. -/
theorem C9_malformed_fail_never_panic_witness :
    parse "1".toList ≠ .panic :=
  C9_malformed_fail_never_panic.1 "1".toList

theorem mapv_ok_inv {α β : Type} {f : α → β} {r : PRes α} {b : β} {rest : List Char}
    (h : r.mapv f = .ok b rest) : ∃ a, r = .ok a rest ∧ b = f a := by
  cases r with
  | ok a r2 =>
    rw [PRes.mapv_ok] at h
    injection h with h1 h2
    exact ⟨a, by rw [h2], h1.symm⟩
  | fail => exact absurd h (by simp)
  | panic => exact absurd h (by simp)

theorem string_loop_suffix_aux (n : Nat) :
    ∀ cs : List Char, cs.length ≤ n → ∀ pending o rest,
      string_loop cs pending = .ok o rest → rest <:+ cs := by
  induction n with
  | zero =>
    intro cs hlen pending o rest h
    have hnil : cs = [] := List.length_eq_zero.mp (Nat.le_zero.mp hlen)
    subst hnil
    exact PRes.noConfusion ((string_loop_nil pending).symm.trans h)
  | succ n ih =>
    intro cs hlen pending o rest h
    rcases cs with _ | ⟨c, cs'⟩
    · exact PRes.noConfusion ((string_loop_nil pending).symm.trans h)
    have hlen' : cs'.length ≤ n := by simp only [List.length_cons] at hlen; omega
    by_cases hq : c = '"'
    · subst hq
      rw [string_loop_quote] at h
      injection h with h1 h2
      exact h2 ▸ List.suffix_cons '"' cs'
    by_cases hb : c = '\\'
    case neg =>
      by_cases hctl : c.toNat ≤ 0x19
      · rw [string_loop_ctrl c cs' pending hq hb hctl] at h
        exact PRes.noConfusion h
      · rw [string_loop_other c cs' pending hq hb hctl] at h
        obtain ⟨a, ha, _⟩ := mapv_ok_inv h
        exact (ih cs' hlen' none a rest ha).trans (List.suffix_cons c cs')
    case pos =>
      subst hb
      rcases cs' with _ | ⟨e, cs2⟩
      · have hfail : string_loop ('\\' :: ([] : List Char)) pending = .fail := by
          rw [string_loop_cons]
          rfl
        exact PRes.noConfusion (hfail.symm.trans h)
      have hlen2 : cs2.length ≤ n := le_trans (by simp) hlen'
      have hsfx2 : cs2 <:+ '\\' :: e :: cs2 :=
        (List.suffix_cons e cs2).trans (List.suffix_cons '\\' (e :: cs2))
      by_cases he : e = 'u'
      case neg =>
        rw [string_loop_cons] at h
        dsimp only at h
        by_cases h1 : e = '"'
        · subst h1
          obtain ⟨a, ha, _⟩ := mapv_ok_inv h
          exact (ih cs2 hlen2 none a rest ha).trans hsfx2
        rw [if_neg h1] at h
        by_cases h2 : e = '\\'
        · subst h2
          rw [if_pos rfl] at h
          obtain ⟨a, ha, _⟩ := mapv_ok_inv h
          exact (ih cs2 hlen2 none a rest ha).trans hsfx2
        rw [if_neg h2] at h
        by_cases h3 : e = '/'
        · subst h3
          rw [if_pos rfl] at h
          obtain ⟨a, ha, _⟩ := mapv_ok_inv h
          exact (ih cs2 hlen2 none a rest ha).trans hsfx2
        rw [if_neg h3] at h
        by_cases h4 : e = 'b'
        · subst h4
          rw [if_pos rfl] at h
          obtain ⟨a, ha, _⟩ := mapv_ok_inv h
          exact (ih cs2 hlen2 none a rest ha).trans hsfx2
        rw [if_neg h4] at h
        by_cases h5 : e = 'f'
        · subst h5
          rw [if_pos rfl] at h
          obtain ⟨a, ha, _⟩ := mapv_ok_inv h
          exact (ih cs2 hlen2 none a rest ha).trans hsfx2
        rw [if_neg h5] at h
        by_cases h6 : e = 'n'
        · subst h6
          rw [if_pos rfl] at h
          obtain ⟨a, ha, _⟩ := mapv_ok_inv h
          exact (ih cs2 hlen2 none a rest ha).trans hsfx2
        rw [if_neg h6] at h
        by_cases h7 : e = 'r'
        · subst h7
          rw [if_pos rfl] at h
          obtain ⟨a, ha, _⟩ := mapv_ok_inv h
          exact (ih cs2 hlen2 none a rest ha).trans hsfx2
        rw [if_neg h7] at h
        by_cases h8 : e = 't'
        · subst h8
          rw [if_pos rfl] at h
          obtain ⟨a, ha, _⟩ := mapv_ok_inv h
          exact (ih cs2 hlen2 none a rest ha).trans hsfx2
        rw [if_neg h8, if_neg he] at h
        exact PRes.noConfusion h
      case pos =>
        subst he
        match cs2, hlen2, hsfx2 with
        | [], _, _ => exact absurd h (by rw [string_loop_cons]; simp)
        | [c1], _, _ => exact absurd h (by rw [string_loop_cons]; simp)
        | [c1, c2], _, _ => exact absurd h (by rw [string_loop_cons]; simp)
        | [c1, c2, c3], _, _ => exact absurd h (by rw [string_loop_cons]; simp)
        | c1 :: c2 :: c3 :: c4 :: cs3, hlen2, hsfx2 =>
          have hlen3 : cs3.length ≤ n := by
            simp only [List.length_cons] at hlen2
            omega
          have hsfx3 : cs3 <:+ '\\' :: 'u' :: c1 :: c2 :: c3 :: c4 :: cs3 :=
            ⟨['\\', 'u', c1, c2, c3, c4], rfl⟩
          rw [string_loop_u_esc] at h
          cases hu : u16_from_str_radix16 [c1, c2, c3, c4] with
          | none => rw [hu] at h; exact PRes.noConfusion h
          | some cu =>
            rw [hu] at h
            dsimp only at h
            cases hc : charFromU32 cu with
            | some ch =>
              rw [hc] at h
              dsimp only at h
              obtain ⟨a, ha, _⟩ := mapv_ok_inv h
              exact (ih cs3 hlen3 none a rest ha).trans hsfx3
            | none =>
              rw [hc] at h
              dsimp only at h
              by_cases hld : is_lead_surrogate cu = true
              · rw [if_pos hld] at h
                obtain ⟨a, ha, _⟩ := mapv_ok_inv h
                exact (ih cs3 hlen3 (some cu) a rest ha).trans hsfx3
              rw [if_neg hld] at h
              by_cases ht : is_trail_surrogate cu = true
              · rw [if_pos ht] at h
                cases pending with
                | some lcu =>
                  dsimp only at h
                  obtain ⟨a, ha, _⟩ := mapv_ok_inv h
                  exact (ih cs3 hlen3 none a rest ha).trans hsfx3
                | none =>
                  dsimp only at h
                  obtain ⟨a, ha, _⟩ := mapv_ok_inv h
                  exact (ih cs3 hlen3 none a rest ha).trans hsfx3
              · rw [if_neg ht] at h
                exact PRes.noConfusion h

theorem string_loop_suffix {cs : List Char} {pending : Option Nat} {o rest : List Char}
    (h : string_loop cs pending = .ok o rest) : rest <:+ cs :=
  string_loop_suffix_aux cs.length cs le_rfl pending o rest h

theorem parse_string_suffix {cs key rest : List Char}
    (h : parse_string cs = .ok key rest) : rest <:+ cs := by
  rcases cs with _ | ⟨c, cs'⟩
  · exact PRes.noConfusion h
  rw [parse_string] at h
  by_cases hc : c = '"'
  · rw [if_pos hc] at h
    exact (string_loop_suffix h).trans (List.suffix_cons c cs')
  · rw [if_neg hc] at h
    exact PRes.noConfusion h

theorem parse_number_suffix {input : List Char} {v : F64} {rest : List Char}
    (h : parse_number input = .ok v rest) : rest <:+ input := by
  obtain ⟨sgn, intd, fr, ex, heq, _, _, _, _⟩ := (parse_number_spec input).2 v rest h
  exact ⟨sgn ++ intd ++ fr ++ ex, by rw [heq]⟩

theorem matchChars_suffix : ∀ (kw input rest : List Char),
    matchChars input kw = some rest → rest <:+ input := by
  intro kw
  induction kw with
  | nil =>
    intro input rest h
    rw [matchChars] at h
    cases h
    exact List.suffix_refl _
  | cons k ks ih =>
    intro input rest h
    rcases input with _ | ⟨c, cs⟩
    · rw [matchChars] at h; cases h
    rw [matchChars] at h
    by_cases hc : c = k
    · rw [if_pos hc] at h
      exact (ih cs rest h).trans (List.suffix_cons c cs)
    · rw [if_neg hc] at h; cases h

theorem parse_keyword_suffix {input kw : List Char} {e v : Value} {rest : List Char}
    (h : parse_keyword input kw e = .ok v rest) : rest <:+ input := by
  rw [parse_keyword] at h
  cases hm : matchChars input kw with
  | some r =>
    rw [hm] at h
    dsimp only at h
    injection h with h1 h2
    exact h2 ▸ matchChars_suffix kw input r hm
  | none =>
    rw [hm] at h
    exact PRes.noConfusion h

theorem parsers_suffix (fuel : Nat) :
    (∀ cs v rest, parse_value fuel cs = .ok v rest → rest <:+ cs) ∧
    (∀ cs v rest, parse_object fuel cs = .ok v rest → rest <:+ cs) ∧
    (∀ cs out v rest, parse_object_loop fuel cs out = .ok v rest → rest <:+ cs) ∧
    (∀ cs out v rest, consume_object_entry fuel cs out = .ok v rest → rest <:+ cs) ∧
    (∀ cs v rest, parse_array fuel cs = .ok v rest → rest <:+ cs) ∧
    (∀ cs out v rest, parse_array_loop fuel cs out = .ok v rest → rest <:+ cs) := by
  induction fuel with
  | zero =>
    refine ⟨fun cs v rest h => ?_, fun cs v rest h => ?_, fun cs out v rest h => ?_,
      fun cs out v rest h => ?_, fun cs v rest h => ?_, fun cs out v rest h => ?_⟩
    · exact PRes.noConfusion ((show PRes.fail = parse_value 0 cs from rfl).trans h)
    · exact PRes.noConfusion ((show PRes.fail = parse_object 0 cs from rfl).trans h)
    · exact PRes.noConfusion ((show PRes.fail = parse_object_loop 0 cs out from rfl).trans h)
    · exact PRes.noConfusion ((show PRes.fail = consume_object_entry 0 cs out from rfl).trans h)
    · exact PRes.noConfusion ((show PRes.fail = parse_array 0 cs from rfl).trans h)
    · exact PRes.noConfusion ((show PRes.fail = parse_array_loop 0 cs out from rfl).trans h)
  | succ f ih =>
    obtain ⟨ihv, iho, ihol, ihe, iha, ihal⟩ := ih
    refine ⟨fun cs v rest h => ?_, fun cs v rest h => ?_, fun cs out v rest h => ?_,
      fun cs out v rest h => ?_, fun cs v rest h => ?_, fun cs out v rest h => ?_⟩
    · rcases cs with _ | ⟨c, t⟩
      · rw [parse_value.eq_def] at h; exact PRes.noConfusion h
      rw [parse_value.eq_def] at h
      dsimp only at h
      by_cases h1 : c = '{'
      · rw [if_pos h1] at h
        obtain ⟨a, ha, _⟩ := mapv_ok_inv h
        exact iho _ _ _ ha
      rw [if_neg h1] at h
      by_cases h2 : c = '['
      · rw [if_pos h2] at h
        obtain ⟨a, ha, _⟩ := mapv_ok_inv h
        exact iha _ _ _ ha
      rw [if_neg h2] at h
      by_cases h3 : c = '"'
      · rw [if_pos h3] at h
        obtain ⟨a, ha, _⟩ := mapv_ok_inv h
        exact parse_string_suffix ha
      rw [if_neg h3] at h
      by_cases h4 : c = '-' ∨ c.isDigit
      · rw [if_pos h4] at h
        obtain ⟨a, ha, _⟩ := mapv_ok_inv h
        exact parse_number_suffix ha
      rw [if_neg h4] at h
      by_cases h5 : c = 'f'
      · rw [if_pos h5] at h
        exact parse_keyword_suffix h
      rw [if_neg h5] at h
      by_cases h6 : c = 'n'
      · rw [if_pos h6] at h
        exact parse_keyword_suffix h
      rw [if_neg h6] at h
      by_cases h7 : c = 't'
      · rw [if_pos h7] at h
        exact parse_keyword_suffix h
      rw [if_neg h7] at h
      exact PRes.noConfusion h
    · rcases cs with _ | ⟨b, cs1⟩
      · rw [parse_object.eq_def] at h; exact PRes.noConfusion h
      rw [parse_object.eq_def] at h
      dsimp only at h
      by_cases hb : b = '{'
      case neg => rw [if_neg hb] at h; exact PRes.noConfusion h
      rw [if_pos hb] at h
      cases hw : cs1.dropWhile is_ws with
      | nil => rw [hw] at h; exact PRes.noConfusion h
      | cons c cs2t =>
        have hws : c :: cs2t <:+ cs1 := hw ▸ List.dropWhile_suffix is_ws
        rw [hw] at h
        dsimp only at h
        by_cases hc : c = '}'
        · rw [if_pos hc] at h
          injection h with h1 h2
          subst h2
          exact (((List.suffix_cons c cs2t).trans hws).trans (List.suffix_cons b cs1) :)
        rw [if_neg hc] at h
        cases hce : consume_object_entry f (c :: cs2t) [] with
        | ok out cs3 =>
          rw [hce] at h
          dsimp only at h
          have s1 : cs3 <:+ c :: cs2t := ihe _ _ _ _ hce
          have s2 : rest <:+ cs3.dropWhile is_ws := ihol _ _ _ _ h
          exact ((((s2.trans (List.dropWhile_suffix is_ws)).trans s1).trans hws).trans
            (List.suffix_cons b cs1) :)
        | fail => rw [hce] at h; exact PRes.noConfusion h
        | panic => rw [hce] at h; exact PRes.noConfusion h
    · rcases cs with _ | ⟨c, t⟩
      · rw [parse_object_loop.eq_def] at h; exact PRes.noConfusion h
      rw [parse_object_loop.eq_def] at h
      dsimp only at h
      by_cases hc : c = '}'
      · rw [if_pos hc] at h
        injection h with h1 h2
        subst h2
        exact List.suffix_cons c t
      rw [if_neg hc] at h
      by_cases hc2 : c = ','
      case neg => rw [if_neg hc2] at h; exact PRes.noConfusion h
      rw [if_pos hc2] at h
      cases hce : consume_object_entry f (t.dropWhile is_ws) out with
      | ok out2 cs3 =>
        rw [hce] at h
        dsimp only at h
        have s1 : cs3 <:+ t.dropWhile is_ws := ihe _ _ _ _ hce
        have s2 : rest <:+ cs3.dropWhile is_ws := ihol _ _ _ _ h
        exact ((((s2.trans (List.dropWhile_suffix is_ws)).trans s1).trans
          (List.dropWhile_suffix is_ws)).trans (List.suffix_cons c t) :)
      | fail => rw [hce] at h; exact PRes.noConfusion h
      | panic => rw [hce] at h; exact PRes.noConfusion h
    · rw [consume_object_entry.eq_def] at h
      dsimp only at h
      cases hps : parse_string cs with
      | ok key cs1 =>
        rw [hps] at h
        dsimp only at h
        have s0 : cs1 <:+ cs := parse_string_suffix hps
        cases hw : cs1.dropWhile is_ws with
        | nil => rw [hw] at h; exact PRes.noConfusion h
        | cons c cs2 =>
          have hws : c :: cs2 <:+ cs1 := hw ▸ List.dropWhile_suffix is_ws
          rw [hw] at h
          dsimp only at h
          by_cases hc : c = ':'
          case neg => rw [if_neg hc] at h; exact PRes.noConfusion h
          rw [if_pos hc] at h
          cases hpv : parse_value f (cs2.dropWhile is_ws) with
          | ok v2 cs3 =>
            rw [hpv] at h
            dsimp only at h
            injection h with h1 h2
            subst h2
            have s1 : cs3 <:+ cs2.dropWhile is_ws := ihv _ _ _ hpv
            exact ((((s1.trans (List.dropWhile_suffix is_ws)).trans
              (List.suffix_cons c cs2)).trans hws).trans s0 :)
          | fail => rw [hpv] at h; exact PRes.noConfusion h
          | panic => rw [hpv] at h; exact PRes.noConfusion h
      | fail => rw [hps] at h; exact PRes.noConfusion h
      | panic => rw [hps] at h; exact PRes.noConfusion h
    · rcases cs with _ | ⟨b, cs1⟩
      · rw [parse_array.eq_def] at h; exact PRes.noConfusion h
      rw [parse_array.eq_def] at h
      dsimp only at h
      by_cases hb : b = '['
      case neg => rw [if_neg hb] at h; exact PRes.noConfusion h
      rw [if_pos hb] at h
      cases hw : cs1.dropWhile is_ws with
      | nil => rw [hw] at h; exact PRes.noConfusion h
      | cons c cs2t =>
        have hws : c :: cs2t <:+ cs1 := hw ▸ List.dropWhile_suffix is_ws
        rw [hw] at h
        dsimp only at h
        by_cases hc : c = ']'
        · rw [if_pos hc] at h
          injection h with h1 h2
          subst h2
          exact (((List.suffix_cons c cs2t).trans hws).trans (List.suffix_cons b cs1) :)
        rw [if_neg hc] at h
        cases hpv : parse_value f (c :: cs2t) with
        | ok v2 cs3 =>
          rw [hpv] at h
          dsimp only at h
          have s1 : cs3 <:+ c :: cs2t := ihv _ _ _ hpv
          have s2 : rest <:+ cs3.dropWhile is_ws := ihal _ _ _ _ h
          exact ((((s2.trans (List.dropWhile_suffix is_ws)).trans s1).trans hws).trans
            (List.suffix_cons b cs1) :)
        | fail => rw [hpv] at h; exact PRes.noConfusion h
        | panic => rw [hpv] at h; exact PRes.noConfusion h
    · rcases cs with _ | ⟨c, t⟩
      · rw [parse_array_loop.eq_def] at h; exact PRes.noConfusion h
      rw [parse_array_loop.eq_def] at h
      dsimp only at h
      by_cases hc : c = ']'
      · rw [if_pos hc] at h
        injection h with h1 h2
        subst h2
        exact List.suffix_cons c t
      rw [if_neg hc] at h
      by_cases hc2 : c = ','
      case neg => rw [if_neg hc2] at h; exact PRes.noConfusion h
      rw [if_pos hc2] at h
      cases hpv : parse_value f (t.dropWhile is_ws) with
      | ok v2 cs3 =>
        rw [hpv] at h
        dsimp only at h
        have s1 : cs3 <:+ t.dropWhile is_ws := ihv _ _ _ hpv
        have s2 : rest <:+ cs3.dropWhile is_ws := ihal _ _ _ _ h
        exact ((((s2.trans (List.dropWhile_suffix is_ws)).trans s1).trans
          (List.dropWhile_suffix is_ws)).trans (List.suffix_cons c t) :)
      | fail => rw [hpv] at h; exact PRes.noConfusion h
      | panic => rw [hpv] at h; exact PRes.noConfusion h

theorem isDigit_not_ws {c : Char} (h : c.isDigit = true) : is_ws c = false := by
  rw [is_ws]
  simp only [Bool.or_eq_false_iff, decide_eq_false_iff_not]
  refine ⟨⟨⟨?_, ?_⟩, ?_⟩, ?_⟩ <;> intro hc <;> rw [hc] at h <;> exact absurd h (by decide)

theorem parse_value_ok_head {fuel : Nat} {cs : List Char} {v : Value} {rest : List Char}
    (h : parse_value fuel cs = .ok v rest) : ∃ c t, cs = c :: t ∧ is_ws c = false := by
  cases fuel with
  | zero => exact PRes.noConfusion ((show PRes.fail = parse_value 0 cs from rfl).trans h)
  | succ f =>
    rcases cs with _ | ⟨c, t⟩
    · rw [parse_value.eq_def] at h; exact PRes.noConfusion h
    refine ⟨c, t, rfl, ?_⟩
    rw [parse_value.eq_def] at h
    dsimp only at h
    by_cases h1 : c = '{'
    · subst h1; decide
    rw [if_neg h1] at h
    by_cases h2 : c = '['
    · subst h2; decide
    rw [if_neg h2] at h
    by_cases h3 : c = '"'
    · subst h3; decide
    rw [if_neg h3] at h
    by_cases h4 : c = '-' ∨ c.isDigit
    · rcases h4 with h4 | h4
      · subst h4; decide
      · exact isDigit_not_ws h4
    rw [if_neg h4] at h
    by_cases h5 : c = 'f'
    · subst h5; decide
    rw [if_neg h5] at h
    by_cases h6 : c = 'n'
    · subst h6; decide
    rw [if_neg h6] at h
    by_cases h7 : c = 't'
    · subst h7; decide
    rw [if_neg h7] at h
    exact PRes.noConfusion h

theorem all_of_dropWhile_nil {p : Char → Bool} {l : List Char}
    (h : l.dropWhile p = []) : l.all p = true := by
  induction l with
  | nil => rfl
  | cons x t ih =>
    rw [List.dropWhile_cons] at h
    by_cases hx : p x = true
    · rw [if_pos hx] at h
      simp [List.all_cons, hx, ih h]
    · rw [if_neg hx] at h
      cases h

/-- C4: `parse` accepts exactly the strings consisting of optional leading
whitespace, one JSON value, and optional trailing whitespace, where the
whitespace characters are exactly space, tab, newline and carriage return;
`parse_value` must consume everything before the trailing whitespace.  In
particular `"1 2"` fails and `"1 "` yields the number 1. -/
theorem C4_whole_input_consumption :
    (∀ c, is_ws c = true ↔ (c = ' ' ∨ c = '\t' ∨ c = '\n' ∨ c = '\r')) ∧
    (∀ s v, parse s = .ok v ↔
      ∃ w1 mid w2, s = w1 ++ mid ++ w2 ∧ w1.all is_ws = true ∧ w2.all is_ws = true ∧
        parse_value (fuelFor s) (mid ++ w2) = .ok v w2) ∧
    parse "1 2".toList = .fail ∧
    parse "1 ".toList = .ok (.number (.finite false 4503599627370496 (-52))) := by
  refine ⟨fun c => ?_, fun s v => ?_, rfl, rfl⟩
  · rw [is_ws]
    simp only [Bool.or_eq_true, decide_eq_true_eq]
    tauto
  constructor
  · intro h
    rw [parse] at h
    cases hpv : parse_value (fuelFor s) (s.dropWhile is_ws) with
    | ok v2 rest =>
      rw [hpv] at h
      dsimp only at h
      by_cases hre : (rest.dropWhile is_ws).isEmpty = true
      · rw [if_pos hre] at h
        injection h with h1
        subst h1
        have hall2 : rest.all is_ws = true := all_of_dropWhile_nil (List.isEmpty_iff.mp hre)
        obtain ⟨mid, hmid⟩ := (parsers_suffix (fuelFor s)).1 _ _ _ hpv
        refine ⟨s.takeWhile is_ws, mid, rest, ?_, List.all_takeWhile, hall2, ?_⟩
        · rw [List.append_assoc, hmid, List.takeWhile_append_dropWhile]
        · rw [hmid]
          exact hpv
      · rw [if_neg hre] at h
        exact TRes.noConfusion h
    | fail => rw [hpv] at h; exact TRes.noConfusion h
    | panic => rw [hpv] at h; exact TRes.noConfusion h
  · rintro ⟨w1, mid, w2, hs, hw1, hw2, hpv⟩
    obtain ⟨c, t, hct, hnws⟩ := parse_value_ok_head hpv
    have hdw : s.dropWhile is_ws = mid ++ w2 := by
      rw [hs, List.append_assoc, dropWhile_append_all _ hw1]
      apply dropWhile_head_not
      intro c0 hc0
      rw [hct] at hc0
      simp only [List.head?_cons, Option.some.injEq] at hc0
      rw [← hc0]
      exact hnws
    rw [parse, hdw, hpv]
    dsimp only
    rw [dropWhile_all_eq hw2]
    rfl

/-- Witness for C4: the decomposition direction applied to " 1 ". -/
theorem C4_whole_input_consumption_witness :
    parse (" ".toList ++ "1".toList ++ " ".toList) =
      .ok (.number (.finite false 4503599627370496 (-52))) :=
  (C4_whole_input_consumption.2.1 (" ".toList ++ "1".toList ++ " ".toList)
      (.number (.finite false 4503599627370496 (-52)))).mpr
    ⟨" ".toList, "1".toList, " ".toList, rfl, rfl, rfl, rfl⟩

theorem log2fine_eq : ∀ f n acc, n < 2 ^ f → log2fine f n acc = acc + Nat.log2 n := by
  intro f
  induction f with
  | zero =>
    intro n acc h
    interval_cases n
    simp [Nat.log2, log2fine]
  | succ f ih =>
    intro n acc h
    rw [log2fine]
    by_cases h1 : n ≤ 1
    · rw [if_pos h1]
      interval_cases n <;> simp [Nat.log2]
    · rw [if_neg h1]
      rw [ih (n / 2) (acc + 1) (by omega)]
      conv_rhs => rw [Nat.log2]
      rw [if_pos (show n ≥ 2 by omega)]
      omega

theorem log2_div_pow (k : Nat) : ∀ n, Nat.log2 (n / 2 ^ k) = Nat.log2 n - k := by
  induction k with
  | zero => intro n; simp
  | succ k ih =>
    intro n
    have : n / 2 ^ (k + 1) = n / 2 ^ k / 2 := by
      rw [Nat.div_div_eq_div_mul, pow_succ]
    rw [this]
    by_cases h2 : n / 2 ^ k ≥ 2
    · rw [show Nat.log2 (n / 2 ^ k / 2) = Nat.log2 (n / 2 ^ k) - 1 from ?_]
      · rw [ih n]; omega
      · conv_rhs => rw [Nat.log2]
        rw [if_pos h2]
        omega
    · have hlt : n / 2 ^ k / 2 = 0 := Nat.div_eq_of_lt (by omega)
      rw [hlt]
      have h0 : Nat.log2 (n / 2 ^ k) ≤ 1 := by
        by_contra hc
        have := Nat.log2_self_le (n := n / 2 ^ k) (by
          intro h0
          rw [h0] at hc
          simp [Nat.log2] at hc)
        have : 2 ^ Nat.log2 (n / 2 ^ k) ≤ 1 := le_trans this (by omega)
        have := Nat.one_lt_two_pow_iff.mpr (show Nat.log2 (n / 2 ^ k) ≠ 0 by omega)
        omega
      have hl0 : Nat.log2 0 = 0 := by simp [Nat.log2]
      rw [hl0]
      have hnk : Nat.log2 n - k ≤ 1 := by rw [← ih n]; exact h0
      omega

theorem log2chunk_eq : ∀ f n acc, n < 2 ^ (64 * f) → log2chunk f n acc = acc + Nat.log2 n := by
  intro f
  induction f with
  | zero =>
    intro n acc h
    have hn : n = 0 := by simpa using h
    subst hn
    simp [log2chunk, Nat.log2]
  | succ f ih =>
    intro n acc h
    rw [log2chunk]
    by_cases h1 : n < 2 ^ 64
    · rw [if_pos h1]
      exact log2fine_eq 64 n acc h1
    · rw [if_neg h1]
      have hdiv : n / 2 ^ 64 < 2 ^ (64 * f) := by
        rw [Nat.div_lt_iff_lt_mul (by positivity)]
        calc n < 2 ^ (64 * (f + 1)) := h
          _ = 2 ^ (64 * f) * 2 ^ 64 := by rw [← pow_add]; ring_nf
      rw [ih (n / 2 ^ 64) (acc + 64) hdiv, log2_div_pow 64 n]
      have hle : 64 ≤ Nat.log2 n := by
        rw [Nat.le_log2 (by omega)]
        omega
      omega

theorem nlog2_eq (n : Nat) : nlog2 n = Nat.log2 n := by
  rw [nlog2]
  have h : n < 2 ^ (64 * n) := by
    calc n < 2 ^ n := Nat.lt_two_pow n
      _ ≤ 2 ^ (64 * n) := Nat.pow_le_pow_right (by omega) (by omega)
  rw [log2chunk_eq n n 0 h]
  omega

theorem pow2Le_iff (num den : Nat) (k : Int) :
    pow2Le num den k = true ↔ (2 : ℚ) ^ k * den ≤ num := by
  rw [pow2Le]
  by_cases hk : 0 ≤ k
  · rw [if_pos hk, decide_eq_true_eq]
    rw [show (2 : ℚ) ^ k = ((2 : ℚ) ^ k.toNat) by
      rw [← zpow_natCast, Int.toNat_of_nonneg hk]]
    constructor
    · intro h
      calc (2 : ℚ) ^ k.toNat * den = ((den * 2 ^ k.toNat : ℕ) : ℚ) := by push_cast; ring
        _ ≤ num := by exact_mod_cast h
    · intro h
      have : ((den * 2 ^ k.toNat : ℕ) : ℚ) ≤ num := by
        calc ((den * 2 ^ k.toNat : ℕ) : ℚ) = (2 : ℚ) ^ k.toNat * den := by push_cast; ring
          _ ≤ num := h
      exact_mod_cast this
  · rw [if_neg hk, decide_eq_true_eq]
    have h2 : (0 : ℚ) < (2 : ℚ) ^ (-k).toNat := by positivity
    have key : (2 : ℚ) ^ k * (2 : ℚ) ^ (-k).toNat = 1 := by
      rw [show ((2 : ℚ) ^ (-k).toNat) = (2 : ℚ) ^ ((-k).toNat : ℤ) by rw [zpow_natCast]]
      rw [← zpow_add₀ (by norm_num : (2 : ℚ) ≠ 0)]
      rw [Int.toNat_of_nonneg (by omega)]
      simp
    constructor
    · intro h
      have hq : (den : ℚ) ≤ (num : ℚ) * 2 ^ (-k).toNat := by exact_mod_cast h
      have := mul_le_mul_of_nonneg_left hq (by positivity : (0:ℚ) ≤ (2:ℚ) ^ k)
      calc (2 : ℚ) ^ k * den ≤ 2 ^ k * ((num : ℚ) * 2 ^ (-k).toNat) := this
        _ = num * ((2 : ℚ) ^ k * 2 ^ (-k).toNat) := by ring
        _ = num := by rw [key]; ring
    · intro h
      have := mul_le_mul_of_nonneg_right h (le_of_lt h2)
      have h3 : (den : ℚ) ≤ (num : ℚ) * 2 ^ (-k).toNat := by
        calc (den : ℚ) = (2 : ℚ) ^ k * den * 2 ^ (-k).toNat := by
              rw [show (2 : ℚ) ^ k * (den : ℚ) * 2 ^ (-k).toNat
                  = (den : ℚ) * ((2 : ℚ) ^ k * 2 ^ (-k).toNat) by ring, key]; ring
          _ ≤ num * 2 ^ (-k).toNat := this
      exact_mod_cast h3

theorem zpow_natl (l : Nat) : (2 : ℚ) ^ ((l : ℤ)) = (2 : ℚ) ^ l := by
  rw [← zpow_natCast]

theorem ilog2_spec (num den : Nat) (hn : 0 < num) (hd : 0 < den) :
    pow2Le num den (ilog2 num den) = true ∧ pow2Le num den (ilog2 num den + 1) = false := by
  have h2pos : ∀ k : Int, (0 : ℚ) < 2 ^ k := fun k => zpow_pos (by norm_num) k
  set LN : Int := (Nat.log2 num : Int) with hLN
  set LD : Int := (Nat.log2 den : Int) with hLD
  have hln1 : (2 : ℚ) ^ LN ≤ num := by
    rw [hLN, zpow_natl]
    exact_mod_cast Nat.log2_self_le (by omega)
  have hln2 : (num : ℚ) < 2 ^ (LN + 1) := by
    rw [hLN, show ((Nat.log2 num : ℤ) + 1) = ((Nat.log2 num + 1 : ℕ) : ℤ) by push_cast; ring,
      zpow_natl]
    exact_mod_cast Nat.lt_log2_self
  have hld1 : (2 : ℚ) ^ LD ≤ den := by
    rw [hLD, zpow_natl]
    exact_mod_cast Nat.log2_self_le (by omega)
  have hld2 : (den : ℚ) < 2 ^ (LD + 1) := by
    rw [hLD, show ((Nat.log2 den : ℤ) + 1) = ((Nat.log2 den + 1 : ℕ) : ℤ) by push_cast; ring,
      zpow_natl]
    exact_mod_cast Nat.lt_log2_self
  set a : Int := LN - LD with ha
  have hB1 : (num : ℚ) < 2 ^ (a + 1) * den := by
    calc (num : ℚ) < 2 ^ (LN + 1) := hln2
      _ = 2 ^ (a + 1) * 2 ^ LD := by
          rw [← zpow_add₀ (by norm_num : (2 : ℚ) ≠ 0)]
          congr 1
          omega
      _ ≤ 2 ^ (a + 1) * den := by
          exact mul_le_mul_of_nonneg_left hld1 (le_of_lt (h2pos _))
  have hB2 : (2 : ℚ) ^ (a - 1) * den ≤ num := by
    have : (2 : ℚ) ^ (a - 1) * den < 2 ^ LN := by
      calc (2 : ℚ) ^ (a - 1) * den < 2 ^ (a - 1) * 2 ^ (LD + 1) :=
            mul_lt_mul_of_pos_left hld2 (h2pos _)
        _ = 2 ^ LN := by
            rw [← zpow_add₀ (by norm_num : (2 : ℚ) ≠ 0)]
            congr 1
            omega
    exact le_trans (le_of_lt this) hln1
  have hfalse1 : pow2Le num den (a + 1) = false := by
    rw [Bool.eq_false_iff, Ne, pow2Le_iff]
    push_neg
    exact hB1
  have htrue2 : pow2Le num den (a - 1) = true := by
    rw [pow2Le_iff]
    exact hB2
  have hil : ilog2 num den = if pow2Le num den a = true then a else a - 1 := by
    rw [ilog2]
    simp only [nlog2_eq, ← hLN, ← hLD, ← ha, hfalse1]
    simp
  by_cases hA : pow2Le num den a = true
  · rw [hil, if_pos hA]
    exact ⟨hA, hfalse1⟩
  · rw [hil, if_neg hA]
    constructor
    · exact htrue2
    · rw [show a - 1 + 1 = a by ring]
      exact Bool.eq_false_iff.mpr hA

theorem rndNat_exact (m D : Nat) (hD : 0 < D) : rndNat (m * D) D = m := by
  rw [rndNat]
  have hq : m * D / D = m := Nat.mul_div_cancel m hD
  have hr : m * D % D = 0 := Nat.mul_mod_left m D
  rw [hq, hr]
  rw [if_neg (by omega), if_pos (by omega)]

theorem zpow_lt_zpow_2 {a b : Int} (h : a < b) : (2 : ℚ) ^ a < 2 ^ b :=
  zpow_lt_zpow_right₀ (by norm_num) h

theorem log_unique {x : ℚ} {L K : Int} (h1 : 2 ^ L ≤ x) (h2 : x < 2 ^ (L + 1))
    (h3 : 2 ^ K ≤ x) (h4 : x < 2 ^ (K + 1)) : L = K := by
  by_contra hne
  rcases lt_or_gt_of_ne hne with hlt | hgt
  · have : (2 : ℚ) ^ (L + 1) ≤ 2 ^ K :=
      zpow_le_zpow_right₀ (by norm_num) (by omega)
    linarith
  · have : (2 : ℚ) ^ (K + 1) ≤ 2 ^ L :=
      zpow_le_zpow_right₀ (by norm_num) (by omega)
    linarith

theorem roundExact (neg : Bool) (num den m : Nat) (e : Int)
    (hn : 0 < num) (hd : 0 < den) (hm : 0 < m)
    (hm53 : m < 2 ^ 53) (he1 : -1074 ≤ e) (he2 : e ≤ 971)
    (hnorm : 2 ^ 52 ≤ m ∨ e = -1074)
    (hx : (num : ℚ) = (m : ℚ) * 2 ^ e * den) :
    mkF64 neg num den = .finite neg m e := by
  have hdQ : (0 : ℚ) < den := by exact_mod_cast hd
  have h2pos : ∀ k : Int, (0 : ℚ) < 2 ^ k := fun k => zpow_pos (by norm_num) k
  obtain ⟨hP1, hP2⟩ := ilog2_spec num den hn hd
  set L := ilog2 num den with hL
  rw [pow2Le_iff] at hP1
  rw [Bool.eq_false_iff, Ne, pow2Le_iff] at hP2
  push_neg at hP2
  have hl1 : (2 : ℚ) ^ L ≤ (m : ℚ) * 2 ^ e := by
    rw [hx] at hP1
    exact le_of_mul_le_mul_right hP1 hdQ
  have hl2 : (m : ℚ) * 2 ^ e < 2 ^ (L + 1) := by
    rw [hx] at hP2
    have := (mul_lt_mul_right hdQ).mp hP2
    exact this
  have he0 : max (-1074) (L - 52) = e := by
    rcases hnorm with hnm | hsub
    · have ha : (2 : ℚ) ^ ((52 : ℤ) + e) ≤ (m : ℚ) * 2 ^ e := by
        rw [zpow_add₀ (by norm_num : (2:ℚ) ≠ 0)]
        apply mul_le_mul_of_nonneg_right _ (le_of_lt (h2pos e))
        calc (2 : ℚ) ^ (52 : ℤ) = ((2 ^ 52 : ℕ) : ℚ) := by norm_num
          _ ≤ m := by exact_mod_cast hnm
      have hb : (m : ℚ) * 2 ^ e < 2 ^ ((52 : ℤ) + e + 1) := by
        rw [show (52 : ℤ) + e + 1 = (53 + e) by ring,
          zpow_add₀ (by norm_num : (2:ℚ) ≠ 0)]
        apply mul_lt_mul_of_pos_right _ (h2pos e)
        calc (m : ℚ) < ((2 ^ 53 : ℕ) : ℚ) := by exact_mod_cast hm53
          _ = (2 : ℚ) ^ (53 : ℤ) := by norm_num
      have hLe : L = 52 + e := log_unique hl1 hl2 ha hb
      omega
    · subst hsub
      have hb : (m : ℚ) * 2 ^ (-1074 : ℤ) < 2 ^ ((-1021 : ℤ)) := by
        rw [show (-1021 : ℤ) = 53 + (-1074) by ring,
          zpow_add₀ (by norm_num : (2:ℚ) ≠ 0)]
        apply mul_lt_mul_of_pos_right _ (h2pos _)
        calc (m : ℚ) < ((2 ^ 53 : ℕ) : ℚ) := by exact_mod_cast hm53
          _ = (2 : ℚ) ^ (53 : ℤ) := by norm_num
      have hLlt : L < -1021 := by
        have h2L : (2 : ℚ) ^ L < 2 ^ (-1021 : ℤ) := lt_of_le_of_lt hl1 hb
        exact (zpow_lt_zpow_iff_right₀ (by norm_num : (1:ℚ) < 2)).mp h2L
      omega
  rw [mkF64, if_neg (by omega : ¬ num = 0), ← hL]
  dsimp only
  rw [he0]
  by_cases hep : 0 ≤ e
  · rw [scaleDown, if_pos hep]
    dsimp only
    have hD : 0 < den * 2 ^ e.toNat := by positivity
    have hnum : num = m * (den * 2 ^ e.toNat) := by
      have hq : (num : ℚ) = ((m * (den * 2 ^ e.toNat) : ℕ) : ℚ) := by
        push_cast
        rw [hx, show ((2 : ℚ) ^ e.toNat) = (2 : ℚ) ^ e by
          rw [← zpow_natCast, Int.toNat_of_nonneg hep]]
        ring
      exact_mod_cast hq
    rw [hnum, rndNat_exact m _ hD]
    rw [if_neg (by omega : ¬ m = 2 ^ 53)]
    rw [if_neg (by omega : ¬ (971 : ℤ) < e)]
    rw [if_neg (by omega : ¬ m = 2 ^ 53)]
  · rw [scaleDown, if_neg hep]
    dsimp only
    have hnum : num * 2 ^ (-e).toNat = m * den := by
      have hq : ((num * 2 ^ (-e).toNat : ℕ) : ℚ) = ((m * den : ℕ) : ℚ) := by
        push_cast
        rw [hx, show ((2 : ℚ) ^ (-e).toNat) = (2 : ℚ) ^ (-e) by
          rw [← zpow_natCast, Int.toNat_of_nonneg (by omega)]]
        rw [show (m : ℚ) * 2 ^ e * den * 2 ^ (-e) = (m : ℚ) * den * (2 ^ e * 2 ^ (-e)) by ring]
        rw [← zpow_add₀ (by norm_num : (2 : ℚ) ≠ 0)]
        simp
      exact_mod_cast hq
    rw [hnum, rndNat_exact m den hd]
    rw [if_neg (by omega : ¬ m = 2 ^ 53)]
    rw [if_neg (by omega : ¬ (971 : ℤ) < e)]
    rw [if_neg (by omega : ¬ m = 2 ^ 53)]

theorem decToF64_exact (neg : Bool) (d : Nat) (s : Int) (m : Nat) (e : Int)
    (hd : 0 < d) (hm : 0 < m) (hm53 : m < 2 ^ 53) (he1 : -1074 ≤ e) (he2 : e ≤ 971)
    (hnorm : 2 ^ 52 ≤ m ∨ e = -1074)
    (hx : (d : ℚ) * 10 ^ s = (m : ℚ) * 2 ^ e) :
    decToF64 neg d s = .finite neg m e := by
  rw [decToF64]
  by_cases hs : 0 ≤ s
  · rw [if_pos hs]
    refine roundExact neg (d * 10 ^ s.toNat) 1 m e
      (Nat.mul_pos hd (pow_pos (by omega) _)) (by omega) hm hm53 he1 he2 hnorm ?_
    push_cast
    rw [show ((10 : ℚ) ^ s.toNat) = (10 : ℚ) ^ s by
      rw [← zpow_natCast, Int.toNat_of_nonneg hs]]
    rw [hx]
    ring
  · rw [if_neg hs]
    refine roundExact neg d (10 ^ (-s).toNat) m e hd (pow_pos (by omega) _)
      hm hm53 he1 he2 hnorm ?_
    push_cast
    rw [show ((10 : ℚ) ^ (-s).toNat) = (10 : ℚ) ^ (-s) by
      rw [← zpow_natCast, Int.toNat_of_nonneg (by omega)]]
    have h1 : (d : ℚ) = (d : ℚ) * 10 ^ s * 10 ^ (-s) := by
      rw [mul_assoc, ← zpow_add₀ (by norm_num : (10 : ℚ) ≠ 0)]
      simp
    rw [h1, hx]

theorem stripZerosAux_spec : ∀ f d s, 1 ≤ d →
    1 ≤ (stripZerosAux f d s).1 ∧
    ((stripZerosAux f d s).1 : ℚ) * 10 ^ (stripZerosAux f d s).2 = (d : ℚ) * 10 ^ s := by
  intro f
  induction f with
  | zero => intro d s hd; exact ⟨hd, rfl⟩
  | succ f ih =>
    intro d s hd
    rw [stripZerosAux]
    by_cases hc : d % 10 = 0 ∧ d ≠ 0
    · rw [if_pos hc]
      have hd10 : 1 ≤ d / 10 := by omega
      obtain ⟨ih1, ih2⟩ := ih (d / 10) (s + 1) hd10
      refine ⟨ih1, ?_⟩
      rw [ih2]
      have hdiv : (10 : ℕ) * (d / 10) = d := by omega
      calc ((d / 10 : ℕ) : ℚ) * 10 ^ (s + 1)
          = ((d / 10 : ℕ) : ℚ) * (10 ^ s * 10) := by
            rw [zpow_add₀ (by norm_num : (10 : ℚ) ≠ 0)]
            norm_num
        _ = ((10 * (d / 10) : ℕ) : ℚ) * 10 ^ s := by push_cast; ring
        _ = (d : ℚ) * 10 ^ s := by rw [hdiv]
    · rw [if_neg hc]
      exact ⟨hd, rfl⟩

theorem exactDec_spec (m : Nat) (e : Int) (hm : 1 ≤ m) :
    1 ≤ (exactDec m e).1 ∧
    ((exactDec m e).1 : ℚ) * 10 ^ (exactDec m e).2 = (m : ℚ) * 2 ^ e := by
  rw [exactDec]
  by_cases he : 0 ≤ e
  · rw [if_pos he, stripZeros]
    have h1 : 1 ≤ m * 2 ^ e.toNat := Nat.one_le_iff_ne_zero.mpr
      (Nat.mul_ne_zero (by omega) (Nat.pos_iff_ne_zero.mp (pow_pos (by omega) _)))
    obtain ⟨s1, s2⟩ := stripZerosAux_spec (m * 2 ^ e.toNat) (m * 2 ^ e.toNat) 0 h1
    refine ⟨s1, ?_⟩
    rw [s2]
    push_cast
    rw [show ((2 : ℚ) ^ e.toNat) = (2 : ℚ) ^ e by
      rw [← zpow_natCast, Int.toNat_of_nonneg he]]
    simp
  · rw [if_neg he, stripZeros]
    have h1 : 1 ≤ m * 5 ^ (-e).toNat := Nat.one_le_iff_ne_zero.mpr
      (Nat.mul_ne_zero (by omega) (Nat.pos_iff_ne_zero.mp (pow_pos (by omega) _)))
    obtain ⟨s1, s2⟩ := stripZerosAux_spec (m * 5 ^ (-e).toNat) (m * 5 ^ (-e).toNat) e h1
    refine ⟨s1, ?_⟩
    rw [s2]
    push_cast
    rw [show ((5 : ℚ) ^ (-e).toNat) = (5 : ℚ) ^ (-e) by
      rw [← zpow_natCast, Int.toNat_of_nonneg (by omega)]]
    rw [show (10 : ℚ) ^ e = (2 : ℚ) ^ e * (5 : ℚ) ^ e by
      rw [← mul_zpow]
      norm_num]
    rw [show (m : ℚ) * (5 : ℚ) ^ (-e) * ((2 : ℚ) ^ e * (5 : ℚ) ^ e)
        = (m : ℚ) * (2 : ℚ) ^ e * ((5 : ℚ) ^ (-e) * (5 : ℚ) ^ e) by ring]
    rw [← zpow_add₀ (by norm_num : (5 : ℚ) ≠ 0)]
    simp

theorem findSome_range_first {α : Type} (f : Nat → Option α) :
    ∀ n, ((∀ i, i < n → f i = none) ∧ (List.range n).findSome? f = none) ∨
      (∃ i r, i < n ∧ f i = some r ∧ (∀ j, j < i → f j = none) ∧
        (List.range n).findSome? f = some r) := by
  intro n
  induction n with
  | zero => exact Or.inl ⟨fun i h => absurd h (by omega), rfl⟩
  | succ n ih =>
    rw [List.range_succ, List.findSome?_append]
    rcases ih with ⟨hall, hns⟩ | ⟨i, r, hi, hfi, hprev, hfs⟩
    · rw [hns]
      cases hfn : f n with
      | none =>
        refine Or.inl ⟨fun i h => ?_, ?_⟩
        · by_cases hin : i < n
          · exact hall i hin
          · have hieq : i = n := by omega
            subst hieq
            exact hfn
        · simp [List.findSome?, hfn]
      | some r =>
        exact Or.inr ⟨n, r, by omega, hfn, hall, by simp [List.findSome?, hfn]⟩
    · refine Or.inr ⟨i, r, by omega, hfi, hprev, ?_⟩
      rw [hfs]
      rfl

theorem tryPrec_ok (neg : Bool) (m : Nat) (e : Int) (p : Nat) (d : Nat) (s : Int)
    (h : tryPrec neg m e p = some (d, s)) : decToF64 neg d s = .finite neg m e := by
  rw [tryPrec] at h
  repeat' split at h
  all_goals try cases h
  all_goals assumption

theorem decToF64_pos {neg : Bool} {d : Nat} {s : Int} {m : Nat} {e : Int}
    (h : decToF64 neg d s = .finite neg m e) (hm : 0 < m) : 0 < d := by
  by_contra hd
  have hd0 : d = 0 := by omega
  subst hd0
  rw [decToF64] at h
  by_cases hs : 0 ≤ s
  · rw [if_pos hs] at h
    rw [show 0 * 10 ^ s.toNat = 0 by ring] at h
    rw [mkF64, if_pos rfl] at h
    injection h with h1 h2 h3
    omega
  · rw [if_neg hs] at h
    rw [mkF64, if_pos rfl] at h
    injection h with h1 h2 h3
    omega

theorem fmt_finite_spec (neg : Bool) (m : Nat) (e : Int) (hm : 0 < m)
    (hm53 : m < 2 ^ 53) (he1 : -1074 ≤ e) (he2 : e ≤ 971)
    (hnorm : 2 ^ 52 ≤ m ∨ e = -1074) :
    ∃ d s, fmt_finite (.finite neg m e) = fmtDec neg d s ∧
      decToF64 neg d s = .finite neg m e ∧ 0 < d := by
  rw [fmt_finite]
  rw [if_neg (by omega : ¬ m = 0)]
  rcases findSome_range_first (fun i => tryPrec neg m e (i + 1)) 17 with
    ⟨hall, hns⟩ | ⟨i, r, hi, hfi, hprev, hfs⟩
  · rw [hns]
    dsimp only
    obtain ⟨hd1, hd2⟩ := exactDec_spec m e (by omega)
    have hdec : decToF64 neg (exactDec m e).1 (exactDec m e).2 = .finite neg m e :=
      decToF64_exact neg _ _ m e (by omega) hm hm53 he1 he2 hnorm hd2
    exact ⟨(exactDec m e).1, (exactDec m e).2, rfl, hdec, by omega⟩
  · rw [hfs]
    dsimp only
    obtain ⟨d, s⟩ := r
    have hok : decToF64 neg d s = .finite neg m e := tryPrec_ok neg m e (i + 1) d s hfi
    exact ⟨d, s, rfl, hok, decToF64_pos hok hm⟩

/-- C3: finite numbers are rendered by a shortest-round-trip decimal
formatter (the external ryu crate, modelled from the spec): the emitted
decimal re-parses to the same double, the precision used is the first
(smallest) among 1..17 whose nearest decimal candidate round-trips, and the
layout follows the JSON-encoder conventions — in particular 1.0 renders as
"1" and 1e-123 renders as "1e-123". -/
theorem C3_shortest_roundtrip_rendering :
    Value.append (.number (.finite false (2 ^ 52) (-52))) = "1".toList ∧
    Value.append (.number (.finite false 5954262829429612 (-461))) = "1e-123".toList ∧
    (∀ neg m e p d s, tryPrec neg m e p = some (d, s) → decToF64 neg d s = .finite neg m e) ∧
    (∀ neg m e, 0 < m → m < 2 ^ 53 → -1074 ≤ e → e ≤ 971 → (2 ^ 52 ≤ m ∨ e = -1074) →
      ∃ d s, fmt_finite (.finite neg m e) = fmtDec neg d s ∧
        decToF64 neg d s = .finite neg m e) ∧
    (∀ neg m e i d s, tryPrec neg m e (i + 1) = some (d, s) → i < 17 →
      (∀ j, j < i → tryPrec neg m e (j + 1) = none) → m ≠ 0 →
      fmt_finite (.finite neg m e) = fmtDec neg d s) := by
  refine ⟨rfl, rfl, tryPrec_ok, ?_, ?_⟩
  · intro neg m e hm hm53 he1 he2 hnorm
    obtain ⟨d, s, h1, h2, _⟩ := fmt_finite_spec neg m e hm hm53 he1 he2 hnorm
    exact ⟨d, s, h1, h2⟩
  · intro neg m e i d s hfi hi17 hprev hm0
    rw [fmt_finite, if_neg hm0]
    rcases findSome_range_first (fun i => tryPrec neg m e (i + 1)) 17 with
      ⟨hall, hns⟩ | ⟨i2, r, hi2, hfi2, hprev2, hfs⟩
    · exact absurd (hall i hi17) (by rw [hfi]; simp)
    · have hfi2' : tryPrec neg m e (i2 + 1) = some r := hfi2
      have hii : i = i2 := by
        by_contra hne
        rcases Nat.lt_or_ge i i2 with hlt | hge
        · exact absurd (hprev2 i hlt) (by rw [hfi]; simp)
        · have hlt2 : i2 < i := by omega
          exact absurd (hprev i2 hlt2) (by rw [hfi2']; simp)
      subst hii
      rw [hfi] at hfi2'
      injection hfi2' with hr
      subst hr
      rw [hfs]

/-- Witness for C3: the round-trip component at the double 1.0. -/
theorem C3_shortest_roundtrip_rendering_witness :
    ∃ d s, fmt_finite (.finite false (2 ^ 52) (-52)) = fmtDec false d s ∧
      decToF64 false d s = .finite false (2 ^ 52) (-52) :=
  C3_shortest_roundtrip_rendering.2.2.2.1 false (2 ^ 52) (-52) (by norm_num) (by norm_num)
    (by norm_num) (by norm_num) (Or.inl (by norm_num))

theorem hexDigitVal_hexChar (d : Nat) (h : d < 16) : hexDigitVal (hexChar d) = some d := by
  interval_cases d <;> rfl

theorem hexChar_ne_plus (d : Nat) (h : d < 16) : ¬ hexChar d = '+' := by
  interval_cases d <;> decide

theorem u16_hex4 (n : Nat) (h : n < 65536) : u16_from_str_radix16 (toHex4 n) = some n := by
  have ha := hexDigitVal_hexChar (n / 4096 % 16) (by omega)
  have hb := hexDigitVal_hexChar (n / 256 % 16) (by omega)
  have hc := hexDigitVal_hexChar (n / 16 % 16) (by omega)
  have hd := hexDigitVal_hexChar (n % 16) (by omega)
  rw [toHex4, u16_from_str_radix16]
  have hplus : ¬ (([hexChar (n / 4096 % 16), hexChar (n / 256 % 16), hexChar (n / 16 % 16),
      hexChar (n % 16)] : List Char).head? = some '+') := by
    simp only [List.head?_cons, Option.some.injEq]
    exact hexChar_ne_plus (n / 4096 % 16) (by omega)
  rw [if_neg hplus]
  rw [if_neg (by simp)]
  simp only [List.foldl_cons, List.foldl_nil, ha, hb, hc, hd]
  have hv : ((((0 * 16 + n / 4096 % 16) * 16 + n / 256 % 16) * 16 + n / 16 % 16) * 16 + n % 16)
      = n := by omega
  rw [hv, if_pos h]

theorem string_loop_append_str : ∀ (s rest : List Char),
    string_loop (s.foldr (fun c acc => escChar c ++ acc) ['"'] ++ rest) none = .ok s rest := by
  intro s
  induction s with
  | nil =>
    intro rest
    rw [List.foldr_nil]
    simp only [List.cons_append, List.nil_append]
    rw [string_loop_quote]
    rfl
  | cons c s' ih =>
    intro rest
    rw [List.foldr_cons, List.append_assoc, escChar]
    by_cases h1 : c = '\x08'
    · subst h1
      rw [if_pos rfl]
      simp only [List.cons_append, List.nil_append]
      rw [string_loop_cons]
      dsimp only
      rw [ih rest]
      rfl
    rw [if_neg h1]
    by_cases h2 : c = '\x0c'
    · subst h2
      rw [if_pos rfl]
      simp only [List.cons_append, List.nil_append]
      rw [string_loop_cons]
      dsimp only
      rw [ih rest]
      rfl
    rw [if_neg h2]
    by_cases h3 : c = '\n'
    · subst h3
      rw [if_pos rfl]
      simp only [List.cons_append, List.nil_append]
      rw [string_loop_cons]
      dsimp only
      rw [ih rest]
      rfl
    rw [if_neg h3]
    by_cases h4 : c = '\r'
    · subst h4
      rw [if_pos rfl]
      simp only [List.cons_append, List.nil_append]
      rw [string_loop_cons]
      dsimp only
      rw [ih rest]
      rfl
    rw [if_neg h4]
    by_cases h5 : c = '\t'
    · subst h5
      rw [if_pos rfl]
      simp only [List.cons_append, List.nil_append]
      rw [string_loop_cons]
      dsimp only
      rw [ih rest]
      rfl
    rw [if_neg h5]
    by_cases h6 : c = '"'
    · subst h6
      rw [if_pos rfl]
      simp only [List.cons_append, List.nil_append]
      rw [string_loop_cons]
      dsimp only
      rw [ih rest]
      rfl
    rw [if_neg h6]
    by_cases h7 : c = '\\'
    · subst h7
      rw [if_pos rfl]
      simp only [List.cons_append, List.nil_append]
      rw [string_loop_cons]
      dsimp only
      rw [ih rest]
      rfl
    rw [if_neg h7]
    by_cases h8 : c.toNat ≤ 0x19
    · rw [if_pos h8]
      rw [toHex4]
      simp only [List.cons_append, List.nil_append]
      rw [string_loop_u_esc]
      rw [show ([hexChar (c.toNat / 4096 % 16), hexChar (c.toNat / 256 % 16),
          hexChar (c.toNat / 16 % 16), hexChar (c.toNat % 16)] : List Char)
          = toHex4 c.toNat from rfl]
      rw [u16_hex4 c.toNat (by omega)]
      dsimp only
      rw [show charFromU32 c.toNat = some c by
        rw [charFromU32, if_pos (Or.inl (by omega : c.toNat < 0xD800)), Char.ofNat_toNat]]
      dsimp only
      rw [ih rest]
      rfl
    · rw [if_neg h8]
      simp only [List.cons_append, List.nil_append]
      rw [string_loop_other c _ none h6 h7 h8]
      rw [ih rest]
      rfl

theorem parse_string_append (s rest : List Char) :
    parse_string (append_str s ++ rest) = .ok s rest := by
  rw [append_str]
  simp only [List.cons_append]
  rw [parse_string]
  rw [if_pos rfl]
  exact string_loop_append_str s rest

theorem parse_number_tail_forward (P fr ex rest : List Char) (v : F64)
    (hfr : fracPartShape fr) (hex : expPartShape ex)
    (hrd : ∀ c, rest.head? = some c → c.isDigit = false)
    (hrdot : ¬ rest.head? = some '.')
    (hre : ¬ rest.head? = some 'e') (hrE : ¬ rest.head? = some 'E')
    (hval : strToF64 P = some v) :
    parse_number_tail (P ++ rest) (fr ++ ex ++ rest) = .ok v rest := by
  have hexrest : ∀ c, (ex ++ rest).head? = some c → c.isDigit = false := by
    rcases hex with rfl | ⟨esym, sg, eds, rfl, hesym, hsg, hne, hall⟩
    · simpa using hrd
    · intro c hc
      simp only [List.cons_append, List.head?_cons, Option.some.injEq] at hc
      subst hc
      rcases hesym with rfl | rfl <;> decide
  have hPfin : (match strToF64 ((P ++ rest).take ((P ++ rest).length - rest.length)) with
      | some v2 => PRes.ok v2 rest
      | none => (PRes.panic : PRes F64)) = .ok v rest := by
    rw [take_all_of_append, hval]
  rw [parse_number_tail]
  dsimp only
  rcases hfr with rfl | ⟨ds, rfl, hdne, hdall⟩
  · -- no fractional part
    rw [List.nil_append]
    have hnd : ¬ (ex ++ rest).head? = some '.' := by
      rcases hex with rfl | ⟨esym, sg, eds, rfl, hesym, hsg, hne, hall⟩
      · simpa using hrdot
      · simp only [List.cons_append, List.head?_cons, Option.some.injEq]
        rcases hesym with rfl | rfl <;> decide
    rw [if_neg hnd]
    rcases hex with rfl | ⟨esym, sg, eds, rfl, hesym, hsg, hne, hall⟩
    · -- no exponent either
      rw [List.nil_append]
      rw [if_neg (by tauto)]
      exact hPfin
    · obtain ⟨ed, edt, rfl⟩ : ∃ ed edt, eds = ed :: edt := by
        cases eds with
        | nil => exact absurd rfl hne
        | cons ed edt => exact ⟨ed, edt, rfl⟩
      have hed : ed.isDigit = true := all_head (l := ed :: edt) rfl hall
      simp only [List.cons_append, List.head?_cons, List.tail_cons, List.append_assoc]
      rw [if_pos (by rcases hesym with rfl | rfl
                     · exact Or.inl rfl
                     · exact Or.inr rfl)]
      have hdrop : (ed :: (edt ++ rest)).dropWhile Char.isDigit = rest := by
        rw [show ed :: (edt ++ rest) = (ed :: edt) ++ rest from rfl,
          dropWhile_append_all _ hall]
        exact dropWhile_head_not hrd
      rcases hsg with rfl | rfl | rfl
      · simp only [List.nil_append, List.head?_cons]
        rw [if_neg (by
          rintro (h | h) <;> injection h with h <;> rw [h] at hed <;>
            exact absurd hed (by decide))]
        simp only [List.head?_cons, hed, if_true]
        rw [hdrop]
        exact hPfin
      · simp only [List.cons_append, List.head?_cons, List.tail_cons]
        rw [if_pos (show True ∨ (some '+' : Option Char) = some '-' from Or.inl trivial)]
        simp only [List.nil_append, List.head?_cons, hed, if_true]
        rw [hdrop]
        exact hPfin
      · simp only [List.cons_append, List.head?_cons, List.tail_cons]
        rw [if_pos (show (some '-' : Option Char) = some '+' ∨ True from Or.inr trivial)]
        simp only [List.nil_append, List.head?_cons, hed, if_true]
        rw [hdrop]
        exact hPfin
  · -- fractional part '.' :: ds
    obtain ⟨d, t, rfl⟩ : ∃ d t, ds = d :: t := by
      cases ds with
      | nil => exact absurd rfl hdne
      | cons d t => exact ⟨d, t, rfl⟩
    have hd0 : d.isDigit = true := all_head (l := d :: t) rfl hdall
    simp only [List.cons_append, List.head?_cons, List.tail_cons, List.append_assoc]
    rw [if_pos (trivial : True)]
    rw [if_pos hd0]
    have hdrop1 : (d :: (t ++ (ex ++ rest))).dropWhile Char.isDigit = ex ++ rest := by
      rw [show d :: (t ++ (ex ++ rest)) = (d :: t) ++ (ex ++ rest) from rfl,
        dropWhile_append_all _ hdall]
      exact dropWhile_head_not hexrest
    rw [hdrop1]
    rcases hex with rfl | ⟨esym, sg, eds, rfl, hesym, hsg, hne, hall⟩
    · rw [List.nil_append]
      rw [if_neg (by tauto)]
      exact hPfin
    · obtain ⟨ed, edt, rfl⟩ : ∃ ed edt, eds = ed :: edt := by
        cases eds with
        | nil => exact absurd rfl hne
        | cons ed edt => exact ⟨ed, edt, rfl⟩
      have hed : ed.isDigit = true := all_head (l := ed :: edt) rfl hall
      simp only [List.cons_append, List.head?_cons, List.tail_cons, List.append_assoc]
      rw [if_pos (by rcases hesym with rfl | rfl
                     · exact Or.inl rfl
                     · exact Or.inr rfl)]
      have hdrop : (ed :: (edt ++ rest)).dropWhile Char.isDigit = rest := by
        rw [show ed :: (edt ++ rest) = (ed :: edt) ++ rest from rfl,
          dropWhile_append_all _ hall]
        exact dropWhile_head_not hrd
      rcases hsg with rfl | rfl | rfl
      · simp only [List.nil_append, List.head?_cons]
        rw [if_neg (by
          rintro (h | h) <;> injection h with h <;> rw [h] at hed <;>
            exact absurd hed (by decide))]
        simp only [List.head?_cons, hed, if_true]
        rw [hdrop]
        exact hPfin
      · simp only [List.cons_append, List.head?_cons, List.tail_cons]
        rw [if_pos (show True ∨ (some '+' : Option Char) = some '-' from Or.inl trivial)]
        simp only [List.nil_append, List.head?_cons, hed, if_true]
        rw [hdrop]
        exact hPfin
      · simp only [List.cons_append, List.head?_cons, List.tail_cons]
        rw [if_pos (show (some '-' : Option Char) = some '+' ∨ True from Or.inr trivial)]
        simp only [List.nil_append, List.head?_cons, hed, if_true]
        rw [hdrop]
        exact hPfin

theorem parse_number_forward (sgn intd fr ex rest : List Char) (v : F64)
    (hsgn : sgn = [] ∨ sgn = ['-']) (hint : intPartShape intd) (hfr : fracPartShape fr)
    (hex : expPartShape ex)
    (hrd : ∀ c, rest.head? = some c → c.isDigit = false)
    (hrdot : ¬ rest.head? = some '.')
    (hre : ¬ rest.head? = some 'e') (hrE : ¬ rest.head? = some 'E')
    (hval : strToF64 (sgn ++ intd ++ fr ++ ex) = some v) :
    parse_number (sgn ++ intd ++ fr ++ ex ++ rest) = .ok v rest := by
  have tailfwd : ∀ X Y : List Char, X = (sgn ++ intd ++ fr ++ ex) ++ rest →
      Y = fr ++ ex ++ rest → parse_number_tail X Y = .ok v rest := by
    intro X Y hX hY
    subst hX
    subst hY
    exact parse_number_tail_forward (sgn ++ intd ++ fr ++ ex) fr ex rest v hfr hex
      hrd hrdot hre hrE hval
  have hfrex : ∀ c, (fr ++ (ex ++ rest)).head? = some c → c.isDigit = false := by
    rcases hfr with rfl | ⟨ds, rfl, hdne, hdall⟩
    · rcases hex with rfl | ⟨esym, sg, eds, rfl, hesym, hsg, hene, heall⟩
      · simpa using hrd
      · intro c hc
        simp only [List.nil_append, List.cons_append, List.head?_cons,
          Option.some.injEq] at hc
        subst hc
        rcases hesym with rfl | rfl <;> decide
    · intro c hc
      simp only [List.cons_append, List.head?_cons, Option.some.injEq] at hc
      subst hc
      decide
  rw [parse_number]
  rcases hint with rfl | ⟨hne, hall, hh0⟩
  · rcases hsgn with rfl | rfl
    · simp only [List.nil_append, List.cons_append, List.append_assoc, List.head?_cons,
        List.tail_cons]
      try dsimp only
      rw [if_neg (by decide : ¬ ('0' : Char) = '-')]
      simp only [List.head?_cons]
      try dsimp only
      rw [if_pos (trivial : True)]
      try dsimp only
      try simp only [List.tail_cons]
      exact tailfwd _ _ (by simp [List.append_assoc]) (by simp [List.append_assoc])
    · simp only [List.nil_append, List.cons_append, List.append_assoc, List.head?_cons,
        List.tail_cons]
      try dsimp only
      rw [if_pos (trivial : True)]
      simp only [List.tail_cons, List.head?_cons]
      try dsimp only
      rw [if_pos (trivial : True)]
      try dsimp only
      try simp only [List.tail_cons]
      exact tailfwd _ _ (by simp [List.append_assoc]) (by simp [List.append_assoc])
  · obtain ⟨d, t, rfl⟩ : ∃ d t, intd = d :: t := by
      cases intd with
      | nil => exact absurd rfl hne
      | cons d t => exact ⟨d, t, rfl⟩
    have hd0 : d.isDigit = true := all_head (l := d :: t) rfl hall
    have hdne0 : ¬ d = '0' := by
      intro hh
      subst hh
      exact hh0 rfl
    have hdropint : (d :: (t ++ (fr ++ (ex ++ rest)))).dropWhile Char.isDigit
        = fr ++ (ex ++ rest) := by
      rw [show d :: (t ++ (fr ++ (ex ++ rest))) = (d :: t) ++ (fr ++ (ex ++ rest)) from rfl,
        dropWhile_append_all _ hall]
      exact dropWhile_head_not hfrex
    rcases hsgn with rfl | rfl
    · simp only [List.nil_append, List.cons_append, List.append_assoc, List.head?_cons,
        List.tail_cons]
      try dsimp only
      rw [if_neg (isDigit_ne_neg hd0)]
      simp only [List.head?_cons]
      try dsimp only
      rw [if_neg hdne0, if_pos hd0]
      try dsimp only
      rw [hdropint]
      exact tailfwd _ _ (by simp [List.append_assoc]) (by simp [List.append_assoc])
    · simp only [List.nil_append, List.cons_append, List.append_assoc, List.head?_cons,
        List.tail_cons]
      try dsimp only
      rw [if_pos (trivial : True)]
      simp only [List.tail_cons, List.head?_cons]
      try dsimp only
      rw [if_neg hdne0, if_pos hd0]
      try dsimp only
      rw [hdropint]
      exact tailfwd _ _ (by simp [List.append_assoc]) (by simp [List.append_assoc])

theorem natCharsAux_acc : ∀ f n acc, natCharsAux f n acc = natCharsAux f n [] ++ acc := by
  intro f
  induction f with
  | zero => intro n acc; rfl
  | succ f ih =>
    intro n acc
    rw [natCharsAux, natCharsAux]
    by_cases hn : n = 0
    · rw [if_pos hn, if_pos hn]
      rfl
    · rw [if_neg hn, if_neg hn]
      rw [ih (n / 10) (digitChar (n % 10) :: acc), ih (n / 10) [digitChar (n % 10)]]
      rw [List.append_assoc]
      rfl

theorem digitsVal_foldl_init :
    ∀ (b : List Char) (x : Nat),
      List.foldl (fun a c => a * 10 + (c.toNat - 48)) x b
        = x * 10 ^ b.length + digitsVal b := by
  intro b
  induction b with
  | nil => intro x; simp [digitsVal]
  | cons c t ih =>
    intro x
    rw [List.foldl_cons, ih (x * 10 + (c.toNat - 48))]
    rw [show digitsVal (c :: t) = List.foldl (fun a c => a * 10 + (c.toNat - 48))
      (0 * 10 + (c.toNat - 48)) t from rfl]
    rw [ih (0 * 10 + (c.toNat - 48))]
    simp only [List.length_cons]
    ring

theorem digitsVal_append (a b : List Char) :
    digitsVal (a ++ b) = digitsVal a * 10 ^ b.length + digitsVal b := by
  rw [digitsVal, List.foldl_append]
  rw [digitsVal_foldl_init b (List.foldl (fun a c => a * 10 + (c.toNat - 48)) 0 a)]
  rfl

theorem digitChar_isDigit (d : Nat) (h : d < 10) : (digitChar d).isDigit = true := by
  interval_cases d <;> decide

theorem digitChar_ne0 (d : Nat) (h1 : 0 < d) (h2 : d < 10) : ¬ digitChar d = '0' := by
  interval_cases d <;> decide

theorem digitChar_toNat (d : Nat) (h : d < 10) : (digitChar d).toNat = 48 + d := by
  rw [digitChar]
  exact Char.toNat_ofNat_valid (Or.inl (by omega))

theorem natCharsAux_zero : ∀ f acc, natCharsAux f 0 acc = acc := by
  intro f acc
  cases f with
  | zero => rfl
  | succ f => rw [natCharsAux, if_pos rfl]

theorem natCharsAux_all : ∀ f n, (natCharsAux f n []).all Char.isDigit = true := by
  intro f
  induction f with
  | zero => intro n; rfl
  | succ f ih =>
    intro n
    rw [natCharsAux]
    by_cases hn : n = 0
    · rw [if_pos hn]; rfl
    · rw [if_neg hn, natCharsAux_acc]
      rw [List.all_append, ih (n / 10)]
      simp [digitChar_isDigit (n % 10) (by omega)]

theorem natChars_all (n : Nat) : (natChars n).all Char.isDigit = true := by
  rw [natChars]
  by_cases hn : n = 0
  · rw [if_pos hn]; rfl
  · rw [if_neg hn]; exact natCharsAux_all n n

theorem natCharsAux_val : ∀ f n, n < 10 ^ f → digitsVal (natCharsAux f n []) = n := by
  intro f
  induction f with
  | zero =>
    intro n h
    have : n = 0 := by simpa using h
    subst this
    rfl
  | succ f ih =>
    intro n h
    rw [natCharsAux]
    by_cases hn : n = 0
    · rw [if_pos hn]; rw [hn]; rfl
    · rw [if_neg hn, natCharsAux_acc]
      rw [digitsVal_append]
      rw [ih (n / 10) (by
        have : 10 ^ (f + 1) = 10 ^ f * 10 := by ring
        rw [this] at h
        omega)]
      have hdv : digitsVal [digitChar (n % 10)] = n % 10 := by
        rw [show digitsVal [digitChar (n % 10)]
          = 0 * 10 + ((digitChar (n % 10)).toNat - 48) from rfl]
        rw [digitChar_toNat (n % 10) (by omega)]
        omega
      rw [hdv]
      simp only [List.length_cons, List.length_nil]
      omega

theorem digitsVal_natChars (n : Nat) : digitsVal (natChars n) = n := by
  rw [natChars]
  by_cases hn : n = 0
  · rw [if_pos hn, hn]; rfl
  · rw [if_neg hn]
    refine natCharsAux_val n n ?_
    calc n < 2 ^ n := Nat.lt_two_pow n
      _ ≤ 10 ^ n := Nat.pow_le_pow_left (by omega) n

theorem natCharsAux_head : ∀ f n acc, 0 < n → n < 10 ^ f →
    ∃ c t, natCharsAux f n acc = c :: t ∧ c.isDigit = true ∧ ¬ c = '0' := by
  intro f
  induction f with
  | zero => intro n acc h1 h2; omega
  | succ f ih =>
    intro n acc h1 h2
    rw [natCharsAux, if_neg (by omega)]
    by_cases hsmall : n < 10
    · have hq : n / 10 = 0 := by omega
      rw [hq, natCharsAux_zero]
      have hmod : n % 10 = n := by omega
      rw [hmod]
      exact ⟨digitChar n, acc, rfl, digitChar_isDigit n hsmall,
        digitChar_ne0 n h1 hsmall⟩
    · refine ih (n / 10) _ (by omega) ?_
      have h10 : 10 ^ (f + 1) = 10 ^ f * 10 := by ring
      rw [h10] at h2
      omega

theorem natChars_head (n : Nat) (h : 0 < n) :
    ∃ c t, natChars n = c :: t ∧ c.isDigit = true ∧ ¬ c = '0' := by
  rw [natChars, if_neg (by omega)]
  refine natCharsAux_head n n [] h ?_
  calc n < 2 ^ n := Nat.lt_two_pow n
    _ ≤ 10 ^ n := Nat.pow_le_pow_left (by omega) n

theorem all_take {p : Char → Bool} {l : List Char} (h : l.all p = true) (k : Nat) :
    (l.take k).all p = true := by
  rw [List.all_eq_true] at h ⊢
  intro x hx
  exact h x (List.mem_of_mem_take hx)

theorem all_drop {p : Char → Bool} {l : List Char} (h : l.all p = true) (k : Nat) :
    (l.drop k).all p = true := by
  rw [List.all_eq_true] at h ⊢
  intro x hx
  exact h x (List.mem_of_mem_drop hx)

theorem all_replicate_zero (z : Nat) :
    (List.replicate z '0').all Char.isDigit = true := by
  rw [List.all_eq_true]
  intro x hx
  rw [List.eq_of_mem_replicate hx]
  decide

theorem digitsVal_replicate_zero (z : Nat) : digitsVal (List.replicate z '0') = 0 := by
  induction z with
  | zero => rfl
  | succ z ih =>
    rw [List.replicate_succ, show digitsVal ('0' :: List.replicate z '0')
      = List.foldl (fun a c => a * 10 + (c.toNat - 48))
        (0 * 10 + ('0'.toNat - 48)) (List.replicate z '0') from rfl]
    rw [digitsVal_foldl_init]
    simpa using ih

theorem decToF64_shift (neg : Bool) (d : Nat) (s : Int) (hs : 0 ≤ s) :
    decToF64 neg (d * 10 ^ s.toNat) 0 = decToF64 neg d s := by
  rw [decToF64, decToF64, if_pos (le_refl (0 : Int)), if_pos hs]
  norm_num

theorem fmtDec_parse (neg : Bool) (d : Nat) (s : Int) (hd : 0 < d) :
    ∃ sgn intd fr ex, fmtDec neg d s = sgn ++ intd ++ fr ++ ex ∧
      (sgn = [] ∨ sgn = ['-']) ∧ intPartShape intd ∧ fracPartShape fr ∧ expPartShape ex ∧
      strToF64 (sgn ++ intd ++ fr ++ ex) = some (decToF64 neg d s) := by
  obtain ⟨c0, t0, hds, hc0d, hc0ne⟩ := natChars_head d hd
  have hall := natChars_all d
  have hne : natChars d ≠ [] := natChars_ne_nil d
  have hsgn : (if neg then ['-'] else []) = [] ∨ (if neg then ['-'] else ([] : List Char)) = ['-'] := by
    cases neg <;> simp
  rw [fmtDec]
  try dsimp only
  by_cases hB1 : 0 ≤ s ∧ ((natChars d).length : Int) + s - 1 < 21
  · rw [if_pos hB1]
    have hallz : (natChars d ++ List.replicate s.toNat '0').all Char.isDigit = true := by
      rw [List.all_append, hall, all_replicate_zero]
      rfl
    have hnez : natChars d ++ List.replicate s.toNat '0' ≠ [] := by
      simp [hds]
    refine ⟨(if neg then ['-'] else []), natChars d ++ List.replicate s.toNat '0', [], [],
      by simp [List.append_assoc], hsgn, ?_, Or.inl rfl, Or.inl rfl, ?_⟩
    · right
      refine ⟨hnez, hallz, ?_⟩
      rw [hds]
      simp only [List.cons_append, List.head?_cons, Option.some.injEq]
      exact hc0ne
    · rw [show (if neg then ['-'] else []) ++ (natChars d ++ List.replicate s.toNat '0')
          ++ [] ++ [] = (if neg then ['-'] else []) ++ (natChars d ++ List.replicate s.toNat '0')
        by simp]
      rw [strToF64_int neg _ hnez hallz]
      rw [digitsVal_append, digitsVal_natChars, digitsVal_replicate_zero,
        List.length_replicate]
      rw [show d * 10 ^ s.toNat + 0 = d * 10 ^ s.toNat by ring]
      rw [decToF64_shift neg d s hB1.1]
  rw [if_neg hB1]
  by_cases hB2 : 0 ≤ ((natChars d).length : Int) + s - 1 ∧
      ((natChars d).length : Int) + s - 1 < 21
  · rw [if_pos hB2]
    have hsneg : s < 0 := by
      by_contra hcon
      exact hB1 ⟨by omega, hB2.2⟩
    have hKnat : ((((natChars d).length : Int) + s - 1).toNat : Int)
        = ((natChars d).length : Int) + s - 1 := Int.toNat_of_nonneg hB2.1
    have hlt : (((natChars d).length : Int) + s - 1).toNat + 1 < (natChars d).length := by
      omega
    have htake : (natChars d).take ((((natChars d).length : Int) + s - 1).toNat + 1)
        = c0 :: t0.take (((natChars d).length : Int) + s - 1).toNat := by
      rw [hds, List.take_succ_cons]
    have hnetake : (natChars d).take ((((natChars d).length : Int) + s - 1).toNat + 1) ≠ [] := by
      rw [htake]
      simp
    have hnedrop : (natChars d).drop ((((natChars d).length : Int) + s - 1).toNat + 1) ≠ [] := by
      intro hcon
      have := congrArg List.length hcon
      rw [List.length_drop] at this
      simp at this
      omega
    refine ⟨(if neg then ['-'] else []),
      (natChars d).take ((((natChars d).length : Int) + s - 1).toNat + 1),
      '.' :: (natChars d).drop ((((natChars d).length : Int) + s - 1).toNat + 1), [],
      by simp [List.append_assoc], hsgn, ?_, ?_, Or.inl rfl, ?_⟩
    · right
      refine ⟨hnetake, all_take hall _, ?_⟩
      rw [htake]
      simp only [List.head?_cons, Option.some.injEq]
      exact hc0ne
    · exact Or.inr ⟨_, rfl, hnedrop, all_drop hall _⟩
    · rw [show (if neg then ['-'] else [])
          ++ (natChars d).take ((((natChars d).length : Int) + s - 1).toNat + 1)
          ++ ('.' :: (natChars d).drop ((((natChars d).length : Int) + s - 1).toNat + 1)) ++ []
          = (if neg then ['-'] else [])
          ++ (natChars d).take ((((natChars d).length : Int) + s - 1).toNat + 1)
          ++ ('.' :: (natChars d).drop ((((natChars d).length : Int) + s - 1).toNat + 1))
        by simp]
      rw [strToF64_frac neg _ _ hnetake (all_take hall _) hnedrop (all_drop hall _)]
      rw [List.take_append_drop, digitsVal_natChars]
      rw [show -((((natChars d).drop ((((natChars d).length : Int) + s - 1).toNat + 1)).length :
          Int)) = s by
        rw [List.length_drop]
        rw [Nat.cast_sub (by omega)]
        push_cast
        omega]
  rw [if_neg hB2]
  by_cases hB3 : -7 < ((natChars d).length : Int) + s - 1 ∧ ((natChars d).length : Int) + s - 1 < 0
  · rw [if_pos hB3]
    have hnefr : List.replicate (-(((natChars d).length : Int) + s - 1 + 1)).toNat '0'
        ++ natChars d ≠ [] := by
      simp [hds]
    have hallfr : (List.replicate (-(((natChars d).length : Int) + s - 1 + 1)).toNat '0'
        ++ natChars d).all Char.isDigit = true := by
      rw [List.all_append, hall, all_replicate_zero]
      rfl
    refine ⟨(if neg then ['-'] else []), ['0'],
      '.' :: (List.replicate (-(((natChars d).length : Int) + s - 1 + 1)).toNat '0'
        ++ natChars d), [],
      by simp [List.append_assoc], hsgn, Or.inl rfl, Or.inr ⟨_, rfl, hnefr, hallfr⟩,
      Or.inl rfl, ?_⟩
    rw [show (if neg then ['-'] else []) ++ ['0']
        ++ ('.' :: (List.replicate (-(((natChars d).length : Int) + s - 1 + 1)).toNat '0'
          ++ natChars d)) ++ []
        = (if neg then ['-'] else []) ++ ['0']
        ++ ('.' :: (List.replicate (-(((natChars d).length : Int) + s - 1 + 1)).toNat '0'
          ++ natChars d)) by simp]
    rw [strToF64_frac neg _ _ (by simp) (by decide) hnefr hallfr]
    rw [digitsVal_append, digitsVal_append, digitsVal_natChars, digitsVal_replicate_zero]
    rw [show digitsVal ['0'] = 0 from rfl]
    rw [List.length_append, List.length_replicate]
    rw [show (0 * 10 ^ (((-(((natChars d).length : Int) + s - 1 + 1)).toNat)
        + (natChars d).length) + (0 * 10 ^ (natChars d).length + d)) = d by ring]
    rw [show -(((((-(((natChars d).length : Int) + s - 1 + 1)).toNat)
        + (natChars d).length : Nat)) : Int) = s by
      push_cast
      omega]
  rw [if_neg hB3]
  have habs : (((((natChars d).length : Int) + s - 1).natAbs : Int))
      = if ((natChars d).length : Int) + s - 1 < 0
        then -(((natChars d).length : Int) + s - 1)
        else ((natChars d).length : Int) + s - 1 := by
    split <;> omega
  by_cases hp1 : 1 < (natChars d).length
  · rw [if_pos hp1]
    have hnetake : (natChars d).take 1 ≠ [] := by
      rw [hds, List.take_succ_cons]
      simp
    have hnedrop : (natChars d).drop 1 ≠ [] := by
      intro hcon
      have := congrArg List.length hcon
      rw [List.length_drop] at this
      simp at this
      omega
    have hsg : (if ((natChars d).length : Int) + s - 1 < 0 then ['-'] else ['+']) = [] ∨
        (if ((natChars d).length : Int) + s - 1 < 0 then ['-'] else (['+'] : List Char)) = ['+'] ∨
        (if ((natChars d).length : Int) + s - 1 < 0 then ['-'] else (['+'] : List Char)) = ['-'] := by
      split
      · exact Or.inr (Or.inr rfl)
      · exact Or.inr (Or.inl rfl)
    refine ⟨(if neg then ['-'] else []), (natChars d).take 1, '.' :: (natChars d).drop 1,
      'e' :: ((if ((natChars d).length : Int) + s - 1 < 0 then ['-'] else ['+'])
        ++ natChars (((natChars d).length : Int) + s - 1).natAbs),
      by simp [List.append_assoc], hsgn, ?_, Or.inr ⟨_, rfl, hnedrop, all_drop hall _⟩,
      Or.inr ⟨'e', _, _, rfl, Or.inl rfl, hsg, natChars_ne_nil _, natChars_all _⟩, ?_⟩
    · right
      refine ⟨hnetake, all_take hall _, ?_⟩
      rw [hds, List.take_succ_cons]
      simp only [List.head?_cons, Option.some.injEq]
      exact hc0ne
    · rw [show (if neg then ['-'] else []) ++ (natChars d).take 1
          ++ ('.' :: (natChars d).drop 1)
          ++ ('e' :: ((if ((natChars d).length : Int) + s - 1 < 0 then ['-'] else ['+'])
            ++ natChars (((natChars d).length : Int) + s - 1).natAbs))
          = (if neg then ['-'] else []) ++ (natChars d).take 1
          ++ '.' :: (natChars d).drop 1
          ++ 'e' :: ((if ((natChars d).length : Int) + s - 1 < 0 then ['-'] else ['+'])
            ++ natChars (((natChars d).length : Int) + s - 1).natAbs)
        by simp [List.append_assoc]]
      rw [strToF64_frac_exp neg _ _ _ _ 'e' hnetake (all_take hall _) hnedrop
        (all_drop hall _) hsg (natChars_ne_nil _) (natChars_all _) (Or.inl rfl)]
      rw [List.take_append_drop, digitsVal_natChars, digitsVal_natChars]
      congr 1
      congr 1
      rw [List.length_drop]
      split
      · rename_i hKneg
        rw [if_pos (show (['-'] : List Char) = ['-'] from rfl)]
        rw [Nat.cast_sub (by omega)]
        push_cast
        rw [abs_of_nonpos (by omega)]
        omega
      · rename_i hKpos
        rw [if_neg (show ¬ (['+'] : List Char) = ['-'] by decide)]
        rw [Nat.cast_sub (by omega)]
        push_cast
        rw [abs_of_nonneg (by omega)]
        omega
  · rw [if_neg hp1]
    have hp : (natChars d).length = 1 := by
      have h1 : (natChars d).length ≠ 0 := by rw [hds]; simp
      omega
    have hsg : (if ((natChars d).length : Int) + s - 1 < 0 then ['-'] else ['+']) = [] ∨
        (if ((natChars d).length : Int) + s - 1 < 0 then ['-'] else (['+'] : List Char)) = ['+'] ∨
        (if ((natChars d).length : Int) + s - 1 < 0 then ['-'] else (['+'] : List Char)) = ['-'] := by
      split
      · exact Or.inr (Or.inr rfl)
      · exact Or.inr (Or.inl rfl)
    have hnetake : (natChars d).take 1 ≠ [] := by
      rw [hds, List.take_succ_cons]
      simp
    refine ⟨(if neg then ['-'] else []), (natChars d).take 1, [],
      'e' :: ((if ((natChars d).length : Int) + s - 1 < 0 then ['-'] else ['+'])
        ++ natChars (((natChars d).length : Int) + s - 1).natAbs),
      by simp [List.append_assoc], hsgn, ?_, Or.inl rfl,
      Or.inr ⟨'e', _, _, rfl, Or.inl rfl, hsg, natChars_ne_nil _, natChars_all _⟩, ?_⟩
    · right
      refine ⟨hnetake, all_take hall _, ?_⟩
      rw [hds, List.take_succ_cons]
      simp only [List.head?_cons, Option.some.injEq]
      exact hc0ne
    · rw [show (if neg then ['-'] else []) ++ (natChars d).take 1 ++ []
          ++ ('e' :: ((if ((natChars d).length : Int) + s - 1 < 0 then ['-'] else ['+'])
            ++ natChars (((natChars d).length : Int) + s - 1).natAbs))
          = (if neg then ['-'] else []) ++ (natChars d).take 1
          ++ 'e' :: ((if ((natChars d).length : Int) + s - 1 < 0 then ['-'] else ['+'])
            ++ natChars (((natChars d).length : Int) + s - 1).natAbs)
        by simp [List.append_assoc]]
      rw [strToF64_exp neg _ _ _ 'e' hnetake (all_take hall _) hsg (natChars_ne_nil _)
        (natChars_all _) (Or.inl rfl)]
      rw [show (natChars d).take 1 = natChars d by rw [List.take_of_length_le (by omega)]]
      rw [digitsVal_natChars, digitsVal_natChars]
      congr 1
      split
      · rename_i hKneg
        rw [if_pos (show (['-'] : List Char) = ['-'] from rfl)]
        push_cast
        rw [abs_of_nonpos (by omega)]
        congr 1
        omega
      · rename_i hKpos
        rw [if_neg (show ¬ (['+'] : List Char) = ['-'] by decide)]
        push_cast
        rw [abs_of_nonneg (by omega)]
        congr 1
        omega

mutual

/-- Fuel needed by the parsers on the rendering of a value (an upper bound). -/
def Value.cost : Value → Nat
  | .null => 1
  | .bool _ => 1
  | .number _ => 1
  | .string _ => 1
  | .object o => 2 + costEntries o
  | .array a => 2 + costElems a

def costEntries : List (List Char × Value) → Nat
  | [] => 0
  | (_, v) :: rest => 2 + Value.cost v + costEntries rest

def costElems : List Value → Nat
  | [] => 0
  | v :: rest => 2 + Value.cost v + costElems rest

end

mutual

/-- Round-trippable values: every number is finite and in the canonical
`f64` range, and object key lists are duplicate-free (as they are in the
Rust `HashMap`). -/
def Value.good : Value → Prop
  | .null => True
  | .bool _ => True
  | .number n =>
    match n with
    | .finite _ m e => m < 2 ^ 53 ∧ -1074 ≤ e ∧ e ≤ 971 ∧ (2 ^ 52 ≤ m ∨ e = -1074)
    | _ => False
  | .string _ => True
  | .object o => goodEntries o ∧ (o.map Prod.fst).Nodup
  | .array a => goodElems a

def goodEntries : List (List Char × Value) → Prop
  | [] => True
  | (_, v) :: rest => Value.good v ∧ goodEntries rest

def goodElems : List Value → Prop
  | [] => True
  | v :: rest => Value.good v ∧ goodElems rest

end

theorem insertKV_fresh (out : List (List Char × Value)) (k : List Char) (v : Value)
    (h : k ∉ out.map Prod.fst) : insertKV out k v = out ++ [(k, v)] := by
  rw [insertKV, if_neg]
  intro hc
  rw [List.any_eq_true] at hc
  obtain ⟨p, hp, hpk⟩ := hc
  rw [decide_eq_true_eq] at hpk
  exact h (List.mem_map.mpr ⟨p, hp, hpk⟩)

theorem foldl_insertKV_fresh :
    ∀ (t out : List (List Char × Value)),
      (∀ k, k ∈ t.map Prod.fst → k ∉ out.map Prod.fst) → (t.map Prod.fst).Nodup →
      List.foldl (fun o kv => insertKV o kv.1 kv.2) out t = out ++ t := by
  intro t
  induction t with
  | nil => intro out _ _; simp
  | cons kv t' ih =>
    intro out hfresh hnodup
    obtain ⟨k, v⟩ := kv
    rw [List.foldl_cons]
    rw [show insertKV out (k, v).1 (k, v).2 = insertKV out k v from rfl]
    rw [insertKV_fresh out k v (hfresh k (List.mem_map.mpr
      ⟨(k, v), List.mem_cons_self _ _, rfl⟩))]
    rw [List.map_cons, List.nodup_cons] at hnodup
    rw [ih (out ++ [(k, v)]) ?_ hnodup.2]
    · simp
    · intro k2 hk2 hk2mem
      rw [List.map_append] at hk2mem
      rcases List.mem_append.mp hk2mem with h1 | h1
      · exact hfresh k2 (by simp [hk2]) h1
      · simp only [List.map_cons, List.map_nil, List.mem_singleton] at h1
        subst h1
        exact hnodup.1 hk2

theorem matchChars_self : ∀ (kw rest : List Char), matchChars (kw ++ rest) kw = some rest := by
  intro kw
  induction kw with
  | nil => intro rest; rw [List.nil_append, matchChars]
  | cons k ks ih =>
    intro rest
    rw [List.cons_append, matchChars, if_pos rfl]
    exact ih rest

theorem parse_keyword_self (kw rest : List Char) (v : Value) :
    parse_keyword (kw ++ rest) kw v = .ok v rest := by
  rw [parse_keyword, matchChars_self]

theorem fmt_zero (neg : Bool) :
    fmt_finite (.finite neg 0 (-1074)) = (if neg then ['-'] else []) ++ ['0'] := by
  rw [fmt_finite, if_pos rfl]
  cases neg <;> rfl

theorem decToF64_zero (neg : Bool) : decToF64 neg 0 0 = .finite neg 0 (-1074) := rfl

theorem parse_number_append (neg : Bool) (m : Nat) (e : Int) (rest : List Char)
    (hm53 : m < 2 ^ 53) (he1 : -1074 ≤ e) (he2 : e ≤ 971) (hnorm : 2 ^ 52 ≤ m ∨ e = -1074)
    (hrd : ∀ c, rest.head? = some c → c.isDigit = false)
    (hrdot : ¬ rest.head? = some '.')
    (hre : ¬ rest.head? = some 'e') (hrE : ¬ rest.head? = some 'E') :
    parse_number (fmt_finite (.finite neg m e) ++ rest) = .ok (.finite neg m e) rest := by
  by_cases hm : m = 0
  · subst hm
    have he : e = -1074 := by
      rcases hnorm with h | h
      · exact absurd h (by norm_num)
      · exact h
    subst he
    rw [fmt_zero]
    have hv : strToF64 ((if neg then ['-'] else []) ++ ['0'] ++ [] ++ [])
        = some (.finite neg 0 (-1074)) := by
      rw [show (if neg then ['-'] else []) ++ ['0'] ++ [] ++ []
          = (if neg then ['-'] else []) ++ ['0'] by simp]
      rw [strToF64_int neg ['0'] (by simp) (by decide)]
      rfl
    have h := parse_number_forward (if neg then ['-'] else []) ['0'] [] [] rest
      (.finite neg 0 (-1074)) (by cases neg <;> simp) (Or.inl rfl) (Or.inl rfl) (Or.inl rfl)
      hrd hrdot hre hrE hv
    rw [show (if neg then ['-'] else []) ++ ['0'] ++ [] ++ [] ++ rest
        = (if neg then ['-'] else []) ++ ['0'] ++ rest by simp] at h
    rw [show (if neg then ['-'] else []) ++ ['0'] ++ rest
        = ((if neg then ['-'] else []) ++ ['0']) ++ rest by simp] at h ⊢
    exact h
  · obtain ⟨d, s, hfmt, hdec, hd⟩ := fmt_finite_spec neg m e (by omega) hm53 he1 he2 hnorm
    obtain ⟨sgn, intd, fr, ex, hsplit, hsgn, hint, hfr, hex, hval⟩ := fmtDec_parse neg d s hd
    rw [hfmt, hsplit]
    rw [hdec] at hval
    have h := parse_number_forward sgn intd fr ex rest (.finite neg m e) hsgn hint hfr hex
      hrd hrdot hre hrE hval
    rw [show sgn ++ intd ++ fr ++ ex ++ rest = (sgn ++ intd ++ fr ++ ex) ++ rest by simp] at h
    exact h

theorem fmt_head (neg : Bool) (m : Nat) (e : Int) (hm53 : m < 2 ^ 53) (he1 : -1074 ≤ e)
    (he2 : e ≤ 971) (hnorm : 2 ^ 52 ≤ m ∨ e = -1074) :
    ∃ c t, fmt_finite (.finite neg m e) = c :: t ∧ (c = '-' ∨ c.isDigit = true) := by
  by_cases hm : m = 0
  · subst hm
    rw [fmt_finite, if_pos rfl]
    cases neg
    · exact ⟨'0', [], rfl, Or.inr (by decide)⟩
    · exact ⟨'-', ['0'], rfl, Or.inl rfl⟩
  · obtain ⟨d, s, hfmt, hdec, hd⟩ := fmt_finite_spec neg m e (by omega) hm53 he1 he2 hnorm
    obtain ⟨sgn, intd, fr, ex, hsplit, hsgn, hint, hfr, hex, hval⟩ := fmtDec_parse neg d s hd
    rw [hfmt, hsplit]
    rcases hsgn with rfl | rfl
    · have hib : ∃ c t2, intd = c :: t2 ∧ c.isDigit = true := by
        rcases hint with rfl | ⟨hne2, hall2, _⟩
        · exact ⟨'0', [], rfl, by decide⟩
        · obtain ⟨c, t2, hct⟩ : ∃ c t2, intd = c :: t2 := by
            cases intd with
            | nil => exact absurd rfl hne2
            | cons c t2 => exact ⟨c, t2, rfl⟩
          subst hct
          exact ⟨c, t2, rfl, all_head (l := c :: t2) rfl hall2⟩
      obtain ⟨c, t2, rfl, hcd⟩ := hib
      exact ⟨c, t2 ++ fr ++ ex, by simp [List.append_assoc], Or.inr hcd⟩
    · exact ⟨'-', intd ++ fr ++ ex, by simp [List.append_assoc], Or.inl rfl⟩

theorem dropWhile_ws_cons (c : Char) (l : List Char) (h : is_ws c = false) :
    List.dropWhile is_ws (c :: l) = c :: l := by
  rw [List.dropWhile_cons]
  simp [h]

theorem dropWhile_ws_entryTail (t : List (List Char × Value)) (rest : List Char) :
    List.dropWhile is_ws (appendEntriesTail t ++ '}' :: rest)
      = appendEntriesTail t ++ '}' :: rest := by
  cases t with
  | nil =>
    rw [appendEntriesTail]
    simp only [List.nil_append]
    exact dropWhile_ws_cons _ _ (by decide)
  | cons kv t2 =>
    obtain ⟨k, v⟩ := kv
    rw [appendEntriesTail]
    simp only [List.cons_append]
    exact dropWhile_ws_cons _ _ (by decide)

theorem dropWhile_ws_elemsTail (t : List Value) (rest : List Char) :
    List.dropWhile is_ws (appendElemsTail t ++ ']' :: rest)
      = appendElemsTail t ++ ']' :: rest := by
  cases t with
  | nil =>
    rw [appendElemsTail]
    simp only [List.nil_append]
    exact dropWhile_ws_cons _ _ (by decide)
  | cons v t2 =>
    rw [appendElemsTail]
    simp only [List.cons_append]
    exact dropWhile_ws_cons _ _ (by decide)

theorem safe_entryTail (t : List (List Char × Value)) (rest : List Char) :
    (appendEntriesTail t ++ '}' :: rest).head? = none ∨
    (appendEntriesTail t ++ '}' :: rest).head? = some ',' ∨
    (appendEntriesTail t ++ '}' :: rest).head? = some '}' ∨
    (appendEntriesTail t ++ '}' :: rest).head? = some ']' := by
  cases t with
  | nil =>
    rw [appendEntriesTail]
    simp
  | cons kv t2 =>
    obtain ⟨k, v⟩ := kv
    rw [appendEntriesTail]
    simp

theorem safe_elemsTail (t : List Value) (rest : List Char) :
    (appendElemsTail t ++ ']' :: rest).head? = none ∨
    (appendElemsTail t ++ ']' :: rest).head? = some ',' ∨
    (appendElemsTail t ++ ']' :: rest).head? = some '}' ∨
    (appendElemsTail t ++ ']' :: rest).head? = some ']' := by
  cases t with
  | nil =>
    rw [appendElemsTail]
    simp
  | cons v t2 =>
    rw [appendElemsTail]
    simp

theorem parse_value_close_fail (fuel : Nat) (c : Char) (l : List Char)
    (h : c = ']' ∨ c = '}' ∨ c = ',') : parse_value fuel (c :: l) = .fail := by
  cases fuel with
  | zero => rfl
  | succ f =>
    rw [parse_value.eq_def]
    dsimp only
    rcases h with rfl | rfl | rfl <;>
      rw [if_neg (by decide), if_neg (by decide), if_neg (by decide), if_neg (by decide),
        if_neg (by decide), if_neg (by decide), if_neg (by decide)]

theorem safeR_facts {rest : List Char}
    (hsafe : rest.head? = none ∨ rest.head? = some ',' ∨ rest.head? = some '}' ∨
      rest.head? = some ']') :
    (∀ c, rest.head? = some c → c.isDigit = false) ∧ ¬ rest.head? = some '.' ∧
      ¬ rest.head? = some 'e' ∧ ¬ rest.head? = some 'E' := by
  rcases hsafe with h | h | h | h <;> rw [h]
  · exact ⟨fun c hc => (by cases hc), (by simp), (by simp), (by simp)⟩
  · exact ⟨fun c hc => (by cases hc; decide), (by decide), (by decide), (by decide)⟩
  · exact ⟨fun c hc => (by cases hc; decide), (by decide), (by decide), (by decide)⟩
  · exact ⟨fun c hc => (by cases hc; decide), (by decide), (by decide), (by decide)⟩

theorem Value.cost_pos (v : Value) : 1 ≤ Value.cost v := by
  cases v <;> rw [Value.cost] <;> omega

theorem renderRT : ∀ fuel : Nat,
    (∀ v rest, Value.good v → Value.cost v ≤ fuel →
      (rest.head? = none ∨ rest.head? = some ',' ∨ rest.head? = some '}' ∨
        rest.head? = some ']') →
      parse_value fuel (Value.append v ++ rest) = .ok v rest) ∧
    (∀ k v out rest, Value.good v → Value.cost v + 1 ≤ fuel →
      (rest.head? = none ∨ rest.head? = some ',' ∨ rest.head? = some '}' ∨
        rest.head? = some ']') →
      consume_object_entry fuel (append_str k ++ ':' :: (Value.append v ++ rest)) out
        = .ok (insertKV out k v) rest) ∧
    (∀ t out rest, goodEntries t → costEntries t + 1 ≤ fuel →
      parse_object_loop fuel (appendEntriesTail t ++ '}' :: rest) out
        = .ok (List.foldl (fun o kv => insertKV o kv.1 kv.2) out t) rest) ∧
    (∀ t out rest, goodElems t → costElems t + 1 ≤ fuel →
      parse_array_loop fuel (appendElemsTail t ++ ']' :: rest) out = .ok (out ++ t) rest) := by
  intro fuel
  induction fuel using Nat.strong_induction_on with
  | _ fuel ih =>
  refine ⟨?_, ?_, ?_, ?_⟩
  · intro v rest hg hc hsafe
    cases v with
    | null =>
      have h1 : 1 ≤ fuel := le_trans (by rw [Value.cost]) hc
      obtain ⟨f, rfl⟩ : ∃ f, fuel = f + 1 := ⟨fuel - 1, by omega⟩
      rw [Value.append]
      simp only [List.cons_append, List.nil_append]
      rw [parse_value.eq_def]
      dsimp only
      rw [if_neg (by decide), if_neg (by decide), if_neg (by decide), if_neg (by decide),
        if_neg (by decide), if_pos rfl]
      rw [show ('n' :: 'u' :: 'l' :: 'l' :: rest : List Char) = ['n', 'u', 'l', 'l'] ++ rest
        from rfl]
      exact parse_keyword_self ['n', 'u', 'l', 'l'] rest .null
    | bool b =>
      have h1 : 1 ≤ fuel := le_trans (by rw [Value.cost]) hc
      obtain ⟨f, rfl⟩ : ∃ f, fuel = f + 1 := ⟨fuel - 1, by omega⟩
      cases b
      · rw [Value.append]
        rw [if_neg (by decide)]
        simp only [List.cons_append, List.nil_append]
        rw [parse_value.eq_def]
        dsimp only
        rw [if_neg (by decide), if_neg (by decide), if_neg (by decide), if_neg (by decide),
          if_pos rfl]
        rw [show ('f' :: 'a' :: 'l' :: 's' :: 'e' :: rest : List Char)
          = ['f', 'a', 'l', 's', 'e'] ++ rest from rfl]
        exact parse_keyword_self ['f', 'a', 'l', 's', 'e'] rest (.bool false)
      · rw [Value.append]
        rw [if_pos rfl]
        simp only [List.cons_append, List.nil_append]
        rw [parse_value.eq_def]
        dsimp only
        rw [if_neg (by decide), if_neg (by decide), if_neg (by decide), if_neg (by decide),
          if_neg (by decide), if_neg (by decide), if_pos rfl]
        rw [show ('t' :: 'r' :: 'u' :: 'e' :: rest : List Char)
          = ['t', 'r', 'u', 'e'] ++ rest from rfl]
        exact parse_keyword_self ['t', 'r', 'u', 'e'] rest (.bool true)
    | number n =>
      cases n with
      | finite neg m e =>
        have hwf : m < 2 ^ 53 ∧ -1074 ≤ e ∧ e ≤ 971 ∧ (2 ^ 52 ≤ m ∨ e = -1074) := by
          simpa [Value.good] using hg
        have h1 : 1 ≤ fuel := le_trans (by rw [Value.cost]) hc
        obtain ⟨f, rfl⟩ : ∃ f, fuel = f + 1 := ⟨fuel - 1, by omega⟩
        obtain ⟨hrd, hrdot, hre, hrE⟩ := safeR_facts hsafe
        obtain ⟨c, t, hfmt, hcd⟩ := fmt_head neg m e hwf.1 hwf.2.1 hwf.2.2.1 hwf.2.2.2
        have hne1 : ¬ c = '{' := by
          rcases hcd with rfl | hcd
          · decide
          · exact isDigit_ne hcd (by decide)
        have hne2 : ¬ c = '[' := by
          rcases hcd with rfl | hcd
          · decide
          · exact isDigit_ne hcd (by decide)
        have hne3 : ¬ c = '"' := by
          rcases hcd with rfl | hcd
          · decide
          · exact isDigit_ne hcd (by decide)
        rw [Value.append,
          if_pos (show (F64.finite neg m e).isFinite = true from rfl), hfmt]
        simp only [List.cons_append]
        rw [parse_value.eq_def]
        dsimp only
        rw [if_neg hne1, if_neg hne2, if_neg hne3, if_pos hcd]
        rw [show c :: (t ++ rest) = (c :: t) ++ rest from rfl, ← hfmt]
        rw [parse_number_append neg m e rest hwf.1 hwf.2.1 hwf.2.2.1 hwf.2.2.2
          hrd hrdot hre hrE]
        rfl
      | infinite neg => exact absurd hg (by simp [Value.good])
      | nan => exact absurd hg (by simp [Value.good])
    | string s =>
      have h1 : 1 ≤ fuel := le_trans (by rw [Value.cost]) hc
      obtain ⟨f, rfl⟩ : ∃ f, fuel = f + 1 := ⟨fuel - 1, by omega⟩
      rw [Value.append]
      obtain ⟨body, hb⟩ : ∃ body, append_str s = '"' :: body := ⟨_, rfl⟩
      rw [hb]
      simp only [List.cons_append]
      rw [parse_value.eq_def]
      dsimp only
      rw [if_neg (by decide), if_neg (by decide), if_pos rfl]
      rw [show '"' :: (body ++ rest) = ('"' :: body) ++ rest from rfl, ← hb]
      rw [parse_string_append s rest]
      rfl
    | object o =>
      have hgo : goodEntries o ∧ (o.map Prod.fst).Nodup := by simpa [Value.good] using hg
      have hc2 : 2 + costEntries o ≤ fuel := by rw [Value.cost] at hc; exact hc
      obtain ⟨f, rfl⟩ : ∃ f, fuel = f + 1 := ⟨fuel - 1, by omega⟩
      rw [Value.append]
      simp only [List.cons_append]
      rw [parse_value.eq_def]
      dsimp only
      rw [if_pos rfl]
      have hobj : parse_object f ('{' :: ((appendEntries o ++ ['}']) ++ rest)) = .ok o rest := by
        obtain ⟨f2, rfl⟩ : ∃ f2, f = f2 + 1 := ⟨f - 1, by omega⟩
        rw [parse_object.eq_def]
        dsimp only
        rw [if_pos rfl]
        cases o with
        | nil =>
          rw [appendEntries]
          simp only [List.nil_append, List.cons_append]
          rw [dropWhile_ws_cons '}' rest (by decide)]
          dsimp only
          rw [if_pos rfl]
        | cons kv t =>
          obtain ⟨k, v⟩ := kv
          have hgv : Value.good v := by
            have := hgo.1
            rw [goodEntries] at this
            exact this.1
          have hgt : goodEntries t := by
            have := hgo.1
            rw [goodEntries] at this
            exact this.2
          rw [costEntries] at hc2
          obtain ⟨body, hbk⟩ : ∃ body, append_str k = '"' :: body := ⟨_, rfl⟩
          rw [appendEntries, hbk]
          simp only [List.cons_append, List.append_assoc, List.nil_append]
          rw [dropWhile_ws_cons '"' _ (by decide)]
          dsimp only
          rw [if_neg (by decide)]
          have hentry := (ih f2 (by omega)).2.1 k v [] (appendEntriesTail t ++ '}' :: rest)
            hgv (by omega) (safe_entryTail t rest)
          rw [hbk] at hentry
          simp only [List.cons_append, List.append_assoc] at hentry
          rw [hentry]
          dsimp only
          rw [dropWhile_ws_entryTail t rest]
          have hloop := (ih f2 (by omega)).2.2.1 t (insertKV [] k v) rest hgt (by omega)
          rw [hloop]
          rw [show insertKV [] k v = [(k, v)] from rfl]
          rw [foldl_insertKV_fresh t [(k, v)] ?fresh ?nod]
          case fresh =>
            intro k2 hk2 hk2m
            simp only [List.map_cons, List.map_nil, List.mem_singleton] at hk2m
            subst hk2m
            have := hgo.2
            rw [List.map_cons, List.nodup_cons] at this
            exact this.1 hk2
          case nod =>
            have := hgo.2
            rw [List.map_cons, List.nodup_cons] at this
            exact this.2
          rfl
      rw [hobj]
      rfl
    | array a =>
      have hga : goodElems a := by simpa [Value.good] using hg
      have hc2 : 2 + costElems a ≤ fuel := by rw [Value.cost] at hc; exact hc
      obtain ⟨f, rfl⟩ : ∃ f, fuel = f + 1 := ⟨fuel - 1, by omega⟩
      rw [Value.append]
      simp only [List.cons_append]
      rw [parse_value.eq_def]
      dsimp only
      rw [if_neg (by decide), if_pos rfl]
      have harr : parse_array f ('[' :: ((appendElems a ++ [']']) ++ rest)) = .ok a rest := by
        obtain ⟨f2, rfl⟩ : ∃ f2, f = f2 + 1 := ⟨f - 1, by omega⟩
        rw [parse_array.eq_def]
        dsimp only
        rw [if_pos rfl]
        cases a with
        | nil =>
          rw [appendElems]
          simp only [List.nil_append, List.cons_append]
          rw [dropWhile_ws_cons ']' rest (by decide)]
          dsimp only
          rw [if_pos rfl]
        | cons v t =>
          have hgv : Value.good v := by
            rw [goodElems] at hga
            exact hga.1
          have hgt : goodElems t := by
            rw [goodElems] at hga
            exact hga.2
          rw [costElems] at hc2
          rw [appendElems]
          simp only [List.cons_append, List.append_assoc, List.nil_append]
          have H := (ih f2 (by omega)).1 v (appendElemsTail t ++ ']' :: rest) hgv (by omega)
            (safe_elemsTail t rest)
          obtain ⟨c, tl, hct, hnws⟩ := parse_value_ok_head H
          rw [hct]
          rw [dropWhile_ws_cons c tl hnws]
          dsimp only
          have hcne : ¬ c = ']' := by
            intro hceq
            subst hceq
            rw [hct, parse_value_close_fail f2 ']' tl (Or.inl rfl)] at H
            exact PRes.noConfusion H
          rw [if_neg hcne]
          rw [← hct, H]
          dsimp only
          rw [dropWhile_ws_elemsTail t rest]
          have hloop := (ih f2 (by omega)).2.2.2 t [v] rest hgt (by omega)
          rw [hloop]
          rfl
      rw [harr]
      rfl
  · intro k v out rest hgv hcost hsafe
    have h1 : 1 ≤ Value.cost v := Value.cost_pos v
    obtain ⟨g, rfl⟩ : ∃ g, fuel = g + 1 := ⟨fuel - 1, by omega⟩
    rw [consume_object_entry.eq_def]
    dsimp only
    rw [parse_string_append k (':' :: (Value.append v ++ rest))]
    dsimp only
    rw [dropWhile_ws_cons ':' _ (by decide)]
    dsimp only
    rw [if_pos rfl]
    have H := (ih g (by omega)).1 v rest hgv (by omega) hsafe
    obtain ⟨c, tl, hct, hnws⟩ := parse_value_ok_head H
    rw [show List.dropWhile is_ws (Value.append v ++ rest) = Value.append v ++ rest from by
      rw [hct]
      exact dropWhile_ws_cons c tl hnws]
    rw [H]
  · intro t out rest hgt hcost
    obtain ⟨g, rfl⟩ : ∃ g, fuel = g + 1 := ⟨fuel - 1, by omega⟩
    cases t with
    | nil =>
      rw [appendEntriesTail]
      simp only [List.nil_append]
      rw [parse_object_loop.eq_def]
      dsimp only
      rw [if_pos rfl, List.foldl_nil]
    | cons kv t2 =>
      obtain ⟨k, v⟩ := kv
      have hgv : Value.good v := by
        rw [goodEntries] at hgt
        exact hgt.1
      have hgt2 : goodEntries t2 := by
        rw [goodEntries] at hgt
        exact hgt.2
      rw [costEntries] at hcost
      rw [appendEntriesTail]
      simp only [List.cons_append, List.append_assoc]
      rw [parse_object_loop.eq_def]
      dsimp only
      rw [if_neg (by decide), if_pos rfl]
      rw [show List.dropWhile is_ws
          (append_str k ++ ':' :: (Value.append v ++ (appendEntriesTail t2 ++ '}' :: rest)))
          = append_str k ++ ':' :: (Value.append v ++ (appendEntriesTail t2 ++ '}' :: rest))
        from by
        obtain ⟨body, hbk⟩ : ∃ body, append_str k = '"' :: body := ⟨_, rfl⟩
        rw [hbk]
        simp only [List.cons_append]
        exact dropWhile_ws_cons '"' _ (by decide)]
      have hentry := (ih g (by omega)).2.1 k v out (appendEntriesTail t2 ++ '}' :: rest)
        hgv (by omega) (safe_entryTail t2 rest)
      rw [hentry]
      dsimp only
      rw [dropWhile_ws_entryTail t2 rest]
      have hloop := (ih g (by omega)).2.2.1 t2 (insertKV out k v) rest hgt2 (by omega)
      rw [hloop, List.foldl_cons]
  · intro t out rest hgt hcost
    obtain ⟨g, rfl⟩ : ∃ g, fuel = g + 1 := ⟨fuel - 1, by omega⟩
    cases t with
    | nil =>
      rw [appendElemsTail]
      simp only [List.nil_append]
      rw [parse_array_loop.eq_def]
      dsimp only
      rw [if_pos rfl, List.append_nil]
    | cons v t2 =>
      have hgv : Value.good v := by
        rw [goodElems] at hgt
        exact hgt.1
      have hgt2 : goodElems t2 := by
        rw [goodElems] at hgt
        exact hgt.2
      rw [costElems] at hcost
      rw [appendElemsTail]
      simp only [List.cons_append, List.append_assoc]
      rw [parse_array_loop.eq_def]
      dsimp only
      rw [if_neg (by decide), if_pos rfl]
      have H := (ih g (by omega)).1 v (appendElemsTail t2 ++ ']' :: rest) hgv (by omega)
        (safe_elemsTail t2 rest)
      obtain ⟨c, tl, hct, hnws⟩ := parse_value_ok_head H
      rw [show List.dropWhile is_ws (Value.append v ++ (appendElemsTail t2 ++ ']' :: rest))
          = Value.append v ++ (appendElemsTail t2 ++ ']' :: rest) from by
        rw [hct]
        exact dropWhile_ws_cons c tl hnws]
      rw [H]
      dsimp only
      rw [dropWhile_ws_elemsTail t2 rest]
      have hloop := (ih g (by omega)).2.2.2 t2 (out ++ [v]) rest hgt2 (by omega)
      rw [hloop, List.append_assoc]
      rfl

mutual

theorem cost_le_lenV : ∀ v : Value, Value.cost v ≤ 3 * (Value.append v).length
  | .null => by rw [Value.cost, Value.append]; simp
  | .bool b => by
    cases b <;> rw [Value.cost, Value.append] <;> simp
  | .number n => by
    rw [Value.cost]
    cases n with
    | finite neg m e =>
      rw [Value.append, if_pos (show (F64.finite neg m e).isFinite = true from rfl)]
      have := List.length_pos.mpr (fmt_finite_ne_nil neg m e)
      omega
    | infinite neg =>
      have hnf : (F64.infinite neg).isFinite = false := rfl
      rw [Value.append, if_neg (by rw [hnf]; simp)]
      simp
    | nan =>
      have hnf : (F64.nan).isFinite = false := rfl
      rw [Value.append, if_neg (by rw [hnf]; simp)]
      simp
  | .string s => by
    rw [Value.cost, Value.append, append_str]
    simp only [List.length_cons]
    omega
  | .object o => by
    rw [Value.cost, Value.append]
    have := cost_le_lenE2 o
    simp only [List.length_cons, List.length_append]
    omega
  | .array a => by
    rw [Value.cost, Value.append]
    have := cost_le_lenL2 a
    simp only [List.length_cons, List.length_append]
    omega

theorem cost_le_lenE : ∀ t, costEntries t ≤ 3 * (appendEntriesTail t).length
  | [] => by rw [costEntries, appendEntriesTail]; simp
  | (k, v) :: t => by
    rw [costEntries, appendEntriesTail]
    have h1 := cost_le_lenV v
    have h2 := cost_le_lenE t
    simp only [List.length_cons, List.length_append]
    omega

theorem cost_le_lenE2 : ∀ o, costEntries o ≤ 3 * (appendEntries o).length + 3
  | [] => by rw [costEntries]; omega
  | (k, v) :: t => by
    rw [costEntries, appendEntries]
    have h1 := cost_le_lenV v
    have h2 := cost_le_lenE t
    simp only [List.length_cons, List.length_append]
    omega

theorem cost_le_lenL : ∀ t, costElems t ≤ 3 * (appendElemsTail t).length
  | [] => by rw [costElems, appendElemsTail]; simp
  | v :: t => by
    rw [costElems, appendElemsTail]
    have h1 := cost_le_lenV v
    have h2 := cost_le_lenL t
    simp only [List.length_cons, List.length_append]
    omega

theorem cost_le_lenL2 : ∀ a, costElems a ≤ 3 * (appendElems a).length + 3
  | [] => by rw [costElems]; omega
  | v :: t => by
    rw [costElems, appendElems]
    have h1 := cost_le_lenV v
    have h2 := cost_le_lenL t
    simp only [List.length_cons, List.length_append]
    omega

end

theorem roundTrip (v : Value) (hg : Value.good v) :
    parse (Value.append v) = .ok v := by
  rw [parse]
  have hcost : Value.cost v ≤ fuelFor (Value.append v) := by
    rw [fuelFor]
    have := cost_le_lenV v
    omega
  have H := (renderRT (fuelFor (Value.append v))).1 v [] hg hcost (Or.inl rfl)
  rw [List.append_nil] at H
  obtain ⟨c, tl, hct, hnws⟩ := parse_value_ok_head H
  rw [show List.dropWhile is_ws (Value.append v) = Value.append v from by
    rw [hct]
    exact dropWhile_ws_cons c tl hnws]
  rw [H]
  dsimp only
  rfl

/-- C1: round-trip.  For every value `v` whose numbers are all finite (and
in canonical `f64` range, as every Rust `f64` is) and whose object key
lists are duplicate-free (as every Rust `HashMap` iteration is), rendering
`v` with the `Display` serializer and re-parsing the result yields exactly
`v` (the model renders and re-inserts object entries in iteration order, so
structural equality here is plain equality).  Idempotence
`render (parse (render v)) = render v` follows by applying the renderer to
both sides. -/
theorem C1_render_parse_roundtrip :
    ∀ v : Value, Value.good v → parse (Value.append v) = .ok v :=
  fun v hg => roundTrip v hg

/-- Witness for C1: a compound value with all constructors round-trips. -/
theorem C1_render_parse_roundtrip_witness :
    parse (Value.append (.array [.null, .bool true, .string ['a'],
      .number (.finite false (2 ^ 52) (-52)),
      .object [(['k'], .number (.finite true 0 (-1074)))]])) =
      .ok (.array [.null, .bool true, .string ['a'],
        .number (.finite false (2 ^ 52) (-52)),
        .object [(['k'], .number (.finite true 0 (-1074)))]]) :=
  C1_render_parse_roundtrip _ (by
    simp only [Value.good, goodElems, goodEntries, List.map_cons, List.map_nil,
      List.nodup_cons, List.nodup_nil, List.not_mem_nil, not_false_iff, and_true, true_and]
    norm_num)

end JsonRust
